import Mathlib

/-!
libcompra: a shallow embedding of the codecs and their round-trip laws.

The C++ sources (`src/src/compra.cpp`, `include/compra/compra.h`) are embedded as
pure Lean functions.

* `std::string` and `std::vector<unsigned char>` are lists of `Byte` (`Fin 256`, the
  unsigned value of the byte).
* `size_t` values are natural numbers; the unguarded subtractions and the index
  additions of the source wrap modulo `2 ^ 64` (`subSize`, `addSize`).
* `int` values are integers kept in the 32-bit range (`wrapInt`).
* `std::priority_queue` and `std::sort` are parameters of the functions that call them
  (`Huffman.PriorityQueue`, `FSE.Methods.StdSort`): the C++ standard fixes what they deliver only
  up to the order of equal elements, and the theorems hold for every admissible order.
* Reading a string at an index that is not below its length gives the zero byte
  (`charAt`): this is what `std::string::operator[]` returns at `size()`.
* Loops are folds over the range they run through, or recursions on a fuel value that
  is at least the number of iterations the loop can make.
-/

namespace Compra

/-- One `char` / `unsigned char`, by its unsigned value. -/
abbrev Byte := Fin 256

/-- Subtraction of two `size_t` values: wraps modulo `2 ^ 64`. -/
def subSize (a b : Nat) : Nat := (a + (2 ^ 64 - b % 2 ^ 64)) % 2 ^ 64

/-- Addition of two `size_t` values: wraps modulo `2 ^ 64`. -/
def addSize (a b : Nat) : Nat := (a + b) % 2 ^ 64

/-- The value of an `int` expression whose exact result is `x`: `int` is a 32-bit two's
complement integer, and the result is brought back into `-2 ^ 31 .. 2 ^ 31 - 1`. Overflow
of a signed integer is undefined in C++ (the x86-64 builds wrap); the theorems about `int`
counters carry the bound under which no operation overflows. -/
def wrapInt (x : Int) : Int := (x + 2 ^ 31) % 2 ^ 32 - 2 ^ 31

/-- The expression `s[i]` on a `std::string`. -/
def charAt (s : List Byte) (i : Nat) : Byte := s.getD i 0

/-- The byte-by-byte copy `for (i = 0; i < length; ++i) output += output[start + i]`
that every match-based decoder of the library contains. -/
def copyMatch (output : List Byte) (start length : Nat) : List Byte :=
  (List.range length).foldl (fun out i => out ++ [charAt out (addSize start i)]) output

/-- The conversion `(char)n` of a `size_t` to one byte. -/
def toChar (n : Nat) : Byte := ⟨n % 256, Nat.mod_lt n (by decide)⟩

/-- Lookup in a `std::map`, the map being the list of its key-value pairs:
`find`, `count` and reading through `operator[]` on a present key. -/
def mapFind {κ ν : Type} [DecidableEq κ] : List (κ × ν) → κ → Option ν
  | [], _ => none
  | (k, v) :: rest, key => if key = k then some v else mapFind rest key

/-- The assignment `m[key] = value` on a `std::map`: replaces the value of a present
key, adds the pair otherwise. -/
def mapSet {κ ν : Type} [DecidableEq κ] : List (κ × ν) → κ → ν → List (κ × ν)
  | [], key, value => [(key, value)]
  | (k, v) :: rest, key, value =>
    if key = k then (k, value) :: rest else (k, v) :: mapSet rest key value

/-- Reading `m[key]` on a `std::map`: the value of a present key; an absent key is
inserted with the value-initialised `d`, which is returned. -/
def mapIndex {κ ν : Type} [DecidableEq κ] (m : List (κ × ν)) (key : κ) (d : ν) :
    ν × List (κ × ν) :=
  match mapFind m key with
  | some v => (v, m)
  | none => (d, mapSet m key d)

/-- The value of a `char` as the key order of `std::map<char, _>` sees it: `char` is a
signed 8-bit integer (the x86-64 ABI), so the bytes 128..255 come before 0..127. -/
def charOrd (c : Byte) : Int := if c.val < 128 then (c.val : Int) else (c.val : Int) - 256

/-- A read-modify-write `m[key] = f(m[key])` on a `std::map<char, _>`, the map being the
list of its pairs in ascending key order; `operator[]` inserts the value-initialised
`d` for an absent key. -/
def charMapModify {ν : Type} (f : ν → ν) (d : ν) : List (Byte × ν) → Byte → List (Byte × ν)
  | [], key => [(key, f d)]
  | (k, v) :: rest, key =>
    if key = k then (k, f v) :: rest
    else if charOrd key < charOrd k then (key, f d) :: (k, v) :: rest
    else (k, v) :: charMapModify f d rest key

/-- The `L` bytes from position `j` on agree with the `L` bytes from the cursor `i` on,
and the latter lie inside the input. -/
def IsMatch (input : List Byte) (i j L : Nat) : Prop :=
  i + L ≤ input.length ∧ ∀ k, k < L → charAt input (j + k) = charAt input (i + k)

/-- A back-reference `(off, len)` at cursor `i` is sound: it is empty, or it points at
an earlier position from which `len` bytes agree with the bytes at the cursor. -/
def SoundMatch (input : List Byte) (i off len : Nat) : Prop :=
  len = 0 ∨ (1 ≤ off ∧ off ≤ i ∧ i + len ≤ input.length ∧
    ∀ k, k < len → charAt input (i - off + k) = charAt input (i + k))


/-- The cursor at which the `k`-th token of an LZ token list is emitted, read off the
`length` fields of the tokens: each of the `k` tokens before it stands for its `length`
copied bytes and one literal byte. -/
def cursorAt (lengths : List Nat) (k : Nat) : Nat :=
  ((lengths.take k).map (fun l => l + 1)).sum

/-- The pairs of a `std::map<char, _>` are held in strictly ascending key order. -/
def KeysSorted {ν : Type} (m : List (Byte × ν)) : Prop :=
  m.Pairwise (fun a b => charOrd a.1 < charOrd b.1)
namespace LZ77

/-- The `LZ77::Token` record. -/
structure Token where
  offset : Nat
  length : Nat
  next : Byte
deriving DecidableEq, Repr

/-- The inner `while` loop of `LZ77::findLongestMatch` for one candidate `j`; the state
is `length` and the pair `(bestOffset, bestLength)`. -/
def matchWhile (input : List Byte) (i j : Nat) : Nat → Nat → Nat × Nat → Nat × Nat
  | 0, _, best => best
  | fuel + 1, length, best =>
    if i + length < input.length ∧ charAt input (j + length) = charAt input (i + length) then
      matchWhile input i j fuel (length + 1)
        (if length + 1 > best.2 then (i - j, length + 1) else best)
    else best

/-- The function `LZ77::findLongestMatch`: returns `(bestLength, bestOffset)`, the second
component being the final value of the reference parameter. -/
def findLongestMatch (input : List Byte) (i searchStart _windowSize bestOffset : Nat) :
    Nat × Nat :=
  let r := (List.range' searchStart (i - searchStart)).foldl
    (fun best j => matchWhile input i j (input.length - i) 0 best) (bestOffset, 0)
  (r.2, r.1)

/-- The `while (i < input.size())` loop of `LZ77::compress`. -/
def compressLoop (input : List Byte) (windowSize : Nat) : Nat → Nat → List Token
  | 0, _ => []
  | fuel + 1, i =>
    if i < input.length then
      let m := findLongestMatch input i (if i < windowSize then 0 else i - windowSize)
        windowSize 0
      let bestLength := m.1
      let bestOffset := m.2
      let nextChar : Byte :=
        if i + bestLength < input.length then charAt input (i + bestLength) else 0
      ⟨bestOffset, bestLength, nextChar⟩ :: compressLoop input windowSize fuel (i + bestLength + 1)
    else []

/-- The function `LZ77::compress`. -/
def compress (input : List Byte) (windowSize : Nat) : List Token :=
  compressLoop input windowSize input.length 0

/-- One iteration of the `for` loop of `LZ77::decompress`. -/
def decompressStep (output : List Byte) (token : Token) : List Byte :=
  let start := subSize output.length token.offset
  let out := copyMatch output start token.length
  if token.next ≠ 0 then out ++ [token.next] else out

/-- The function `LZ77::decompress`. -/
def decompress (tokens : List Token) : List Byte :=
  tokens.foldl decompressStep []

/-- What the scan of `findLongestMatch` has established for the pair
`best = (bestOffset, bestLength)` once the candidates `searchStart ≤ j < s` are done: no
candidate has a longer match, and the pair is untouched with length 0, or it names the
leftmost candidate that has a match of the best length. -/
def ScanInv (input : List Byte) (i searchStart bestOffset s : Nat) (best : Nat × Nat) : Prop :=
  (∀ j L, searchStart ≤ j → j < s → IsMatch input i j L → L ≤ best.2) ∧
  ((best.2 = 0 ∧ best.1 = bestOffset) ∨
    (0 < best.2 ∧ ∃ j0, searchStart ≤ j0 ∧ j0 < s ∧ best.1 = i - j0 ∧
      IsMatch input i j0 best.2 ∧
      ∀ j, searchStart ≤ j → j < j0 → ¬ IsMatch input i j best.2))

end LZ77

/-- The value `std::string::npos`. -/
def npos : Nat := 2 ^ 64 - 1

/-- The index of the first occurrence of `ch` in a string, if there is one. -/
def indexOfByte : List Byte → Byte → Option Nat
  | [], _ => none
  | c :: rest, ch => if c = ch then some 0 else (indexOfByte rest ch).map (· + 1)

/-- The call `str.find(ch, pos)`: the first index at or after `pos` that holds `ch`, or
`npos`. -/
def strFind (str : List Byte) (ch : Byte) (pos : Nat) : Nat :=
  match indexOfByte (str.drop pos) ch with
  | some k => pos + k
  | none => npos

/-- The call `str.substr(pos, len)`; it throws (`none`) when `pos` exceeds the size. -/
def substr (str : List Byte) (pos len : Nat) : Option (List Byte) :=
  if pos > str.length then none else some ((str.drop pos).take len)

/-- The decimal digit character of a value below ten. -/
def digitChar (d : Nat) : Byte := toChar (48 + d)

/-- The digits of `n`, most significant first, in front of `acc`. -/
def toDigitsFuel : Nat → Nat → List Byte → List Byte
  | 0, _, acc => acc
  | fuel + 1, n, acc =>
    if n / 10 = 0 then digitChar (n % 10) :: acc
    else toDigitsFuel fuel (n / 10) (digitChar (n % 10) :: acc)

/-- The call `std::to_string(n)` on a `size_t`. -/
def to_string (n : Nat) : List Byte := toDigitsFuel (n + 1) n []

/-- The predicate `isspace` of the C locale. -/
def isSpace (c : Byte) : Bool := decide (c.val = 32 ∨ (9 ≤ c.val ∧ c.val ≤ 13))

/-- The predicate `isdigit`. -/
def isDigit (c : Byte) : Bool := decide (48 ≤ c.val ∧ c.val ≤ 57)

/-- The call `std::stoull(str)`: leading white space, an optional sign, then the longest
run of decimal digits. It throws (`none`) when there is no digit or the value does not
fit 64 bits; a minus sign negates modulo `2 ^ 64`. -/
def stoull (str : List Byte) : Option Nat :=
  let s1 := str.dropWhile isSpace
  let neg : Bool := decide (s1.head? = some 45)
  let s2 := if s1.head? = some 45 ∨ s1.head? = some 43 then s1.drop 1 else s1
  let digits := s2.takeWhile isDigit
  if digits = [] then none
  else
    let value := digits.foldl (fun v c => v * 10 + (c.val - 48)) 0
    if value ≥ 2 ^ 64 then none else some (if neg then subSize 0 value else value)

namespace LZ77

namespace Utils

/-- The function `LZ77::Utils::serializeToken`. -/
def serializeToken (token : Token) : List Byte :=
  to_string token.offset ++ [44] ++ to_string token.length ++ [44] ++ [token.next]

/-- The function `LZ77::Utils::vectorToString`. -/
def vectorToString (tokens : List Token) : List Byte :=
  let result := tokens.foldl (fun result token => result ++ (serializeToken token ++ [59])) []
  if result ≠ [] then result.dropLast else result

/-- The function `LZ77::Utils::deserializeToken`; `none` when `substr` or `stoull`
throws. -/
def deserializeToken (str : List Byte) : Option Token :=
  let firstComma := strFind str 44 0
  let secondComma := strFind str 44 (addSize firstComma 1)
  match substr str 0 firstComma with
  | none => none
  | some s1 =>
    match stoull s1 with
    | none => none
    | some offset =>
      match substr str (addSize firstComma 1) (subSize (subSize secondComma firstComma) 1) with
      | none => none
      | some s2 =>
        match stoull s2 with
        | none => none
        | some length => some ⟨offset, length, charAt str (addSize secondComma 1)⟩

/-- The `while` loop of `LZ77::Utils::stringToVector` and the statement after it, from
position `start` on, with the tokens read so far. -/
def stringToVectorLoop (str : List Byte) : Nat → Nat → List Token → Option (List Token)
  | 0, _, _ => none
  | fuel + 1, start, tokens =>
    let endPos := strFind str 59 start
    if endPos ≠ npos then
      match substr str start (subSize endPos start) with
      | none => none
      | some piece =>
        match deserializeToken piece with
        | none => none
        | some token => stringToVectorLoop str fuel (addSize endPos 1) (tokens ++ [token])
    else if start < str.length then
      match substr str start npos with
      | none => none
      | some piece =>
        match deserializeToken piece with
        | none => none
        | some token => some (tokens ++ [token])
    else some tokens

/-- The function `LZ77::Utils::stringToVector`. -/
def stringToVector (str : List Byte) : Option (List Token) :=
  stringToVectorLoop str (str.length + 1) 0 []

end Utils

end LZ77

namespace LZ77.Utils

/-- The texts of the tokens, separated by `';'`: what `vectorToString` returns. -/
def joinTokens : List Token → List Byte
  | [] => []
  | [t] => serializeToken t
  | t :: t' :: rest => serializeToken t ++ 59 :: joinTokens (t' :: rest)

end LZ77.Utils

namespace LZ4

/-- The inner `while` loop of `LZ4::findLongestMatch`: the final value of `k`. -/
def matchWhile (input : List Byte) (i j : Nat) : Nat → Nat → Nat
  | 0, k => k
  | fuel + 1, k =>
    if k < 255 ∧ j + k < i ∧ i + k < input.length ∧
        charAt input (j + k) = charAt input (i + k) then
      matchWhile input i j fuel (k + 1)
    else k

/-- The function `LZ4::findLongestMatch`: returns `(match_length, match_offset)`, the
second component being the final value of the reference parameter. -/
def findLongestMatch (input : List Byte) (i match_offset : Nat) : Nat × Nat :=
  let window_start := max i 16 - 16
  (List.range' window_start (i - window_start)).foldl
    (fun st j =>
      let k := matchWhile input i j 255 0
      if k > st.1 then (k, i - j) else st)
    (0, match_offset)

/-- The `while (i < length)` loop of `LZ4::compress`. -/
def compressLoop (input : List Byte) : Nat → Nat → List Byte
  | 0, _ => []
  | fuel + 1, i =>
    if i < input.length then
      let m := findLongestMatch input i 0
      let match_length := m.1
      let match_offset := m.2
      if match_length > 3 then
        toChar match_offset :: toChar match_length ::
          compressLoop input fuel (i + match_length)
      else
        charAt input i :: compressLoop input fuel (i + 1)
    else []

/-- The function `LZ4::compress`. -/
def compress (input : List Byte) : List Byte :=
  compressLoop input input.length 0

/-- The `for (i = 0; i < length;)` loop of `LZ4::decompress`. -/
def decompressLoop (input : List Byte) : Nat → Nat → List Byte → List Byte
  | 0, _, output => output
  | fuel + 1, i, output =>
    if i < input.length then
      if i + 1 < input.length ∧ (charAt input i).val < 16 then
        let offset := (charAt input i).val
        let match_length := (charAt input (i + 1)).val
        let start := subSize output.length offset
        decompressLoop input fuel (i + 2) (copyMatch output start match_length)
      else
        decompressLoop input fuel (i + 1) (output ++ [charAt input i])
    else output

/-- The function `LZ4::decompress`. -/
def decompress (input : List Byte) : List Byte :=
  decompressLoop input input.length 0 []

end LZ4

namespace LZSS

/-- The `LZSS::Token` record. -/
structure Token where
  isLiteral : Bool
  literal : Byte
  offset : Nat
  length : Nat
deriving DecidableEq, Repr

/-- The inner `while` loop of `LZSS::findBestMatch`, with its `break`: the final value
of `length`. -/
def matchWhile (input : List Byte) (j currentPos windowSize : Nat) : Nat → Nat → Nat
  | 0, length => length
  | fuel + 1, length =>
    if j + length < currentPos ∧ currentPos + length < input.length ∧
        charAt input (j + length) = charAt input (currentPos + length) then
      if length + 1 ≥ windowSize then length + 1
      else matchWhile input j currentPos windowSize fuel (length + 1)
    else length

/-- The function `LZSS::findBestMatch`: returns `(bestLength, bestOffset)`; the reference
parameter is overwritten with 0 on entry. -/
def findBestMatch (input : List Byte) (windowStart currentPos windowSize _bestOffset : Nat) :
    Nat × Nat :=
  (List.range' windowStart (currentPos - windowStart)).foldl
    (fun st j =>
      let length := matchWhile input j currentPos windowSize (currentPos - j) 0
      if length > st.1 then (length, currentPos - j) else st)
    (0, 0)

/-- The `while (i < inputSize)` loop of `LZSS::compress`; `i - windowSize` is an unsigned
subtraction, and `std::max` with `size_t(0)` leaves it as it is. -/
def compressLoop (input : List Byte) (windowSize : Nat) : Nat → Nat → List Token
  | 0, _ => []
  | fuel + 1, i =>
    if i < input.length then
      let m := findBestMatch input (max (subSize i windowSize) 0) i windowSize 0
      let bestLength := m.1
      let bestOffset := m.2
      if bestLength ≥ 3 then
        ⟨false, 0, bestOffset, bestLength⟩ :: compressLoop input windowSize fuel (i + bestLength)
      else
        ⟨true, charAt input i, 0, 0⟩ :: compressLoop input windowSize fuel (i + 1)
    else []

/-- The function `LZSS::compress`; `lookaheadSize` is not used by the source. -/
def compress (input : List Byte) (windowSize _lookaheadSize : Nat) : List Token :=
  compressLoop input windowSize input.length 0

/-- One iteration of the `for` loop of `LZSS::decompress`. -/
def decompressStep (output : List Byte) (token : Token) : List Byte :=
  if token.isLiteral then output ++ [token.literal]
  else copyMatch output (subSize output.length token.offset) token.length

/-- The function `LZSS::decompress`. -/
def decompress (tokens : List Token) : List Byte :=
  tokens.foldl decompressStep []

end LZSS

namespace LZ5

/-- The `LZ5::Token` record. -/
structure Token where
  offset : Nat
  length : Nat
  next : Byte
deriving DecidableEq, Repr

/-- The inner `while` loop of `LZ5::findLongestMatch` for one candidate `i`: the final
value of `length`. -/
def matchWhile (input : List Byte) (pos i maxOffset : Nat) : Nat → Nat → Nat
  | 0, length => length
  | fuel + 1, length =>
    if length < maxOffset ∧ pos + length < input.length ∧
        charAt input (i + length) = charAt input (pos + length) then
      matchWhile input pos i maxOffset fuel (length + 1)
    else length

/-- The function `LZ5::findLongestMatch`: returns `(bestLength, matchOffset)`, the second
component being the final value of the reference parameter. -/
def findLongestMatch (input : List Byte) (pos maxOffset matchOffset : Nat) : Nat × Nat :=
  let searchStart := if pos > maxOffset then pos - maxOffset else 0
  (List.range' searchStart (pos - searchStart)).foldl
    (fun st i =>
      let length := matchWhile input pos i maxOffset (input.length - pos) 0
      if length > st.1 then (length, pos - i) else st)
    (0, matchOffset)

/-- The `while (pos < inputSize)` loop of `LZ5::compress`. -/
def compressLoop (input : List Byte) (maxOffset : Nat) : Nat → Nat → List Token
  | 0, _ => []
  | fuel + 1, pos =>
    if pos < input.length then
      let m := findLongestMatch input pos maxOffset 0
      let matchLength := m.1
      let matchOffset := m.2
      if matchLength > 3 then
        ⟨matchOffset, matchLength, charAt input (pos + matchLength)⟩ ::
          compressLoop input maxOffset fuel (pos + matchLength + 1)
      else
        ⟨0, 0, charAt input pos⟩ :: compressLoop input maxOffset fuel (pos + 1)
    else []

/-- The function `LZ5::compress`. -/
def compress (input : List Byte) (maxOffset : Nat) : List Token :=
  compressLoop input maxOffset input.length 0

/-- One iteration of the `for` loop of `LZ5::decompress`. -/
def decompressStep (output : List Byte) (token : Token) : List Byte :=
  let start := subSize output.length token.offset
  let out := copyMatch output start token.length
  if token.next ≠ 0 then out ++ [token.next] else out

/-- The function `LZ5::decompress`. -/
def decompress (tokens : List Token) : List Byte :=
  tokens.foldl decompressStep []

end LZ5

namespace LZO

/-- The `LZO::Token` record. -/
structure Token where
  offset : Nat
  length : Nat
  next : Byte
deriving DecidableEq, Repr

/-- The inner `while` loop of `LZO::compress` for one candidate `j`: the final value of
`length`. -/
def matchWhile (input : List Byte) (i j : Nat) : Nat → Nat → Nat
  | 0, length => length
  | fuel + 1, length =>
    if j + length < i ∧ i + length < input.length ∧
        charAt input (j + length) = charAt input (i + length) then
      matchWhile input i j fuel (length + 1)
    else length

/-- The `for (j = searchStart; j < i; ++j)` loop of `LZO::compress`: the final values
`(bestLength, bestOffset)`. -/
def searchWindow (input : List Byte) (i searchStart : Nat) : Nat × Nat :=
  (List.range' searchStart (i - searchStart)).foldl
    (fun st j =>
      let length := matchWhile input i j (i - j) 0
      if length > st.1 then (length, i - j) else st)
    (0, 0)

/-- The `while (i < input.size())` loop of `LZO::compress`. -/
def compressLoop (input : List Byte) (windowSize : Nat) : Nat → Nat → List Token
  | 0, _ => []
  | fuel + 1, i =>
    if i < input.length then
      let searchStart := if i > windowSize then i - windowSize else 0
      let m := searchWindow input i searchStart
      let bestLength := m.1
      let bestOffset := m.2
      let nextChar : Byte :=
        if i + bestLength < input.length then charAt input (i + bestLength) else 0
      ⟨bestOffset, bestLength, nextChar⟩ ::
        compressLoop input windowSize fuel (i + (if bestLength > 0 then bestLength + 1 else 1))
    else []

/-- The function `LZO::compress`. -/
def compress (input : List Byte) (windowSize : Nat) : List Token :=
  compressLoop input windowSize input.length 0

/-- One iteration of the `for` loop of `LZO::decompress`. -/
def decompressStep (output : List Byte) (token : Token) : List Byte :=
  let out :=
    if token.offset > 0 ∧ token.length > 0 then
      copyMatch output (subSize output.length token.offset) token.length
    else output
  if token.next ≠ 0 then out ++ [token.next] else out

/-- The function `LZO::decompress`. -/
def decompress (tokens : List Token) : List Byte :=
  tokens.foldl decompressStep []

end LZO

namespace LZMA

/-- The `LZMA::Token` record. -/
structure Token where
  position : Nat
  length : Nat
  next : Byte
deriving DecidableEq, Repr

/-- The inner `while` loop of `LZMA::findLongestMatch` for one candidate `i`: the final
value of `length`. -/
def matchWhile (input : List Byte) (pos i dictionarySize : Nat) : Nat → Nat → Nat
  | 0, length => length
  | fuel + 1, length =>
    if length < dictionarySize ∧ pos + length < input.length ∧
        charAt input (i + length) = charAt input (pos + length) then
      matchWhile input pos i dictionarySize fuel (length + 1)
    else length

/-- The function `LZMA::findLongestMatch`: returns `(maxLength, matchPos)`; the reference
parameter is overwritten with 0 on entry. -/
def findLongestMatch (input : List Byte) (pos dictionarySize _matchPos : Nat) : Nat × Nat :=
  let first := if pos > dictionarySize then pos - dictionarySize else 0
  (List.range' first (pos - first)).foldl
    (fun st i =>
      let length := matchWhile input pos i dictionarySize (input.length - pos) 0
      if length > st.1 then (length, i) else st)
    (0, 0)

/-- The `while (pos < inputSize)` loop of `LZMA::compress`. -/
def compressLoop (input : List Byte) (dictionarySize : Nat) : Nat → Nat → List Token
  | 0, _ => []
  | fuel + 1, pos =>
    if pos < input.length then
      let m := findLongestMatch input pos dictionarySize 0
      let matchLength := m.1
      let matchPos := m.2
      if matchLength > 0 then
        ⟨pos - matchPos, matchLength, charAt input (pos + matchLength)⟩ ::
          compressLoop input dictionarySize fuel (pos + matchLength + 1)
      else
        ⟨0, 0, charAt input pos⟩ :: compressLoop input dictionarySize fuel (pos + 1)
    else []

/-- The function `LZMA::compress`. -/
def compress (input : List Byte) (dictionarySize : Nat) : List Token :=
  compressLoop input dictionarySize input.length 0

/-- One iteration of the `for` loop of `LZMA::decompress`. -/
def decompressStep (output : List Byte) (token : Token) : List Byte :=
  let out :=
    if token.position > 0 ∧ token.position ≤ output.length then
      copyMatch output (subSize output.length token.position) token.length
    else output
  if token.next ≠ 0 then out ++ [token.next] else out

/-- The function `LZMA::decompress`; `dictionarySize` is not used by the source. -/
def decompress (tokens : List Token) (_dictionarySize : Nat) : List Byte :=
  tokens.foldl decompressStep []

/-- The copy loop `for (i = 0; i < token.length; ++i) output += output[start + i]` of
`LZMA::decompress` with every read checked: the result is `none` as soon as an index
`start + i` is not strictly below the current size of `output`. -/
def copyChecked (output : List Byte) (start length : Nat) : Option (List Byte) :=
  (List.range length).foldl
    (fun out i =>
      match out with
      | some o => if start + i < o.length then some (o ++ [charAt o (start + i)]) else none
      | none => none)
    (some output)

/-- One iteration of the `for` loop of `LZMA::decompress` with the reads of the copy loop
checked. The test `token.position <= output.size()` comes before the subtraction
`output.size() - token.position`, which therefore does not wrap. -/
def decompressStepChecked (output : Option (List Byte)) (token : Token) :
    Option (List Byte) :=
  match output with
  | none => none
  | some output =>
    let out :=
      if token.position > 0 ∧ token.position ≤ output.length then
        copyChecked output (output.length - token.position) token.length
      else some output
    out.map (fun o => if token.next ≠ 0 then o ++ [token.next] else o)

/-- The function `LZMA::decompress` with the reads of the copy loop checked: `none` when
some read is outside the output produced so far. -/
def decompressChecked (tokens : List Token) (_dictionarySize : Nat) : Option (List Byte) :=
  tokens.foldl decompressStepChecked (some [])

end LZMA
/-- The character `'0'`. -/
def zeroChar : Byte := 48

/-- The character `'1'`. -/
def oneChar : Byte := 49

/-- The inner loop `for (int i = 7; i >= 0; --i) bitString += (byte & (1 << i)) ? '1' : '0'`
of the unpackers. -/
def byteToBits (byte : Byte) : List Byte :=
  [7, 6, 5, 4, 3, 2, 1, 0].map
    (fun i => if byte.val &&& (1 <<< i) ≠ 0 then oneChar else zeroChar)

namespace Huffman

namespace Methods

/-- One iteration of the `for (char bit : bitString)` loop of
`Huffman::Methods::PackBitsToBytes`; the state is `(compressedData, currentByte, bitCount)`
and `currentByte` is an `unsigned char`. -/
def packStep (st : List Byte × Byte × Nat) (bit : Byte) : List Byte × Byte × Nat :=
  let shifted : Byte := toChar (st.2.1.val <<< 1)
  let currentByte : Byte := if bit = oneChar then toChar (shifted.val ||| 1) else shifted
  let bitCount := st.2.2 + 1
  if bitCount = 8 then (st.1 ++ [currentByte], 0, 0) else (st.1, currentByte, bitCount)

/-- The function `Huffman::Methods::PackBitsToBytes(bitString, bitLength)`: returns the
byte vector and the value stored into `bitLength`. -/
def PackBitsToBytes (bitString : List Byte) : List Byte × Nat :=
  let st := bitString.foldl packStep ([], 0, 0)
  let compressedData :=
    if st.2.2 > 0 then st.1 ++ [toChar (st.2.1.val <<< (8 - st.2.2))] else st.1
  (compressedData, bitString.length)

/-- The function `Huffman::Methods::UnpackBytesToBits(compressedData, bitLength)`. -/
def UnpackBytesToBits (compressedData : List Byte) (bitLength : Nat) : List Byte :=
  (compressedData.foldl (fun bitString byte => bitString ++ byteToBits byte) []).take bitLength

end Methods

end Huffman

namespace FSE

namespace Methods

/-- One iteration of the `for (char bit : bitString)` loop of
`FSE::Methods::PackBitsToBytes`; the state is `(byteVec, currentByte, bitCount)` and
`currentByte` is a `uint8_t`. -/
def packStep (st : List Byte × Byte × Nat) (bit : Byte) : List Byte × Byte × Nat :=
  let currentByte : Byte :=
    toChar ((st.2.1.val <<< 1) ||| (if bit = oneChar then 1 else 0))
  let bitCount := st.2.2 + 1
  if bitCount = 8 then (st.1 ++ [currentByte], 0, 0) else (st.1, currentByte, bitCount)

/-- The function `FSE::Methods::PackBitsToBytes(bitString, bitLength)`: returns the byte
vector and the value stored into `bitLength`. -/
def PackBitsToBytes (bitString : List Byte) : List Byte × Nat :=
  let st := bitString.foldl packStep ([], 0, 0)
  let byteVec :=
    if st.2.2 > 0 then st.1 ++ [toChar (st.2.1.val <<< (8 - st.2.2))] else st.1
  (byteVec, bitString.length)

/-- The function `FSE::Methods::UnpackBytesToBits(byteVec, bitLength)`. -/
def UnpackBytesToBits (byteVec : List Byte) (bitLength : Nat) : List Byte :=
  (byteVec.foldl (fun bitString byte => bitString ++ byteToBits byte) []).take bitLength

end Methods

end FSE

/-- The byte vector `bytes` holds the bit string `bits` most-significant bit first: it has
`ceil(n / 8)` bytes for the `n` characters of `bits`, bit `7 - k mod 8` of byte `k / 8` is
set exactly when character `k` is `'1'`, and when `n` is not a multiple of 8 the
`8 - n mod 8` low-order bits of the last byte are 0. -/
def PackedMsbFirst (bits bytes : List Byte) : Prop :=
  bytes.length = (bits.length + 7) / 8 ∧
  (∀ k, k < bits.length →
    ((bytes.getD (k / 8) 0).val.testBit (7 - k % 8) = true ↔ bits.getD k 0 = oneChar)) ∧
  (bits.length % 8 ≠ 0 → ∀ j, j < 8 - bits.length % 8 →
    (bytes.getD (bytes.length - 1) 0).val.testBit j = false)

/-- The character that stands for one bit in a bit string. -/
def bitChar (b : Bool) : Byte := if b then oneChar else zeroChar

namespace LZ78

/-- The `LZ78::Token` record. -/
structure Token where
  index : Nat
  next : Byte
deriving DecidableEq, Repr

/-- The function `LZ78::findPrefixIndex`. -/
def findPrefixIndex (dictionary : List (List Byte × Nat)) (buffer : List Byte) : Nat :=
  if buffer.length > 1 then
    match mapFind dictionary (buffer.take (buffer.length - 1)) with
    | some index => index
    | none => 0
  else 0

/-- The local variables of `LZ78::compress`. -/
structure CompressState where
  dictionary : List (List Byte × Nat)
  tokens : List Token
  buffer : List Byte
  dictSize : Nat

/-- One iteration of the `for (char c : input)` loop of `LZ78::compress`. -/
def compressStep (st : CompressState) (c : Byte) : CompressState :=
  let buffer := st.buffer ++ [c]
  if mapFind st.dictionary buffer = none then
    let prefixIndex := findPrefixIndex st.dictionary buffer
    { dictionary := mapSet st.dictionary buffer st.dictSize
      tokens := st.tokens ++ [⟨prefixIndex, c⟩]
      buffer := []
      dictSize := st.dictSize + 1 }
  else { st with buffer := buffer }

/-- The function `LZ78::compress`. -/
def compress (input : List Byte) : List Token :=
  let st := input.foldl compressStep ⟨[], [], [], 1⟩
  if st.buffer ≠ [] then
    st.tokens ++ [⟨findPrefixIndex st.dictionary st.buffer, st.buffer.getLastD 0⟩]
  else st.tokens

/-- One iteration of the `for` loop of `LZ78::decompress`; the state is
`(dictionary, output)`. -/
def decompressStep (st : List (List Byte) × List Byte) (token : Token) :
    List (List Byte) × List Byte :=
  let entry :=
    (if token.index < st.1.length then st.1.getD token.index [] else []) ++ [token.next]
  (st.1 ++ [entry], st.2 ++ entry)

/-- The function `LZ78::decompress`. -/
def decompress (tokens : List Token) : List Byte :=
  (tokens.foldl decompressStep ([[]], [])).2

end LZ78

namespace LZ78

/-- The relation between the encoder's state after the input prefix `p` and the state
the decoder reaches on the tokens emitted so far. -/
structure Inv (p : List Byte) (st : CompressState) : Prop where
  out : (st.tokens.foldl decompressStep ([[]], [])).2 ++ st.buffer = p
  size : (st.tokens.foldl decompressStep ([[]], [])).1.length = st.dictSize
  zero : (st.tokens.foldl decompressStep ([[]], [])).1.getD 0 [] = []
  pos : 0 < st.dictSize
  dict : ∀ s v, mapFind st.dictionary s = some v →
    v < st.dictSize ∧ (st.tokens.foldl decompressStep ([[]], [])).1.getD v [] = s
  buf : st.buffer = [] ∨ ∃ v, mapFind st.dictionary st.buffer = some v
  pref : ∀ s v, mapFind st.dictionary s = some v → 1 < s.length →
    ∃ u, mapFind st.dictionary (s.take (s.length - 1)) = some u

/-- The local variables of `LZ78::compress` when its `for (char c : input)` loop is
over, before the final flush. -/
def loopState (input : List Byte) : CompressState :=
  input.foldl compressStep ⟨[], [], [], 1⟩

/-- The phrases that a token list defines, as `LZ78::decompress` builds them: entry 0 is
the empty phrase and entry `k` is the phrase of the `k`-th token. -/
def phrases (tokens : List Token) : List (List Byte) :=
  (tokens.foldl decompressStep ([[]], [])).1

/-- What the encoder keeps true of its tokens and its dictionary: the next code is the
number of tokens plus one, the index of a token is below its own number, the phrase of
the `k`-th token is the phrase of its index followed by its byte, and the dictionary
holds exactly these phrases, the `k`-th under the code `k`. -/
structure CodesInOrder (st : CompressState) : Prop where
  size : st.dictSize = st.tokens.length + 1
  index : ∀ k t, st.tokens[k]? = some t → t.index < k + 1
  phrase : ∀ k t, st.tokens[k]? = some t →
    (phrases st.tokens).getD (k + 1) [] = (phrases st.tokens).getD t.index [] ++ [t.next]
  code : ∀ k, k < st.tokens.length →
    mapFind st.dictionary ((phrases st.tokens).getD (k + 1) []) = some (k + 1)
  only : ∀ s v, mapFind st.dictionary s = some v →
    1 ≤ v ∧ v ≤ st.tokens.length ∧ s = (phrases st.tokens).getD v []

end LZ78
namespace FSE

/-- The `FSE::Symbol` record. -/
structure Symbol where
  character : Byte
  frequency : Nat
deriving DecidableEq, Repr

/-- The `FSE::EncodedSymbol` record. -/
structure EncodedSymbol where
  character : Byte
  code : List Byte
deriving DecidableEq, Repr

/-- The type `FSE::EncodingTable`, a `std::map<char, EncodedSymbol>`. -/
abbrev EncodingTable := List (Byte × EncodedSymbol)

/-- The `FSE::Compressed` record. -/
structure Compressed where
  byteVec : List Byte
  encodingTable : EncodingTable
  bitLength : Nat
deriving DecidableEq, Repr

namespace Methods

/-- The value `std::ceil(std::log2(n))` that bounds the bit loop of `buildEncodingTable`:
the least `w` with `n ≤ 2 ^ w`. The source computes it in floating point, which is exact
for the table sizes 1..256 that can occur; for `n = 0` the loop is never reached. -/
def ceilLog2 (n : Nat) : Nat :=
  ((List.range n).find? (fun w => n ≤ 2 ^ w)).getD 0

/-- The loop that builds `binaryCode` for rank `i`: bit `bit` of `i` for
`bit = 0, 1, ..., width - 1`. -/
def binaryCode (i width : Nat) : List Byte :=
  (List.range width).map (fun bit => if (i >>> bit) &&& 1 ≠ 0 then oneChar else zeroChar)

/-- A `std::sort(symbols.begin(), symbols.end(), comp)` with the comparison
`a.frequency > b.frequency` of `buildEncodingTable`. The C++ standard fixes the result
only up to the order of symbols of equal frequency: it is a rearrangement of the input
(`perm`) in which frequencies do not increase (`sorted`). `buildEncodingTable` takes the
sort as a parameter, and the theorems hold for every sort with these laws. -/
structure StdSort where
  sort : List Symbol → List Symbol
  perm : ∀ l, (sort l).Perm l
  sorted : ∀ l, (sort l).Pairwise (fun a b => a.frequency ≥ b.frequency)

/-- One admissible `std::sort`: the insertion sort, which keeps symbols of equal
frequency in their order (ascending character). The sort of a C++ library may order
symbols of equal frequency differently. -/
def stableSort : StdSort where
  sort := fun symbols => symbols.insertionSort (fun a b => a.frequency ≥ b.frequency)
  perm := fun l => List.perm_insertionSort _ l
  sorted := fun l => by
    haveI : IsTotal Symbol (fun a b => a.frequency ≥ b.frequency) :=
      ⟨fun a b => Nat.le_total b.frequency a.frequency⟩
    haveI : IsTrans Symbol (fun a b => a.frequency ≥ b.frequency) :=
      ⟨fun a b c hab hbc => Nat.le_trans hbc hab⟩
    exact List.sorted_insertionSort (fun a b : Symbol => a.frequency ≥ b.frequency) l

/-- The loop `for (i = 0; i < symbols.size(); ++i)` of `buildEncodingTable`, from rank `i`
on. -/
def assignCodes (width : Nat) : List Symbol → Nat → EncodingTable → EncodingTable
  | [], _, table => table
  | s :: rest, i, table =>
    assignCodes width rest (i + 1)
      (charMapModify (fun _ => ⟨s.character, binaryCode i width⟩) ⟨0, []⟩ table s.character)

/-- The frequency count `for (char c : input) ++frequencyTable[c]`. -/
def countFrequencies (input : List Byte) : List (Byte × Nat) :=
  input.foldl (charMapModify (fun v => addSize v 1) 0) []

/-- The function `FSE::Methods::buildEncodingTable`. -/
def buildEncodingTable (S : StdSort) (input : List Byte) : EncodingTable :=
  let frequencyTable := countFrequencies input
  let symbols : List Symbol := frequencyTable.map (fun p => ⟨p.1, p.2⟩)
  let sorted := S.sort symbols
  assignCodes (ceilLog2 sorted.length) sorted 0 []

end Methods

/-- The expression `encodingTable[c].code`; an absent key would give the value-initialised
record, whose code is empty. -/
def codeOf (encodingTable : EncodingTable) (c : Byte) : List Byte :=
  match mapFind encodingTable c with
  | some symbol => symbol.code
  | none => []

/-- The function `FSE::compress`. -/
def compress (S : Methods.StdSort) (input : List Byte) : Compressed :=
  let encodingTable := Methods.buildEncodingTable S input
  let encodedString := input.foldl (fun s c => s ++ codeOf encodingTable c) []
  let packed := Methods.PackBitsToBytes encodedString
  ⟨packed.1, encodingTable, packed.2⟩

/-- The loop of `FSE::decompress` that inverts the encoding table. -/
def reverseTable (encodingTable : EncodingTable) : List (List Byte × Byte) :=
  encodingTable.foldl (fun rev p => mapSet rev p.2.code p.1) []

/-- One iteration of the `for (char bit : unpackedBytes)` loop of `FSE::decompress`; the
state is `(decodedString, currentCode)`. -/
def decodeStep (rev : List (List Byte × Byte)) (st : List Byte × List Byte) (bit : Byte) :
    List Byte × List Byte :=
  let currentCode := st.2 ++ [bit]
  match mapFind rev currentCode with
  | some c => (st.1 ++ [c], [])
  | none => (st.1, currentCode)

/-- The function `FSE::decompress(encoded, encodingTable, bitLength)`. -/
def decompress (encoded : List Byte) (encodingTable : EncodingTable) (bitLength : Nat) :
    List Byte :=
  let rev := reverseTable encodingTable
  let unpackedBytes := Methods.UnpackBytesToBits encoded bitLength
  (unpackedBytes.foldl (decodeStep rev) ([], [])).1

end FSE

namespace Huffman

/-- The `Huffman::HuffmanNode` record. The source builds a node either with both child
pointers null (`leaf`) or with both set (`node`). The field `freq` is an `int`. -/
inductive HuffmanNode where
  | leaf (data : Byte) (freq : Int)
  | node (data : Byte) (freq : Int) (left right : HuffmanNode)
deriving DecidableEq, Repr

/-- The field `freq` of a node. -/
def HuffmanNode.freq : HuffmanNode → Int
  | .leaf _ f => f
  | .node _ f _ _ => f

/-- The type `Huffman::FreqMap`, a `std::map<char, int>`. -/
abbrev FreqMap := List (Byte × Int)

/-- The `Huffman::Compressed` record. -/
structure Compressed where
  byteVec : List Byte
  freqMap : FreqMap
  bitLength : Nat
deriving DecidableEq, Repr

/-- The comparison `HuffmanCompare::operator()`. -/
def HuffmanCompare (left right : HuffmanNode) : Bool := decide (left.freq > right.freq)

/-- A `std::priority_queue<HuffmanNode*, std::vector<HuffmanNode*>, HuffmanCompare>`,
given by what `push` and `top()`/`pop()` do to the vector it holds. The C++ standard
fixes the node on top only up to the comparison: it is a node of least frequency, and
which one of several nodes of equal frequency it is depends on the heap algorithm of the
library. The functions below take the queue as a parameter, and the theorems hold for
every queue with these laws: no node is lost or invented (`push_perm`, `pop_perm`),
`top()` on an empty queue is undefined (`pop_nil`), and on a vector built by `push` and
`pop` from the empty one (`valid`) the node delivered has least frequency (`pop_min`).
The proofs use the first three laws only; the others record the rest of the contract. -/
structure PriorityQueue where
  push : List HuffmanNode → HuffmanNode → List HuffmanNode
  pop : List HuffmanNode → Option (HuffmanNode × List HuffmanNode)
  valid : List HuffmanNode → Prop
  push_perm : ∀ c x, (push c x).Perm (x :: c)
  pop_nil : pop [] = none
  pop_perm : ∀ c, c ≠ [] → ∃ x c', pop c = some (x, c') ∧ c.Perm (x :: c')
  valid_nil : valid []
  valid_push : ∀ c x, valid c → valid (push c x)
  valid_pop : ∀ c x c', valid c → pop c = some (x, c') → valid c'
  pop_min : ∀ c x c', valid c → pop c = some (x, c') → ∀ y ∈ c, x.freq ≤ y.freq

/-- Insertion of a node into a list that is ordered by frequency, behind the nodes of
the same frequency. -/
def pqPush : List HuffmanNode → HuffmanNode → List HuffmanNode
  | [], x => [x]
  | y :: rest, x => if HuffmanCompare y x then x :: y :: rest else y :: pqPush rest x

/-- One admissible `std::priority_queue`: the vector is kept ordered by frequency, and of
several nodes of equal frequency the one pushed first is delivered first. The heap of a
C++ library may deliver nodes of equal frequency in another order. -/
def fifoQueue : PriorityQueue where
  push := pqPush
  pop := fun c =>
    match c with
    | [] => none
    | x :: rest => some (x, rest)
  valid := fun c => c.Pairwise (fun a b => a.freq ≤ b.freq)
  push_perm := by
    intro c x
    induction c with
    | nil => exact List.Perm.refl _
    | cons y rest ih =>
      unfold pqPush
      split
      · exact List.Perm.refl _
      · exact ((List.Perm.cons y ih).trans (List.Perm.swap x y rest))
  pop_nil := rfl
  pop_perm := by
    intro c hc
    cases c with
    | nil => exact absurd rfl hc
    | cons x rest => exact ⟨x, rest, rfl, List.Perm.refl _⟩
  valid_nil := List.Pairwise.nil
  valid_push := by
    intro c x
    induction c with
    | nil => intro _; exact List.pairwise_singleton _ _
    | cons y rest ih =>
      intro h
      have hy := List.pairwise_cons.mp h
      unfold pqPush
      split
      · rename_i hgt
        have hlt : x.freq < y.freq := by
          simpa [HuffmanCompare] using hgt
        refine List.pairwise_cons.mpr ⟨?_, h⟩
        intro z hz
        rcases List.mem_cons.mp hz with e | hz
        · rw [e]; exact le_of_lt hlt
        · exact le_trans (le_of_lt hlt) (hy.1 z hz)
      · rename_i hgt
        have hle : y.freq ≤ x.freq := by
          simpa [HuffmanCompare] using hgt
        refine List.pairwise_cons.mpr ⟨?_, ih hy.2⟩
        intro z hz
        have hperm : (pqPush rest x).Perm (x :: rest) := by
          clear ih hz hy h
          induction rest with
          | nil => exact List.Perm.refl _
          | cons w rest2 ih2 =>
            unfold pqPush
            split
            · exact List.Perm.refl _
            · exact ((List.Perm.cons w ih2).trans (List.Perm.swap x w rest2))
        rcases List.mem_cons.mp (hperm.mem_iff.mp hz) with e | hz
        · rw [e]; exact hle
        · exact hy.1 z hz
  valid_pop := by
    intro c x c' h hp
    cases c with
    | nil => exact Option.noConfusion hp
    | cons y rest =>
      simp only [Option.some.injEq, Prod.mk.injEq] at hp
      rw [← hp.2]
      exact (List.pairwise_cons.mp h).2
  pop_min := by
    intro c x c' h hp y hy
    cases c with
    | nil => exact Option.noConfusion hp
    | cons z rest =>
      simp only [Option.some.injEq, Prod.mk.injEq] at hp
      rw [← hp.1]
      rcases List.mem_cons.mp hy with e | hy
      · rw [e]
      · exact (List.pairwise_cons.mp h).1 y hy

namespace Methods

/-- The loop `while (pq.size() != 1)` of `BuildHuffmanTree` and the final `pq.top()`:
`left` is `pq.top()` before the first `pop()`, `right` is `pq.top()` before the second,
and `int sum = left->freq + right->freq`. On an empty queue the source calls `top()` on
an empty container, which is undefined: the result is `none`. The fuel is the number of
merges, which is the size of the queue minus one. -/
def mergeLoop (Q : PriorityQueue) : Nat → List HuffmanNode → Option HuffmanNode
  | 0, pq =>
    match Q.pop pq with
    | none => none
    | some (top, _) => if pq.length = 1 then some top else none
  | fuel + 1, pq =>
    match Q.pop pq with
    | none => none
    | some (left, pq1) =>
      if pq.length = 1 then some left
      else
        match Q.pop pq1 with
        | none => none
        | some (right, pq2) =>
          mergeLoop Q fuel
            (Q.push pq2 (.node 0 (wrapInt (left.freq + right.freq)) left right))

/-- The function `Huffman::Methods::BuildHuffmanTree`. -/
def BuildHuffmanTree (Q : PriorityQueue) (freqMap : FreqMap) : Option HuffmanNode :=
  let pq := freqMap.foldl (fun pq pair => Q.push pq (.leaf pair.1 pair.2)) []
  mergeLoop Q pq.length pq

/-- The function `Huffman::Methods::GenerateCodes` on a non-null node; the calls on the
null children of a leaf return at once. -/
def GenerateCodes : HuffmanNode → List Byte → List (Byte × List Byte) →
    List (Byte × List Byte)
  | .leaf data _, code, huffmanCode => charMapModify (fun _ => code) [] huffmanCode data
  | .node _ _ left right, code, huffmanCode =>
    GenerateCodes right (code ++ [oneChar]) (GenerateCodes left (code ++ [zeroChar]) huffmanCode)

end Methods

/-- The frequency count `for (char ch : text) freqMap[ch]++`, the counters being
`int`s. -/
def countFrequencies (text : List Byte) : FreqMap :=
  text.foldl (charMapModify (fun v => wrapInt (v + 1)) 0) []

/-- The expression `huffmanCode[ch]`; an absent key gives the empty string. -/
def codeOf (huffmanCode : List (Byte × List Byte)) (ch : Byte) : List Byte :=
  (mapFind huffmanCode ch).getD []

/-- The function `Huffman::compress(text)`; `none` when `BuildHuffmanTree` is
undefined. -/
def compress (Q : PriorityQueue) (text : List Byte) : Option Compressed :=
  let freqMap := countFrequencies text
  match Methods.BuildHuffmanTree Q freqMap with
  | none => none
  | some root =>
    let huffmanCode := Methods.GenerateCodes root [] []
    let bitString := text.foldl (fun s ch => s ++ codeOf huffmanCode ch) []
    let packed := Methods.PackBitsToBytes bitString
    some ⟨packed.1, freqMap, packed.2⟩

/-- One iteration of the `for (char bit : bitString)` loop of `Huffman::decompress`; the
state is `(result, current)`. On a leaf `current->left` and `current->right` are null and
the test `!current->left` that follows dereferences a null pointer: the result is
`none`. -/
def decodeStep (root : HuffmanNode) (st : Option (List Byte × HuffmanNode)) (bit : Byte) :
    Option (List Byte × HuffmanNode) :=
  match st with
  | none => none
  | some (result, current) =>
    match current with
    | .leaf _ _ => none
    | .node _ _ left right =>
      match (if bit = zeroChar then left else right) with
      | .leaf data _ => some (result ++ [data], root)
      | .node d f l r => some (result, .node d f l r)

/-- The function `Huffman::decompress(compressed, freqMap, bitLength)`; `none` when the
source's behaviour is undefined. -/
def decompress (Q : PriorityQueue) (compressed : List Byte) (freqMap : FreqMap)
    (bitLength : Nat) : Option (List Byte) :=
  match Methods.BuildHuffmanTree Q freqMap with
  | none => none
  | some root =>
    let bitString := Methods.UnpackBytesToBits compressed bitLength
    (bitString.foldl (decodeStep root) (some ([], root))).map Prod.fst

end Huffman

namespace Huffman

/-- The bytes held by the leaves of a tree, left to right. -/
def leaves : HuffmanNode → List Byte
  | .leaf data _ => [data]
  | .node _ _ left right => leaves left ++ leaves right

/-- The byte of the leaf at which a path of bit characters ends, going left on `'0'`
and right otherwise as the decoder does; `none` when the path does not end exactly on a
leaf. -/
def followPath : HuffmanNode → List Byte → Option Byte
  | .leaf data _, [] => some data
  | .leaf _ _, _ :: _ => none
  | .node _ _ _ _, [] => none
  | .node _ _ left right, bit :: rest =>
    if bit = zeroChar then followPath left rest else followPath right rest

/-- The sum of the frequencies held by the leaves of a tree. -/
def leafSum : HuffmanNode → Int
  | .leaf _ f => f
  | .node _ _ left right => leafSum left + leafSum right

/-- The sum of the absolute values of the frequencies held by the leaves of a tree. -/
def leafAbs : HuffmanNode → Nat
  | .leaf _ f => f.natAbs
  | .node _ _ left right => leafAbs left + leafAbs right

end Huffman
namespace Deflate

/-- The function `Deflate::compress`; `none` when `Huffman::compress` is undefined. -/
def compress (Q : Huffman.PriorityQueue) (input : List Byte) (windowSize : Nat) :
    Option Huffman.Compressed :=
  let lz77Tokens := LZ77.compress input windowSize
  let lz77Compressed := LZ77.Utils.vectorToString lz77Tokens
  Huffman.compress Q lz77Compressed

/-- The function `Deflate::decompress(byteVec, freqMap, bitLength)`; `none` when a stage
is undefined or throws. -/
def decompress (Q : Huffman.PriorityQueue) (byteVec : List Byte)
    (freqMap : Huffman.FreqMap) (bitLength : Nat) : Option (List Byte) :=
  match Huffman.decompress Q byteVec freqMap bitLength with
  | none => none
  | some decodedData =>
    match LZ77.Utils.stringToVector decodedData with
    | none => none
    | some lz77Tokens => some (LZ77.decompress lz77Tokens)

end Deflate

namespace Zstandard

/-- The function `Zstandard::compress`. -/
def compress (S : FSE.Methods.StdSort) (input : List Byte) (windowSize : Nat) :
    FSE.Compressed :=
  let lz77Tokens := LZ77.compress input windowSize
  let lz77Compressed := LZ77.Utils.vectorToString lz77Tokens
  FSE.compress S lz77Compressed

/-- The function `Zstandard::decompress(byteVec, encodingTable, bitLength)`; `none` when
`stringToVector` throws. -/
def decompress (byteVec : List Byte) (encodingTable : FSE.EncodingTable) (bitLength : Nat) :
    Option (List Byte) :=
  let decodedData := FSE.decompress byteVec encodingTable bitLength
  match LZ77.Utils.stringToVector decodedData with
  | none => none
  | some lz77Tokens => some (LZ77.decompress lz77Tokens)

end Zstandard

namespace LZW

/-- What a call that can throw or run into undefined behaviour does: it returns a value,
throws `std::runtime_error("Invalid LZW decompression input")`, or is undefined. -/
inductive Result (α : Type) where
  | ok (value : α)
  | invalidInput
  | undefined
deriving DecidableEq, Repr

/-- The function `LZW::addToDictionary`, `dictionary[key] = code++`: returns the
dictionary and the new value of the `int` `code`. -/
def addToDictionary (dictionary : List (List Byte × Int)) (key : List Byte) (code : Int) :
    List (List Byte × Int) × Int :=
  (mapSet dictionary key code, wrapInt (code + 1))

/-- The variables `result`, `dictionary`, `current` and `code` of the encoder. -/
structure CompressState where
  result : List Int
  dictionary : List (List Byte × Int)
  current : List Byte
  code : Int

/-- One iteration of the `for (char c : input)` loop of the four-argument
`LZW::compress`. -/
def compressStep (st : CompressState) (c : Byte) : CompressState :=
  let next := st.current ++ [c]
  if (mapFind st.dictionary next).isSome then { st with current := next }
  else
    let r := mapIndex st.dictionary st.current 0
    let a := addToDictionary r.2 next st.code
    { result := st.result ++ [r.1], dictionary := a.1, current := [c], code := a.2 }

/-- The four-argument `LZW::compress`: the final values of `result`, `dictionary` and
`code`. -/
def compressWith (result : List Int) (dictionary : List (List Byte × Int))
    (input : List Byte) (code : Int) : CompressState :=
  let st := input.foldl compressStep ⟨result, dictionary, [], code⟩
  if st.current ≠ [] then
    let r := mapIndex st.dictionary st.current 0
    { st with result := st.result ++ [r.1], dictionary := r.2 }
  else st

/-- The dictionary `dictionary[std::string(1, i)] = i` for `i = 0 .. 255` of the
encoder. -/
def initialDictionary : List (List Byte × Int) :=
  (List.range 256).foldl (fun d (i : Nat) => mapSet d [toChar i] (i : Int)) []

/-- The function `LZW::compress(input)`. -/
def compress (input : List Byte) : List Int :=
  (compressWith [] initialDictionary input 256).result

/-- One iteration of the `for (char c : input)` loop of the four-argument
`LZW::compressOptimized`. When `current.substr(0, current.size() - 1)` is evaluated,
`current` holds at least the byte just appended, so the subtraction does not wrap and
`substr` from position 0 does not throw. -/
def compressOptimizedStep (st : CompressState) (c : Byte) : CompressState :=
  let current := st.current ++ [c]
  if (mapFind st.dictionary current).isNone then
    let r := mapIndex st.dictionary (current.take (current.length - 1)) 0
    let a := addToDictionary r.2 current st.code
    { result := st.result ++ [r.1], dictionary := a.1, current := [c], code := a.2 }
  else { st with current := current }

/-- The four-argument `LZW::compressOptimized`: the final values of `result`,
`dictionary` and `code`. -/
def compressOptimizedWith (result : List Int) (dictionary : List (List Byte × Int))
    (input : List Byte) (code : Int) : CompressState :=
  let st := input.foldl compressOptimizedStep ⟨result, dictionary, [], code⟩
  if st.current ≠ [] then
    let r := mapIndex st.dictionary st.current 0
    { st with result := st.result ++ [r.1], dictionary := r.2 }
  else st

/-- The function `LZW::compressOptimized(input)`. -/
def compressOptimized (input : List Byte) : List Int :=
  (compressOptimizedWith [] initialDictionary input 256).result

/-- The variables `result`, `dictionary`, `current` and `code` of the decoder. -/
structure DecompressState where
  result : List Byte
  dictionary : List (Int × List Byte)
  current : List Byte
  code : Int
deriving DecidableEq, Repr

/-- The end of an iteration of the decoder's loop, once `entry` is known:
`result += entry; dictionary[code++] = current + entry[0]; current = entry`, `code` being
an `int`. -/
def advance (st : DecompressState) (entry : List Byte) : DecompressState :=
  { result := st.result ++ entry
    dictionary := mapSet st.dictionary st.code (st.current ++ [charAt entry 0])
    current := entry
    code := wrapInt (st.code + 1) }

/-- One iteration of the `for (i = 1; i < input.size(); ++i)` loop of the four-argument
`LZW::decompress`, on the code `input[i]`. -/
def decompressStep (st : Result DecompressState) (k : Int) : Result DecompressState :=
  match st with
  | .ok st =>
    match mapFind st.dictionary k with
    | some entry => .ok (advance st entry)
    | none =>
      if k = st.code then .ok (advance st (st.current ++ [charAt st.current 0]))
      else .invalidInput
  | .invalidInput => .invalidInput
  | .undefined => .undefined

/-- The four-argument `LZW::decompress`: the final values of `result`, `dictionary` and
`code`. Reading `input[0]` of an empty vector is undefined. -/
def decompressWith (dictionary : List (Int × List Byte)) (input : List Int) (code : Int) :
    Result DecompressState :=
  match input with
  | [] => .undefined
  | k0 :: rest =>
    let r := mapIndex dictionary k0 []
    rest.foldl decompressStep (.ok ⟨r.1, r.2, r.1, code⟩)

/-- The dictionary `dictionary[i] = std::string(1, i)` for `i = 0 .. 255` of the
decoder. -/
def initialDecodeDictionary : List (Int × List Byte) :=
  (List.range 256).foldl (fun d (i : Nat) => mapSet d (i : Int) [toChar i]) []

/-- The function `LZW::decompress(input)`. -/
def decompress (input : List Int) : Result (List Byte) :=
  match decompressWith initialDecodeDictionary input 256 with
  | .ok st => .ok st.result
  | .invalidInput => .invalidInput
  | .undefined => .undefined

end LZW

namespace LZW

/-- The relation between the encoder's state after the input prefix `p` and the decoder's
state on the codes emitted so far. Until the first code is emitted the prefix is the
pending string; afterwards the decoder is one dictionary entry behind the encoder, the
missing entry being the previous phrase followed by the first byte of the pending one.
The next code is at least 256 and has grown by at most one for every byte read. -/
def Inv (p : List Byte) (st : CompressState) : Prop :=
  (∀ b : Byte, ∃ v, mapFind st.dictionary [b] = some v) ∧
  (256 ≤ st.code ∧ st.code ≤ 256 + (p.length : Int)) ∧
  ((st.result = [] ∧ st.dictionary = initialDictionary ∧ st.code = 256 ∧
      st.current = p ∧ p.length ≤ 1) ∨
   (∃ dst, decompressWith initialDecodeDictionary st.result 256 = .ok dst ∧
      dst.result ++ st.current = p ∧ st.current ≠ [] ∧ dst.current ≠ [] ∧
      dst.code + 1 = st.code ∧
      (∃ v, mapFind st.dictionary st.current = some v) ∧
      (∀ s v, mapFind st.dictionary s = some v →
        (v < dst.code ∧ mapFind dst.dictionary v = some s) ∨
        (v = dst.code ∧ s = dst.current ++ [charAt st.current 0])) ∧
      (∀ v s, mapFind dst.dictionary v = some s → v < dst.code)))

end LZW

/-! ## Theorems -/

set_option maxRecDepth 100000

theorem subSize_eq_sub {a b : Nat} (ha : a < 2 ^ 64) (hb : b ≤ a) : subSize a b = a - b := by
  unfold subSize
  have h1 : b % 2 ^ 64 = b := Nat.mod_eq_of_lt (by omega)
  rw [h1]
  have h2 : a + (2 ^ 64 - b) = (a - b) + 2 ^ 64 := by omega
  rw [h2, Nat.add_mod_right]
  exact Nat.mod_eq_of_lt (by omega)

theorem addSize_eq_add {a b : Nat} (h : a + b < 2 ^ 64) : addSize a b = a + b := by
  unfold addSize
  exact Nat.mod_eq_of_lt h

theorem charAt_take {s : List Byte} {n k : Nat} (h : k < n) :
    charAt (s.take n) k = charAt s k := by
  unfold charAt
  simp [List.getD_eq_getElem?_getD, List.getElem?_take, h]

theorem take_succ_charAt {s : List Byte} {n : Nat} (h : n < s.length) :
    s.take n ++ [charAt s n] = s.take (n + 1) := by
  unfold charAt
  rw [List.take_succ]
  simp [List.getD_eq_getElem?_getD, List.getElem?_eq_getElem h]

theorem charAt_mem {s : List Byte} {n : Nat} (h : n < s.length) : charAt s n ∈ s := by
  unfold charAt
  rw [List.getD_eq_getElem?_getD, List.getElem?_eq_getElem h]
  exact List.getElem_mem h

/-- Copying a sound back-reference byte by byte extends the prefix `input.take i` to
`input.take (i + len)`, also when source and destination overlap. -/
theorem copy_sound (input : List Byte) (i off len : Nat) (hlen : input.length < 2 ^ 64)
    (h1 : 1 ≤ off) (h2 : off ≤ i) (h3 : i + len ≤ input.length)
    (h4 : ∀ k, k < len → charAt input (i - off + k) = charAt input (i + k)) :
    copyMatch (input.take i) (i - off) len = input.take (i + len) := by
  unfold copyMatch
  induction len with
  | zero => simp
  | succ n ih =>
    rw [List.range_succ, List.foldl_append, ih (by omega) (fun k hk => h4 k (by omega))]
    simp only [List.foldl_cons, List.foldl_nil]
    rw [addSize_eq_add (by omega), charAt_take (by omega), h4 n (by omega)]
    exact take_succ_charAt (by omega)

/-- The copy loop of a decoder, run on the prefix `input.take i` with the start index the
decoder computes, produces `input.take (i + len)` for a sound back-reference. -/
theorem copyMatch_sound (input : List Byte) (i off len : Nat)
    (hlen : input.length < 2 ^ 64) (hi : i ≤ input.length)
    (hs : SoundMatch input i off len) :
    copyMatch (input.take i) (subSize (input.take i).length off) len
      = input.take (i + len) := by
  rcases hs with h0 | ⟨h1, h2, h3, h4⟩
  · subst h0; simp [copyMatch]
  · rw [List.length_take, Nat.min_eq_left hi, subSize_eq_sub (by omega) h2]
    exact copy_sound input i off len hlen h1 h2 h3 h4

theorem mapFind_mapSet {κ ν : Type} [DecidableEq κ] (m : List (κ × ν)) (k : κ) (v : ν)
    (key : κ) : mapFind (mapSet m k v) key = if key = k then some v else mapFind m key := by
  induction m with
  | nil => simp [mapSet, mapFind]
  | cons a t ih =>
    obtain ⟨k0, v0⟩ := a
    unfold mapSet
    by_cases h : k = k0
    · subst h
      simp only [if_true, mapFind]
      split <;> rfl
    · simp only [h, if_false, mapFind, ih]
      by_cases h2 : key = k0
      · have h3 : ¬ k0 = k := fun e => h e.symm
        simp [h2, h3]
      · simp [h2]

theorem mapFind_mem {κ ν : Type} [DecidableEq κ] (m : List (κ × ν)) (k : κ) (v : ν)
    (h : mapFind m k = some v) : (k, v) ∈ m := by
  induction m with
  | nil => simp [mapFind] at h
  | cons a t ih =>
    obtain ⟨k0, v0⟩ := a
    unfold mapFind at h
    split at h
    · rename_i e
      simp only [Option.some.injEq] at h
      subst e; subst h
      exact List.mem_cons_self _ _
    · exact List.mem_cons_of_mem _ (ih h)

theorem mapFind_charMapModify_ne {ν : Type} (f : ν → ν) (d : ν) (m : List (Byte × ν))
    (c key : Byte) (hk : key ≠ c) :
    mapFind (charMapModify f d m c) key = mapFind m key := by
  induction m with
  | nil => simp [charMapModify, mapFind, hk]
  | cons a t ih =>
    obtain ⟨k0, v0⟩ := a
    unfold charMapModify
    by_cases h : c = k0
    · subst h
      simp [mapFind, hk]
    · simp only [h, if_false]
      split
      · simp [mapFind, hk]
      · simp only [mapFind, ih]

theorem mapFind_charMapModify_self {ν : Type} (f : ν → ν) (d : ν) (m : List (Byte × ν))
    (c : Byte) : ∃ v, mapFind (charMapModify f d m c) c = some (f v) := by
  induction m with
  | nil => exact ⟨d, by simp [charMapModify, mapFind]⟩
  | cons a t ih =>
    obtain ⟨k0, v0⟩ := a
    unfold charMapModify
    by_cases h : c = k0
    · subst h
      exact ⟨v0, by simp [mapFind]⟩
    · simp only [h, if_false]
      split
      · exact ⟨d, by simp [mapFind]⟩
      · obtain ⟨v, hv⟩ := ih
        exact ⟨v, by simp [mapFind, h, hv]⟩

theorem mem_charMapModify {ν : Type} (f : ν → ν) (d : ν) (m : List (Byte × ν))
    (c : Byte) (p : Byte × ν) (h : p ∈ charMapModify f d m c) :
    p ∈ m ∨ ∃ v, p = (c, f v) := by
  induction m with
  | nil =>
    simp only [charMapModify, List.mem_singleton] at h
    exact Or.inr ⟨d, h⟩
  | cons a t ih =>
    obtain ⟨k0, v0⟩ := a
    unfold charMapModify at h
    by_cases hc : c = k0
    · subst hc
      simp only [if_true, List.mem_cons] at h
      rcases h with h | h
      · exact Or.inr ⟨v0, h⟩
      · exact Or.inl (List.mem_cons_of_mem _ h)
    · simp only [hc, if_false] at h
      split at h
      · simp only [List.mem_cons] at h
        rcases h with h | h | h
        · exact Or.inr ⟨d, h⟩
        · exact Or.inl (h ▸ List.mem_cons_self _ _)
        · exact Or.inl (List.mem_cons_of_mem _ h)
      · simp only [List.mem_cons] at h
        rcases h with h | h
        · exact Or.inl (h ▸ List.mem_cons_self _ _)
        · rcases ih h with h2 | h2
          · exact Or.inl (List.mem_cons_of_mem _ h2)
          · exact Or.inr h2

theorem key_mem_charMapModify {ν : Type} (f : ν → ν) (d : ν) (m : List (Byte × ν))
    (c key : Byte) (h : key = c ∨ key ∈ m.map Prod.fst) :
    key ∈ (charMapModify f d m c).map Prod.fst := by
  rcases h with h | h
  · obtain ⟨v, hv⟩ := mapFind_charMapModify_self f d m c
    subst h
    exact List.mem_map.mpr ⟨_, mapFind_mem _ _ _ hv, rfl⟩
  · induction m with
    | nil => simp at h
    | cons a t ih =>
      obtain ⟨k0, v0⟩ := a
      unfold charMapModify
      by_cases hc : c = k0
      · subst hc
        simpa using h
      · simp only [hc, if_false]
        split
        · simp only [List.map_cons, List.mem_cons] at h ⊢
          exact Or.inr h
        · simp only [List.map_cons, List.mem_cons] at h ⊢
          rcases h with h | h
          · exact Or.inl h
          · exact Or.inr (ih h)

theorem foldl_charMapModify_keys {ν : Type} (f : ν → ν) (d : ν) (l : List Byte) :
    ∀ (m : List (Byte × ν)) (c : Byte), (c ∈ l ∨ c ∈ m.map Prod.fst) →
      c ∈ (l.foldl (charMapModify f d) m).map Prod.fst := by
  induction l with
  | nil => intro m c h; simpa using h
  | cons a t ih =>
    intro m c h
    simp only [List.foldl_cons]
    apply ih
    rcases h with h | h
    · rcases List.mem_cons.mp h with h | h
      · exact Or.inr (key_mem_charMapModify _ _ _ _ _ (Or.inl h))
      · exact Or.inl h
    · exact Or.inr (key_mem_charMapModify _ _ _ _ _ (Or.inr h))

theorem getD_append_left {α : Type} (l r : List α) (i : Nat) (d : α) (h : i < l.length) :
    (l ++ r).getD i d = l.getD i d := by
  simp [List.getD_eq_getElem?_getD, List.getElem?_append_left h]

theorem getD_append_length {α : Type} (l : List α) (a d : α) :
    (l ++ [a]).getD l.length d = a := by
  simp [List.getD_eq_getElem?_getD]

theorem charAt_of_length_le {s : List Byte} {n : Nat} (h : s.length ≤ n) : charAt s n = 0 := by
  unfold charAt
  rw [List.getD_eq_getElem?_getD, List.getElem?_eq_none h]
  rfl

/-- The decoder step "copy the back-reference, then append the literal unless it is the
zero byte", run on the prefix `input.take i` with the literal the encoders read at
`i + len`, produces the prefix that ends after that literal. -/
theorem copy_literal_sound (input : List Byte) (i off len : Nat)
    (hlen : input.length < 2 ^ 64) (hi : i ≤ input.length)
    (hs : SoundMatch input i off len) (hle : i + len ≤ input.length)
    (hnz : ∀ b ∈ input, b ≠ 0) :
    (if charAt input (i + len) ≠ 0 then
        copyMatch (input.take i) (subSize (input.take i).length off) len
          ++ [charAt input (i + len)]
      else copyMatch (input.take i) (subSize (input.take i).length off) len)
      = input.take (i + len + 1) := by
  rw [copyMatch_sound input i off len hlen hi hs]
  by_cases hlt : i + len < input.length
  · rw [if_pos (hnz _ (charAt_mem hlt)), take_succ_charAt hlt]
  · rw [charAt_of_length_le (by omega)]
    simp only [ne_eq, not_true_eq_false, if_false]
    rw [List.take_of_length_le (by omega), List.take_of_length_le (by omega)]

/-- A scan that keeps the first candidate of strictly greater length keeps any property
that the initial state and every candidate have. -/
theorem foldl_best_invariant (P : Nat × Nat → Prop) (g h : Nat → Nat) (l : List Nat) :
    ∀ (st0 : Nat × Nat), P st0 → (∀ j ∈ l, P (g j, h j)) →
      P (l.foldl (fun st j => if g j > st.1 then (g j, h j) else st) st0) := by
  induction l with
  | nil => intro st0 h0 _; exact h0
  | cons a t ih =>
    intro st0 h0 hstep
    simp only [List.foldl_cons]
    apply ih _ _ (fun j hj => hstep j (List.mem_cons_of_mem _ hj))
    split
    · exact hstep a (List.mem_cons_self _ _)
    · exact h0


theorem cursorAt_zero (l : List Nat) : cursorAt l 0 = 0 := by
  simp [cursorAt]

theorem cursorAt_succ (a : Nat) (l : List Nat) (k : Nat) :
    cursorAt (a :: l) (k + 1) = a + 1 + cursorAt l k := by
  simp [cursorAt]

theorem charOrd_injective {a b : Byte} (h : charOrd a = charOrd b) : a = b := by
  apply Fin.ext
  unfold charOrd at h
  have ha := a.isLt
  have hb := b.isLt
  split at h <;> split at h <;> omega

theorem keysSorted_cons {ν : Type} (p : Byte × ν) (m : List (Byte × ν)) :
    KeysSorted (p :: m) ↔ (∀ q ∈ m, charOrd p.1 < charOrd q.1) ∧ KeysSorted m := by
  unfold KeysSorted
  exact List.pairwise_cons

/-- A read-modify-write keeps the pairs of the map in strictly ascending key order. -/
theorem keysSorted_charMapModify {ν : Type} (f : ν → ν) (d : ν) (m : List (Byte × ν))
    (c : Byte) (h : KeysSorted m) : KeysSorted (charMapModify f d m c) := by
  induction m with
  | nil =>
    unfold charMapModify
    exact (keysSorted_cons _ _).mpr ⟨fun q hq => by simp at hq, h⟩
  | cons a t ih =>
    obtain ⟨k0, v0⟩ := a
    obtain ⟨hhead, htail⟩ := (keysSorted_cons _ _).mp h
    unfold charMapModify
    by_cases hc : c = k0
    · rw [if_pos hc]
      exact (keysSorted_cons _ _).mpr ⟨hhead, htail⟩
    · rw [if_neg hc]
      by_cases hlt : charOrd c < charOrd k0
      · rw [if_pos hlt]
        refine (keysSorted_cons _ _).mpr ⟨?_, h⟩
        intro q hq
        rcases List.mem_cons.mp hq with e | hq
        · rw [e]; exact hlt
        · have := hhead q hq
          show charOrd c < charOrd q.1
          simp only at this
          omega
      · rw [if_neg hlt]
        refine (keysSorted_cons _ _).mpr ⟨?_, ih htail⟩
        intro q hq
        rcases mem_charMapModify f d t c q hq with hq | ⟨v, e⟩
        · exact hhead q hq
        · rw [e]
          show charOrd k0 < charOrd c
          have hne : charOrd c ≠ charOrd k0 := fun e => hc (charOrd_injective e)
          omega

theorem mapFind_none_of_lt {ν : Type} (m : List (Byte × ν)) (c : Byte)
    (h : ∀ q ∈ m, charOrd c < charOrd q.1) : mapFind m c = none := by
  induction m with
  | nil => rfl
  | cons a t ih =>
    obtain ⟨k0, v0⟩ := a
    have h0 := h (k0, v0) (List.mem_cons_self _ _)
    have hne : c ≠ k0 := fun e => by
      rw [e] at h0
      exact absurd h0 (lt_irrefl _)
    simp only [mapFind, if_neg hne]
    exact ih (fun q hq => h q (List.mem_cons_of_mem _ hq))

/-- On a sorted map the read-modify-write `m[c] = f(m[c])` stores `f` of the old value of
`c`, or of the value-initialised `d` when `c` was absent. -/
theorem mapFind_charMapModify_sorted {ν : Type} (f : ν → ν) (d : ν) (m : List (Byte × ν))
    (c : Byte) (h : KeysSorted m) :
    mapFind (charMapModify f d m c) c = some (f ((mapFind m c).getD d)) := by
  induction m with
  | nil => simp [charMapModify, mapFind]
  | cons a t ih =>
    obtain ⟨k0, v0⟩ := a
    obtain ⟨hhead, htail⟩ := (keysSorted_cons _ _).mp h
    unfold charMapModify
    by_cases hc : c = k0
    · rw [if_pos hc]
      simp [mapFind, hc]
    · rw [if_neg hc]
      by_cases hlt : charOrd c < charOrd k0
      · rw [if_pos hlt]
        have hnone : mapFind t c = none := by
          apply mapFind_none_of_lt
          intro q hq
          have := hhead q hq
          simp only at this
          omega
        simp [mapFind, hc, hnone]
      · rw [if_neg hlt]
        simp only [mapFind, if_neg hc]
        exact ih htail

/-- On a sorted map the pairs are exactly what lookup finds. -/
theorem mem_iff_mapFind_of_sorted {ν : Type} (m : List (Byte × ν)) (h : KeysSorted m)
    (k : Byte) (v : ν) : (k, v) ∈ m ↔ mapFind m k = some v := by
  constructor
  · intro hmem
    induction m with
    | nil => simp at hmem
    | cons a t ih =>
      obtain ⟨k0, v0⟩ := a
      obtain ⟨hhead, htail⟩ := (keysSorted_cons _ _).mp h
      rcases List.mem_cons.mp hmem with e | hmem
      · simp only [Prod.mk.injEq] at e
        simp [mapFind, e.1, e.2]
      · have h0 := hhead (k, v) hmem
        have hne : k ≠ k0 := fun e => by
          rw [e] at h0
          exact absurd h0 (lt_irrefl _)
        simp only [mapFind, if_neg hne]
        exact ih htail hmem
  · exact mapFind_mem m k v

theorem keysSorted_nodup {ν : Type} (m : List (Byte × ν)) (h : KeysSorted m) :
    (m.map Prod.fst).Nodup := by
  unfold List.Nodup
  rw [List.pairwise_map]
  exact List.Pairwise.imp (fun {a b} hab e => by rw [e] at hab; exact absurd hab (lt_irrefl _)) h

theorem keysSorted_foldl {ν : Type} (f : ν → ν) (d : ν) (l : List Byte) :
    ∀ (m : List (Byte × ν)), KeysSorted m → KeysSorted (l.foldl (charMapModify f d) m) := by
  induction l with
  | nil => intro m h; exact h
  | cons a t ih =>
    intro m h
    exact ih _ (keysSorted_charMapModify f d m a h)

theorem isSome_mapFind_charMapModify {ν : Type} (f : ν → ν) (d : ν) (m : List (Byte × ν))
    (c b : Byte) :
    (mapFind (charMapModify f d m c) b).isSome ↔ (b = c ∨ (mapFind m b).isSome) := by
  by_cases hb : b = c
  · subst hb
    obtain ⟨v, hv⟩ := mapFind_charMapModify_self f d m b
    rw [hv]
    simp
  · rw [mapFind_charMapModify_ne f d m c b hb]
    simp [hb]

/-- The keys of a map filled by read-modify-writes on the bytes of `l` are the keys it
had and the bytes of `l`. -/
theorem isSome_mapFind_foldl {ν : Type} (f : ν → ν) (d : ν) (l : List Byte) :
    ∀ (m : List (Byte × ν)) (b : Byte),
      (mapFind (l.foldl (charMapModify f d) m) b).isSome ↔ (b ∈ l ∨ (mapFind m b).isSome) := by
  induction l with
  | nil => intro m b; simp
  | cons a t ih =>
    intro m b
    rw [List.foldl_cons, ih, isSome_mapFind_charMapModify, List.mem_cons]
    constructor
    · rintro (h | h | h)
      · exact Or.inl (Or.inr h)
      · exact Or.inl (Or.inl h)
      · exact Or.inr h
    · rintro ((h | h) | h)
      · exact Or.inr (Or.inl h)
      · exact Or.inl h
      · exact Or.inr (Or.inr h)

theorem mapFind_isSome_of_mem_keys {κ ν : Type} [DecidableEq κ] (m : List (κ × ν)) (k : κ)
    (h : k ∈ m.map Prod.fst) : ∃ v, mapFind m k = some v := by
  induction m with
  | nil => simp at h
  | cons a t ih =>
    obtain ⟨k0, v0⟩ := a
    by_cases hk : k = k0
    · exact ⟨v0, by simp [mapFind, hk]⟩
    · simp only [List.map_cons, List.mem_cons] at h
      rcases h with h | h
      · exact absurd h hk
      · obtain ⟨v, hv⟩ := ih h
        exact ⟨v, by simp [mapFind, hk, hv]⟩

theorem copyMatch_length (output : List Byte) (start length : Nat) :
    (copyMatch output start length).length = output.length + length := by
  unfold copyMatch
  induction length with
  | zero => simp
  | succ n ih =>
    rw [List.range_succ, List.foldl_append]
    simp only [List.foldl_cons, List.foldl_nil, List.length_append, List.length_singleton, ih]
    omega

theorem wrapInt_eq {x : Int} (h1 : -2 ^ 31 ≤ x) (h2 : x < 2 ^ 31) : wrapInt x = x := by
  unfold wrapInt
  omega
namespace LZ77

theorem matchWhile_sound (input : List Byte) (i j : Nat) (hj : j < i) :
    ∀ (fuel length : Nat) (best : Nat × Nat),
      i + length ≤ input.length →
      (∀ k, k < length → charAt input (j + k) = charAt input (i + k)) →
      SoundMatch input i best.1 best.2 →
      SoundMatch input i (matchWhile input i j fuel length best).1
        (matchWhile input i j fuel length best).2 := by
  intro fuel
  induction fuel with
  | zero => intro length best _ _ hb; exact hb
  | succ f ih =>
    intro length best hl hm hb
    unfold matchWhile
    split
    · rename_i hc
      have hm2 : ∀ k, k < length + 1 → charAt input (j + k) = charAt input (i + k) := by
        intro k hk
        rcases Nat.lt_succ_iff_lt_or_eq.mp hk with h | h
        · exact hm k h
        · subst h; exact hc.2
      apply ih (length + 1) _ (by omega) hm2
      split
      · right
        refine ⟨by omega, by omega, by omega, ?_⟩
        intro k hk
        have : i - (i - j) + k = j + k := by omega
        rw [this]; exact hm2 k hk
      · exact hb
    · exact hb

theorem findLongestMatch_sound (input : List Byte) (i searchStart w bo : Nat) :
    SoundMatch input i (findLongestMatch input i searchStart w bo).2
      (findLongestMatch input i searchStart w bo).1 := by
  unfold findLongestMatch
  simp only
  have key : ∀ (l : List Nat) (best : Nat × Nat), (∀ j ∈ l, j < i) →
      SoundMatch input i best.1 best.2 →
      SoundMatch input i
        (l.foldl (fun best j => matchWhile input i j (input.length - i) 0 best) best).1
        (l.foldl (fun best j => matchWhile input i j (input.length - i) 0 best) best).2 := by
    intro l
    induction l with
    | nil => intro best _ hb; exact hb
    | cons a t ih =>
      intro best hl hb
      simp only [List.foldl_cons]
      apply ih _ (fun j hj => hl j (List.mem_cons_of_mem _ hj))
      by_cases hi : i ≤ input.length
      · exact matchWhile_sound input i a (hl a (List.mem_cons_self _ _)) _ 0 best (by omega)
          (fun k hk => absurd hk (Nat.not_lt_zero k)) hb
      · have : input.length - i = 0 := by omega
        rw [this]; exact hb
  apply key
  · intro j hj
    rw [List.mem_range'_1] at hj
    omega
  · left; rfl

theorem decompressStep_sound (input : List Byte) (i off len : Nat)
    (hlen : input.length < 2 ^ 64) (hi : i ≤ input.length)
    (hs : SoundMatch input i off len) (next : Byte) :
    decompressStep (input.take i) ⟨off, len, next⟩ =
      if next ≠ 0 then input.take (i + len) ++ [next] else input.take (i + len) := by
  have hcopy := copyMatch_sound input i off len hlen hi hs
  unfold decompressStep
  simp only [hcopy]

theorem findLongestMatch_le (input : List Byte) (i searchStart w bo : Nat)
    (hi : i ≤ input.length) :
    i + (findLongestMatch input i searchStart w bo).1 ≤ input.length := by
  rcases findLongestMatch_sound input i searchStart w bo with h | h
  · omega
  · exact h.2.2.1

theorem decompress_compressLoop (input : List Byte) (w : Nat)
    (hlen : input.length < 2 ^ 64) (hnz : ∀ b ∈ input, b ≠ 0) :
    ∀ (fuel i : Nat), input.length ≤ i + fuel →
      (compressLoop input w fuel i).foldl decompressStep (input.take i) = input := by
  intro fuel
  induction fuel with
  | zero =>
    intro i h
    simp only [compressLoop, List.foldl_nil]
    exact List.take_of_length_le (by omega)
  | succ f ih =>
    intro i h
    unfold compressLoop
    split
    · rename_i hi
      simp only [List.foldl_cons]
      have hs := findLongestMatch_sound input i (if i < w then 0 else i - w) w 0
      have hle := findLongestMatch_le input i (if i < w then 0 else i - w) w 0 (by omega)
      generalize findLongestMatch input i (if i < w then 0 else i - w) w 0 = m at hs hle
      rw [decompressStep_sound input i _ _ hlen (by omega) hs]
      by_cases hlt : i + m.1 < input.length
      · have hne : charAt input (i + m.1) ≠ 0 := hnz _ (charAt_mem hlt)
        rw [if_pos hlt, if_pos hne, take_succ_charAt hlt]
        exact ih _ (by omega)
      · rw [if_neg hlt]
        simp only [ne_eq, not_true_eq_false, if_false]
        have e1 : input.take (i + m.1) = input.take (i + m.1 + 1) := by
          rw [List.take_of_length_le (by omega), List.take_of_length_le (by omega)]
        rw [e1]
        exact ih _ (by omega)
    · rename_i hi
      simp only [List.foldl_nil]
      exact List.take_of_length_le (by omega)

/-- C1: for every input string `x` (a `std::string`, so shorter than `2 ^ 64` bytes) that
contains no zero byte and every window size `w`, `LZ77::decompress(LZ77::compress(x, w))`
is `x`. -/
theorem lz77_roundtrip (x : List Byte) (w : Nat) (hlen : x.length < 2 ^ 64)
    (hnz : ∀ b ∈ x, b ≠ 0) : decompress (compress x w) = x := by
  unfold decompress compress
  have := decompress_compressLoop x w hlen hnz x.length 0 (by omega)
  simpa using this

/-- Witness of `lz77_roundtrip` on "ABABABC" with window size 4. -/
theorem lz77_roundtrip_witness :
    ([65, 66, 65, 66, 65, 66, 67] : List Byte).length < 2 ^ 64 ∧
    (∀ b ∈ ([65, 66, 65, 66, 65, 66, 67] : List Byte), b ≠ 0) ∧
    decompress (compress [65, 66, 65, 66, 65, 66, 67] 4) = [65, 66, 65, 66, 65, 66, 67] :=
  ⟨by simp, by decide, lz77_roundtrip _ 4 (by simp) (by decide)⟩

/-- The inner loop, given enough fuel, stops at the longest match `L` of the candidate
`j` and has replaced the best pair exactly when `L` is greater than the best length it
started with. -/
theorem matchWhile_longest (input : List Byte) (i j : Nat) :
    ∀ (fuel length : Nat) (best : Nat × Nat),
      i + length ≤ input.length → input.length - (i + length) ≤ fuel →
      (∀ k, k < length → charAt input (j + k) = charAt input (i + k)) →
      (length ≤ best.2 ∨ best = (i - j, length)) →
      ∃ L, IsMatch input i j L ∧ (∀ L', IsMatch input i j L' → L' ≤ L) ∧
        matchWhile input i j fuel length best = if L > best.2 then (i - j, L) else best := by
  intro fuel
  induction fuel with
  | zero =>
    intro length best hl hf hm hb
    refine ⟨length, ⟨hl, hm⟩, fun L' h' => by have := h'.1; omega, ?_⟩
    simp only [matchWhile]
    rcases hb with hb | hb
    · rw [if_neg (by omega)]
    · rw [hb]; simp
  | succ f ih =>
    intro length best hl hf hm hb
    unfold matchWhile
    split
    · rename_i hc
      have hm2 : ∀ k, k < length + 1 → charAt input (j + k) = charAt input (i + k) := by
        intro k hk
        rcases Nat.lt_succ_iff_lt_or_eq.mp hk with h | h
        · exact hm k h
        · subst h; exact hc.2
      by_cases hgt : length + 1 > best.2
      · rw [if_pos hgt]
        obtain ⟨L, hL, hmax, hres⟩ := ih (length + 1) (i - j, length + 1) (by omega) (by omega)
          hm2 (Or.inr rfl)
        have hge : length + 1 ≤ L := hmax _ ⟨by omega, hm2⟩
        have hgt2 : L > best.2 := by omega
        refine ⟨L, hL, hmax, ?_⟩
        rw [hres, if_pos hgt2]
        by_cases hl1 : L > length + 1
        · exact if_pos hl1
        · have : L = length + 1 := by omega
          rw [this]
          simp
      · rw [if_neg hgt]
        exact ih (length + 1) best (by omega) (by omega) hm2 (Or.inl (by omega))
    · rename_i hc
      refine ⟨length, ⟨hl, hm⟩, ?_, ?_⟩
      · intro L' h'
        by_contra hlt
        have hlt' : length < L' := by omega
        exact hc ⟨by have := h'.1; omega, h'.2 length hlt'⟩
      · rcases hb with hb | hb
        · rw [if_neg (by omega)]
        · rw [hb]; simp

theorem scan_step (input : List Byte) (i searchStart bo s : Nat) (best : Nat × Nat)
    (hsi : s < i) (hs : searchStart ≤ s) (hinv : ScanInv input i searchStart bo s best) :
    ScanInv input i searchStart bo (s + 1)
      (matchWhile input i s (input.length - i) 0 best) := by
  have hstep : ∃ L, (∀ L', IsMatch input i s L' → L' ≤ L) ∧
      (L > best.2 → IsMatch input i s L) ∧
      matchWhile input i s (input.length - i) 0 best
        = if L > best.2 then (i - s, L) else best := by
    by_cases hi : i ≤ input.length
    · obtain ⟨L, hL, hmax, hres⟩ := matchWhile_longest input i s (input.length - i) 0 best
        (by omega) (by omega) (fun k hk => absurd hk (Nat.not_lt_zero k))
        (Or.inl (Nat.zero_le _))
      exact ⟨L, hmax, fun _ => hL, hres⟩
    · refine ⟨0, ?_, fun h => absurd h (Nat.not_lt_zero _), ?_⟩
      · intro L' h'
        have := h'.1
        omega
      · have h0 : input.length - i = 0 := by omega
        rw [h0]
        simp [matchWhile]
  obtain ⟨L, hmax, hL, hres⟩ := hstep
  rw [hres]
  obtain ⟨hub, hcase⟩ := hinv
  by_cases hgt : L > best.2
  · rw [if_pos hgt]
    refine ⟨?_, Or.inr ⟨by simp only; omega, s, hs, by omega, rfl, hL hgt, ?_⟩⟩
    · intro j L' hj1 hj2 hm
      simp only
      rcases Nat.lt_succ_iff_lt_or_eq.mp hj2 with h | h
      · have := hub j L' hj1 h hm; omega
      · subst h; exact hmax L' hm
    · intro j hj1 hj2 hm
      have := hub j L hj1 hj2 hm
      omega
  · rw [if_neg hgt]
    refine ⟨?_, ?_⟩
    · intro j L' hj1 hj2 hm
      rcases Nat.lt_succ_iff_lt_or_eq.mp hj2 with h | h
      · exact hub j L' hj1 h hm
      · subst h; have := hmax L' hm; omega
    · rcases hcase with h0 | ⟨hpos, j0, h1, h2, h3, h4, h5⟩
      · exact Or.inl h0
      · exact Or.inr ⟨hpos, j0, h1, by omega, h3, h4, h5⟩

theorem scan_invariant (input : List Byte) (i searchStart bo : Nat) :
    ∀ (n s : Nat) (best : Nat × Nat), s + n ≤ i → searchStart ≤ s →
      ScanInv input i searchStart bo s best →
      ScanInv input i searchStart bo (s + n)
        ((List.range' s n).foldl
          (fun best j => matchWhile input i j (input.length - i) 0 best) best) := by
  intro n
  induction n with
  | zero => intro s best _ _ h; simpa using h
  | succ n ih =>
    intro s best hsn hs hinv
    rw [List.range'_succ, List.foldl_cons]
    have hnext := ih (s + 1) _ (by omega) (by omega)
      (scan_step input i searchStart bo s best (by omega) hs hinv)
    have e : s + 1 + n = s + (n + 1) := by omega
    rw [e] at hnext
    exact hnext

/-- C19: `LZ77::findLongestMatch` returns the greatest match length over the candidates
`searchStart ≤ j < i` (a match of `j` being a run of equal bytes from `j` and from `i`
that ends inside the input and may run over the cursor), and 0 when the window is empty
or `i` is at the end. When the result is positive, `bestOffset` is `i - j0` for the
leftmost candidate `j0` that has a match of that length; when it is 0, `bestOffset` is
unchanged. -/
theorem findLongestMatch_spec (input : List Byte) (i searchStart windowSize bestOffset : Nat) :
    (∀ j L, searchStart ≤ j → j < i → IsMatch input i j L →
      L ≤ (findLongestMatch input i searchStart windowSize bestOffset).1) ∧
    (i ≤ searchStart ∨ input.length ≤ i →
      (findLongestMatch input i searchStart windowSize bestOffset).1 = 0) ∧
    (((findLongestMatch input i searchStart windowSize bestOffset).1 = 0 ∧
      (findLongestMatch input i searchStart windowSize bestOffset).2 = bestOffset) ∨
     (0 < (findLongestMatch input i searchStart windowSize bestOffset).1 ∧
      ∃ j0, searchStart ≤ j0 ∧ j0 < i ∧
        (findLongestMatch input i searchStart windowSize bestOffset).2 = i - j0 ∧
        IsMatch input i j0 (findLongestMatch input i searchStart windowSize bestOffset).1 ∧
        ∀ j, searchStart ≤ j → j < j0 →
          ¬ IsMatch input i j (findLongestMatch input i searchStart windowSize bestOffset).1)) := by
  unfold findLongestMatch
  simp only
  by_cases hw : searchStart ≤ i
  · have hinv := scan_invariant input i searchStart bestOffset (i - searchStart) searchStart
      (bestOffset, 0) (by omega) (Nat.le_refl _)
      ⟨fun j L h1 h2 _ => by omega, Or.inl ⟨rfl, rfl⟩⟩
    have e : searchStart + (i - searchStart) = i := by omega
    rw [e] at hinv
    generalize (List.range' searchStart (i - searchStart)).foldl
      (fun best j => matchWhile input i j (input.length - i) 0 best) (bestOffset, 0) = r at hinv
    obtain ⟨hub, hcase⟩ := hinv
    refine ⟨hub, ?_, hcase⟩
    intro hempty
    rcases hcase with h0 | ⟨hpos, j0, h1, h2, _, h4, _⟩
    · exact h0.1
    · have := h4.1
      omega
  · have e : i - searchStart = 0 := by omega
    rw [e]
    rw [List.range'_zero, List.foldl_nil]
    exact ⟨fun j L h1 h2 _ => by omega, fun _ => rfl, Or.inl ⟨rfl, rfl⟩⟩

theorem findLongestMatch_offset_cases (input : List Byte) (i searchStart w : Nat)
    (h : searchStart ≤ i) :
    ((findLongestMatch input i searchStart w 0).1 = 0 ∧
      (findLongestMatch input i searchStart w 0).2 = 0) ∨
    (0 < (findLongestMatch input i searchStart w 0).1 ∧
      1 ≤ (findLongestMatch input i searchStart w 0).2 ∧
      (findLongestMatch input i searchStart w 0).2 ≤ i - searchStart) := by
  unfold findLongestMatch
  simp only
  have hinv := scan_invariant input i searchStart 0 (i - searchStart) searchStart
    (0, 0) (by omega) (Nat.le_refl _)
    ⟨fun j L h1 h2 _ => by omega, Or.inl ⟨rfl, rfl⟩⟩
  generalize (List.range' searchStart (i - searchStart)).foldl
    (fun best j => matchWhile input i j (input.length - i) 0 best) (0, 0) = r at hinv
  obtain ⟨_, hcase⟩ := hinv
  rcases hcase with h0 | ⟨hpos, j0, h1, h2, h3, _, _⟩
  · exact Or.inl h0
  · exact Or.inr ⟨hpos, by omega, by omega⟩

/-- The `k`-th token of the loop started at cursor `i` is the one computed at the cursor
`i + cursorAt _ k`, which lies inside the input. -/
theorem compressLoop_getElem (input : List Byte) (w : Nat) :
    ∀ (fuel i k : Nat) (t : Token), (compressLoop input w fuel i)[k]? = some t →
      i + cursorAt ((compressLoop input w fuel i).map Token.length) k < input.length ∧
      t = ⟨(findLongestMatch input
              (i + cursorAt ((compressLoop input w fuel i).map Token.length) k)
              (if i + cursorAt ((compressLoop input w fuel i).map Token.length) k < w then 0
               else i + cursorAt ((compressLoop input w fuel i).map Token.length) k - w)
              w 0).2,
           (findLongestMatch input
              (i + cursorAt ((compressLoop input w fuel i).map Token.length) k)
              (if i + cursorAt ((compressLoop input w fuel i).map Token.length) k < w then 0
               else i + cursorAt ((compressLoop input w fuel i).map Token.length) k - w)
              w 0).1,
           if i + cursorAt ((compressLoop input w fuel i).map Token.length) k +
                (findLongestMatch input
                  (i + cursorAt ((compressLoop input w fuel i).map Token.length) k)
                  (if i + cursorAt ((compressLoop input w fuel i).map Token.length) k < w
                   then 0
                   else i + cursorAt ((compressLoop input w fuel i).map Token.length) k - w)
                  w 0).1 < input.length
           then charAt input
             (i + cursorAt ((compressLoop input w fuel i).map Token.length) k +
                (findLongestMatch input
                  (i + cursorAt ((compressLoop input w fuel i).map Token.length) k)
                  (if i + cursorAt ((compressLoop input w fuel i).map Token.length) k < w
                   then 0
                   else i + cursorAt ((compressLoop input w fuel i).map Token.length) k - w)
                  w 0).1)
           else 0⟩ := by
  intro fuel
  induction fuel with
  | zero => intro i k t h; simp [compressLoop] at h
  | succ f ih =>
    intro i k t h
    unfold compressLoop at h ⊢
    by_cases hi : i < input.length
    · rw [if_pos hi] at h ⊢
      cases k with
      | zero =>
        simp only [List.getElem?_cons_zero, Option.some.injEq] at h
        simp only [cursorAt_zero, Nat.add_zero]
        exact ⟨hi, h.symm⟩
      | succ k =>
        simp only [List.getElem?_cons_succ] at h
        have := ih _ k t h
        simp only [List.map_cons, cursorAt_succ]
        simp only [← Nat.add_assoc] at this ⊢
        exact this
    · rw [if_neg hi] at h
      simp at h

/-- On an input without zero bytes the decoder, run on the tokens before the `k`-th one,
has produced exactly the input bytes before that token's cursor. -/
theorem decompress_take_compressLoop (input : List Byte) (w : Nat)
    (hlen : input.length < 2 ^ 64) (hnz : ∀ b ∈ input, b ≠ 0) :
    ∀ (fuel i k : Nat), i ≤ input.length → k < (compressLoop input w fuel i).length →
      ((compressLoop input w fuel i).take k).foldl decompressStep (input.take i) =
        input.take (i + cursorAt ((compressLoop input w fuel i).map Token.length) k) := by
  intro fuel
  induction fuel with
  | zero => intro i k _ h; simp [compressLoop] at h
  | succ f ih =>
    intro i k hile h
    unfold compressLoop at h ⊢
    by_cases hi : i < input.length
    · rw [if_pos hi] at h ⊢
      cases k with
      | zero => simp [cursorAt_zero]
      | succ k =>
        simp only [List.length_cons, Nat.add_lt_add_iff_right] at h
        simp only [List.take_succ_cons, List.foldl_cons, List.map_cons, cursorAt_succ]
        have hs := findLongestMatch_sound input i (if i < w then 0 else i - w) w 0
        have hle := findLongestMatch_le input i (if i < w then 0 else i - w) w 0 (by omega)
        generalize findLongestMatch input i (if i < w then 0 else i - w) w 0 = m at hs hle h ⊢
        rw [decompressStep_sound input i _ _ hlen (by omega) hs]
        by_cases hlt : i + m.1 < input.length
        · have hne : charAt input (i + m.1) ≠ 0 := hnz _ (charAt_mem hlt)
          rw [if_pos hlt, if_pos hne, take_succ_charAt hlt]
          have := ih (i + m.1 + 1) k (by omega) h
          simp only [← Nat.add_assoc] at this ⊢
          exact this
        · exfalso
          have hnil : compressLoop input w f (i + m.1 + 1) = [] := by
            cases f with
            | zero => rfl
            | succ f => unfold compressLoop; rw [if_neg (by omega)]
          rw [hnil] at h
          simp at h
    · rw [if_neg hi] at h
      simp at h

/-- C27, counterexample: on "AA" the second token is the back-reference of offset 1 and
length 1, emitted at cursor 1, when the decoder has produced one byte: the offset equals
the number of bytes produced and is not strictly less than it. And on the four bytes
'A', 0, 'A', 0 the third token is the back-reference of offset 2 and length 2, emitted
at cursor 2, when the decoder has produced one byte only (it drops the zero literal of
the second token): with a zero byte in the input the number of input bytes consumed is
not the number of bytes the decoder has produced, and the offset exceeds the latter. -/
theorem lz77_offset_eq_produced :
    compress [65, 65] 4096 = [⟨0, 0, 65⟩, ⟨1, 1, 0⟩] ∧
    cursorAt ((compress [65, 65] 4096).map Token.length) 1 = 1 ∧
    (decompress ((compress [65, 65] 4096).take 1)).length = 1 ∧
    ¬ (1 < 1) ∧
    compress [65, 0, 65, 0] 4096 = [⟨0, 0, 65⟩, ⟨0, 0, 0⟩, ⟨2, 2, 0⟩] ∧
    cursorAt ((compress [65, 0, 65, 0] 4096).map Token.length) 2 = 2 ∧
    (decompress ((compress [65, 0, 65, 0] 4096).take 2)).length = 1 ∧
    ¬ (2 ≤ 1) := by
  refine ⟨by decide, by decide, by decide, by decide, by decide, by decide, by decide,
    by decide⟩

/-- C27, amended: for every input and window size, every back-reference token
(length > 0) emitted by `LZ77::compress` has an offset of at least 1 and at most the
number of input bytes consumed before the token (its cursor, which is less than the input
length); on an input without zero bytes (a `std::string`, so shorter than `2 ^ 64`) that
number is the number of bytes the decoder has produced when it reaches the token. -/
theorem lz77_offset_le_produced (x : List Byte) (w k : Nat) (t : Token)
    (ht : (compress x w)[k]? = some t) (hpos : 0 < t.length) :
    1 ≤ t.offset ∧ t.offset ≤ cursorAt ((compress x w).map Token.length) k ∧
    cursorAt ((compress x w).map Token.length) k < x.length ∧
    (x.length < 2 ^ 64 → (∀ b ∈ x, b ≠ 0) →
      (decompress ((compress x w).take k)).length =
        cursorAt ((compress x w).map Token.length) k) := by
  unfold compress at ht ⊢
  obtain ⟨hlt, het⟩ := compressLoop_getElem x w x.length 0 k t ht
  simp only [Nat.zero_add] at hlt het
  have hdec : x.length < 2 ^ 64 → (∀ b ∈ x, b ≠ 0) →
      (decompress ((compressLoop x w x.length 0).take k)).length =
        cursorAt ((compressLoop x w x.length 0).map Token.length) k := by
    intro hlen hnz
    have hk : k < (compressLoop x w x.length 0).length := by
      by_contra hge
      rw [List.getElem?_eq_none (by omega)] at ht
      exact Option.noConfusion ht
    have h := decompress_take_compressLoop x w hlen hnz x.length 0 k (Nat.zero_le _) hk
    simp only [Nat.zero_add, List.take_zero] at h
    unfold decompress
    rw [h, List.length_take]
    omega
  generalize cursorAt ((compressLoop x w x.length 0).map Token.length) k = pos
    at hlt het hdec ⊢
  have hcases := findLongestMatch_offset_cases x pos (if pos < w then 0 else pos - w) w
    (by split <;> omega)
  generalize findLongestMatch x pos (if pos < w then 0 else pos - w) w 0 = m at het hcases
  subst het
  simp only at hpos ⊢
  rcases hcases with h0 | ⟨_, h1, h2⟩
  · omega
  · have hle : m.2 ≤ pos := by omega
    exact ⟨h1, hle, hlt, hdec⟩

/-- Witness of `lz77_offset_le_produced` on "ABAB" with window size 2: the third token is
the back-reference of offset 2 and length 2 at cursor 2. -/
theorem lz77_offset_le_produced_witness :
    (compress [65, 66, 65, 66] 2)[2]? = some ⟨2, 2, 0⟩ ∧
    1 ≤ (2 : Nat) ∧ 2 ≤ cursorAt ((compress [65, 66, 65, 66] 2).map Token.length) 2 ∧
    (decompress ((compress [65, 66, 65, 66] 2).take 2)).length =
      cursorAt ((compress [65, 66, 65, 66] 2).map Token.length) 2 :=
  ⟨by decide, (lz77_offset_le_produced [65, 66, 65, 66] 2 2 ⟨2, 2, 0⟩ (by decide) (by decide)).1,
    (lz77_offset_le_produced [65, 66, 65, 66] 2 2 ⟨2, 2, 0⟩ (by decide) (by decide)).2.1,
    (lz77_offset_le_produced [65, 66, 65, 66] 2 2 ⟨2, 2, 0⟩ (by decide) (by decide)).2.2.2
      (by simp) (by decide)⟩

/-- C28: for every input `x` and window size `w`, every token emitted by
`LZ77::compress(x, w)` has an offset of at most `w` and of at most its cursor, so the
source of a match starts within the last `w` bytes before the cursor, and a token of
length 0 has offset 0. -/
theorem lz77_offset_le_window (x : List Byte) (w k : Nat) (t : Token)
    (ht : (compress x w)[k]? = some t) :
    t.offset ≤ w ∧ t.offset ≤ cursorAt ((compress x w).map Token.length) k ∧
    (t.length = 0 → t.offset = 0) := by
  unfold compress at ht ⊢
  obtain ⟨hlt, het⟩ := compressLoop_getElem x w x.length 0 k t ht
  simp only [Nat.zero_add] at hlt het
  generalize cursorAt ((compressLoop x w x.length 0).map Token.length) k = pos at hlt het ⊢
  have hstart : (if pos < w then 0 else pos - w) ≤ pos := by split <;> omega
  have hwin : pos - (if pos < w then 0 else pos - w) ≤ w := by split <;> omega
  have hcases := findLongestMatch_offset_cases x pos (if pos < w then 0 else pos - w) w hstart
  generalize findLongestMatch x pos (if pos < w then 0 else pos - w) w 0 = m at het hcases
  generalize (if pos < w then 0 else pos - w) = searchStart at hstart hwin hcases
  subst het
  simp only
  rcases hcases with ⟨_, h0⟩ | ⟨hp, _, h2⟩
  · rw [h0]
    exact ⟨Nat.zero_le _, Nat.zero_le _, fun _ => rfl⟩
  · exact ⟨by omega, by omega, fun h => by omega⟩

/-- Witness of `lz77_offset_le_window` on "ABCABC" with window size 3: the fourth token is
the back-reference of offset 3 (the window size) and length 3 at cursor 3. -/
theorem lz77_offset_le_window_witness :
    (compress [65, 66, 67, 65, 66, 67] 3)[3]? = some ⟨3, 3, 0⟩ ∧
    ((3 : Nat) ≤ 3 ∧ 3 ≤ cursorAt ((compress [65, 66, 67, 65, 66, 67] 3).map Token.length) 3 ∧
      ((3 : Nat) = 0 → (3 : Nat) = 0)) :=
  ⟨by decide, lz77_offset_le_window [65, 66, 67, 65, 66, 67] 3 3 ⟨3, 3, 0⟩ (by decide)⟩

end LZ77

theorem indexOfByte_none (l : List Byte) (ch : Byte) (h : ch ∉ l) :
    indexOfByte l ch = none := by
  induction l with
  | nil => rfl
  | cons a t ih =>
    simp only [List.mem_cons, not_or] at h
    simp only [indexOfByte]
    rw [if_neg (fun e => h.1 e.symm), ih h.2]
    rfl

theorem indexOfByte_append (pre suf : List Byte) (ch : Byte) (h : ch ∉ pre) :
    indexOfByte (pre ++ ch :: suf) ch = some pre.length := by
  induction pre with
  | nil => simp [indexOfByte]
  | cons a t ih =>
    simp only [List.mem_cons, not_or] at h
    show (if a = ch then some 0 else (indexOfByte (t ++ ch :: suf) ch).map (· + 1))
      = some (t.length + 1)
    rw [if_neg (fun e => h.1 e.symm), ih h.2]
    rfl

theorem strFind_none (str : List Byte) (ch : Byte) (pos : Nat)
    (h : ch ∉ str.drop pos) : strFind str ch pos = npos := by
  simp only [strFind, indexOfByte_none _ _ h]

theorem strFind_some (pre mid suf : List Byte) (ch : Byte) (h : ch ∉ mid) :
    strFind (pre ++ mid ++ ch :: suf) ch pre.length = pre.length + mid.length := by
  have : (pre ++ mid ++ ch :: suf).drop pre.length = mid ++ ch :: suf := by
    rw [List.append_assoc, List.drop_left]
  simp only [strFind, this, indexOfByte_append _ _ _ h]

theorem digitChar_isDigit (d : Nat) (h : d < 10) : isDigit (digitChar d) = true := by
  simp only [isDigit, digitChar, toChar, decide_eq_true_eq]
  omega

theorem digitChar_val (d : Nat) (h : d < 10) : (digitChar d).val - 48 = d := by
  simp only [digitChar, toChar]
  omega

theorem toDigitsFuel_eq : ∀ (fuel n : Nat) (acc : List Byte), 0 < n → n < fuel →
    toDigitsFuel fuel n acc = ((Nat.digits 10 n).reverse.map digitChar) ++ acc := by
  intro fuel
  induction fuel with
  | zero => intro n acc _ h; omega
  | succ f ih =>
    intro n acc hn hf
    unfold toDigitsFuel
    rw [Nat.digits_def' (by decide) hn]
    split
    · rename_i h0
      rw [h0]
      simp
    · rename_i h0
      rw [ih (n / 10) _ (by omega) (by omega)]
      simp

/-- The string `to_string n` is the decimal digits of `n`, or "0". -/
theorem to_string_eq (n : Nat) :
    to_string n = if n = 0 then [digitChar 0] else (Nat.digits 10 n).reverse.map digitChar := by
  unfold to_string
  split
  · rename_i h; subst h; rfl
  · rename_i h
    rw [toDigitsFuel_eq (n + 1) n [] (by omega) (by omega)]
    simp

theorem to_string_digits (n : Nat) : ∀ c ∈ to_string n, isDigit c = true := by
  intro c hc
  rw [to_string_eq] at hc
  split at hc
  · simp only [List.mem_singleton] at hc
    subst hc; exact digitChar_isDigit 0 (by decide)
  · simp only [List.mem_map, List.mem_reverse] at hc
    obtain ⟨d, hd, rfl⟩ := hc
    exact digitChar_isDigit d (Nat.digits_lt_base (by decide) hd)

theorem to_string_ne_nil (n : Nat) : to_string n ≠ [] := by
  rw [to_string_eq]
  split
  · simp
  · rename_i h
    simp only [ne_eq, List.map_eq_nil_iff, List.reverse_eq_nil_iff]
    exact Nat.digits_ne_nil_iff_ne_zero.mpr h

theorem foldl_digits_value (l : List Nat) (hl : ∀ d ∈ l, d < 10) (v : Nat) :
    (l.map digitChar).foldl (fun v c => v * 10 + (c.val - 48)) v
      = l.foldl (fun v d => v * 10 + d) v := by
  induction l generalizing v with
  | nil => rfl
  | cons a t ih =>
    simp only [List.map_cons, List.foldl_cons]
    rw [digitChar_val a (hl a (List.mem_cons_self _ _))]
    exact ih (fun d hd => hl d (List.mem_cons_of_mem _ hd)) _

theorem foldl_reverse_ofDigits (l : List Nat) :
    l.reverse.foldl (fun v d => v * 10 + d) 0 = Nat.ofDigits 10 l := by
  induction l with
  | nil => rfl
  | cons a t ih =>
    simp only [List.reverse_cons, List.foldl_append, List.foldl_cons, List.foldl_nil, ih,
      Nat.ofDigits_cons]
    omega

theorem to_string_value (n : Nat) :
    (to_string n).foldl (fun v c => v * 10 + (c.val - 48)) 0 = n := by
  rw [to_string_eq]
  split
  · rename_i h; subst h; rfl
  · rw [foldl_digits_value _ (fun d hd => Nat.digits_lt_base (by decide)
      (List.mem_reverse.mp hd)), foldl_reverse_ofDigits, Nat.ofDigits_digits]

/-- Reading back a printed `size_t` gives the value. -/
theorem stoull_to_string (n : Nat) (hn : n < 2 ^ 64) : stoull (to_string n) = some n := by
  have hd := to_string_digits n
  have hne := to_string_ne_nil n
  have hv := to_string_value n
  generalize to_string n = s at hd hne hv
  match s, hne with
  | c :: rest, _ =>
    have hc := hd c (List.mem_cons_self _ _)
    have hcv : 48 ≤ c.val ∧ c.val ≤ 57 := by simpa [isDigit] using hc
    have hsp : isSpace c = false := by
      simp only [isSpace, decide_eq_false_iff_not]
      omega
    have h45 : c ≠ 45 := by
      intro e; subst e; revert hcv; decide
    have h43 : c ≠ 43 := by
      intro e; subst e; revert hcv; decide
    have htw : (c :: rest).takeWhile isDigit = c :: rest :=
      List.takeWhile_eq_self_iff.mpr hd
    simp only [stoull, List.dropWhile_cons, hsp, List.head?_cons, Option.some.injEq, h45, h43,
      or_self, if_false, htw, hv, decide_False, Bool.false_eq_true]
    simp
    omega

theorem isDigit_ne_comma (l : List Byte) (h : ∀ c ∈ l, isDigit c = true) : (44 : Byte) ∉ l := by
  intro hc
  have := h 44 hc
  revert this; decide

theorem isDigit_ne_semicolon (l : List Byte) (h : ∀ c ∈ l, isDigit c = true) :
    (59 : Byte) ∉ l := by
  intro hc
  have := h 59 hc
  revert this; decide

namespace LZ77.Utils

theorem serializeToken_length (t : Token) :
    (serializeToken t).length = (to_string t.offset).length + (to_string t.length).length + 3 := by
  simp [serializeToken]
  omega

theorem deserialize_parts (D1 D2 : List Byte) (o l : Nat) (next : Byte)
    (hc1 : (44 : Byte) ∉ D1) (hc2 : (44 : Byte) ∉ D2)
    (hp1 : stoull D1 = some o) (hp2 : stoull D2 = some l)
    (hs : (D1 ++ 44 :: (D2 ++ [44, next])).length < 2 ^ 64) :
    deserializeToken (D1 ++ 44 :: (D2 ++ [44, next])) = some ⟨o, l, next⟩ := by
  simp only [List.length_append, List.length_cons, List.length_nil] at hs
  have hf1 : strFind (D1 ++ 44 :: (D2 ++ [44, next])) 44 0 = D1.length := by
    have := strFind_some [] D1 (D2 ++ [44, next]) 44 hc1
    simpa using this
  have ha1 : addSize D1.length 1 = D1.length + 1 := addSize_eq_add (by omega)
  have hf2 : strFind (D1 ++ 44 :: (D2 ++ [44, next])) 44 (D1.length + 1)
      = D1.length + 1 + D2.length := by
    have := strFind_some (D1 ++ [44]) D2 [next] 44 hc2
    simpa using this
  have hsub : subSize (subSize (D1.length + 1 + D2.length) D1.length) 1 = D2.length := by
    have e1 : subSize (D1.length + 1 + D2.length) D1.length = 1 + D2.length := by
      rw [subSize_eq_sub (by omega) (by omega)]
      omega
    rw [e1, subSize_eq_sub (by omega) (by omega)]
    omega
  have ha2 : addSize (D1.length + 1 + D2.length) 1 = D1.length + 1 + D2.length + 1 :=
    addSize_eq_add (by omega)
  have hs1 : substr (D1 ++ 44 :: (D2 ++ [44, next])) 0 D1.length = some D1 := by
    simp [substr]
  have hs2 : substr (D1 ++ 44 :: (D2 ++ [44, next])) (D1.length + 1) D2.length = some D2 := by
    have hd : (D1 ++ 44 :: (D2 ++ [44, next])).drop (D1.length + 1) = D2 ++ [44, next] := by
      have : D1 ++ 44 :: (D2 ++ [44, next]) = (D1 ++ [44]) ++ (D2 ++ [44, next]) := by simp
      rw [this]
      have hl : D1.length + 1 = (D1 ++ [44]).length := by simp
      rw [hl, List.drop_left]
    simp only [substr, hd, List.length_append, List.length_cons, List.length_nil]
    rw [if_neg (by omega)]
    simp
  have hch : charAt (D1 ++ 44 :: (D2 ++ [44, next])) (D1.length + 1 + D2.length + 1) = next := by
    have : D1 ++ 44 :: (D2 ++ [44, next]) = (D1 ++ 44 :: (D2 ++ [44])) ++ [next] := by simp
    rw [this]
    have hl : D1.length + 1 + D2.length + 1 = (D1 ++ 44 :: (D2 ++ [44])).length := by
      simp; omega
    rw [hl]
    unfold charAt
    exact getD_append_length _ _ _
  simp only [deserializeToken, hf1, ha1, hf2, hsub, ha2, hs1, hs2, hp1, hp2, hch]

/-- Parsing the text of one token gives the token back. -/
theorem deserialize_serialize (t : Token) (ho : t.offset < 2 ^ 64) (hl : t.length < 2 ^ 64)
    (hs : (serializeToken t).length < 2 ^ 64) :
    deserializeToken (serializeToken t) = some t := by
  have hform : serializeToken t
      = to_string t.offset ++ 44 :: (to_string t.length ++ [44, t.next]) := by
    simp [serializeToken]
  rw [hform] at hs ⊢
  exact deserialize_parts _ _ _ _ _ (isDigit_ne_comma _ (to_string_digits _))
    (isDigit_ne_comma _ (to_string_digits _)) (stoull_to_string _ ho)
    (stoull_to_string _ hl) hs

theorem serialize_foldl_acc (ts : List Token) (acc : List Byte) :
    ts.foldl (fun result token => result ++ (serializeToken token ++ [59])) acc
      = acc ++ ts.foldl (fun result token => result ++ (serializeToken token ++ [59])) [] := by
  induction ts generalizing acc with
  | nil => simp
  | cons a t ih =>
    simp only [List.foldl_cons, List.nil_append]
    rw [ih (acc ++ _), ih (serializeToken a ++ [59]), List.append_assoc]

theorem serialize_foldl_join : ∀ (ts : List Token), ts ≠ [] →
    ts.foldl (fun result token => result ++ (serializeToken token ++ [59])) []
      = joinTokens ts ++ [59]
  | [], h => absurd rfl h
  | [t], _ => by simp [joinTokens]
  | t :: t' :: rest, _ => by
    have ih := serialize_foldl_join (t' :: rest) (by simp)
    rw [List.foldl_cons, serialize_foldl_acc, ih]
    simp [joinTokens]

theorem vectorToString_eq_join (ts : List Token) : vectorToString ts = joinTokens ts := by
  unfold vectorToString
  cases ts with
  | nil => simp [joinTokens]
  | cons a t =>
    rw [serialize_foldl_join (a :: t) (by simp)]
    simp

theorem semicolon_not_mem_serialize (t : Token) (h : t.next ≠ 59) :
    (59 : Byte) ∉ serializeToken t := by
  have h1 := isDigit_ne_semicolon _ (to_string_digits t.offset)
  have h2 := isDigit_ne_semicolon _ (to_string_digits t.length)
  simp only [serializeToken, List.mem_append, List.mem_singleton, not_or]
  refine ⟨⟨⟨⟨h1, by decide⟩, h2⟩, by decide⟩, fun e => h e.symm⟩

theorem length_le_joinTokens : ∀ (ts : List Token), ts.length ≤ (joinTokens ts).length
  | [] => by simp
  | [t] => by
    simp only [joinTokens, serializeToken_length, List.length_singleton]
    omega
  | t :: t' :: rest => by
    have ih := length_le_joinTokens (t' :: rest)
    simp only [joinTokens, List.length_append, List.length_cons, serializeToken_length] at ih ⊢
    omega

/-- The splitting loop, started at the beginning of the token texts that remain, reads
exactly those tokens. -/
theorem stringToVectorLoop_join : ∀ (ts : List Token), ts ≠ [] →
    ∀ (fuel : Nat) (pre : List Byte) (acc : List Token), ts.length ≤ fuel →
      (pre ++ joinTokens ts).length < 2 ^ 64 →
      (∀ t ∈ ts, t.next ≠ 59 ∧ t.offset < 2 ^ 64 ∧ t.length < 2 ^ 64) →
      stringToVectorLoop (pre ++ joinTokens ts) fuel pre.length acc = some (acc ++ ts)
  | [], h => absurd rfl h
  | [t], _ => by
    intro fuel pre acc hfuel hlen ht
    obtain ⟨hn, ho, hl⟩ := ht t (List.mem_cons_self _ _)
    match fuel, hfuel with
    | f + 1, _ =>
      simp only [joinTokens] at hlen ⊢
      simp only [List.length_append] at hlen
      have hfind : strFind (pre ++ serializeToken t) 59 pre.length = npos := by
        apply strFind_none
        rw [List.drop_left]
        exact semicolon_not_mem_serialize t hn
      have hpos : 0 < (serializeToken t).length := by
        rw [serializeToken_length]; omega
      have hsub : substr (pre ++ serializeToken t) pre.length npos = some (serializeToken t) := by
        simp only [substr, List.length_append, List.drop_left]
        rw [if_neg (by omega), List.take_of_length_le (by unfold npos; omega)]
      simp only [stringToVectorLoop, hfind, ne_eq, not_true_eq_false, if_false,
        List.length_append, hsub, deserialize_serialize t ho hl (by omega)]
      rw [if_pos (by omega)]
  | t :: t' :: rest, _ => by
    intro fuel pre acc hfuel hlen ht
    obtain ⟨hn, ho, hl⟩ := ht t (List.mem_cons_self _ _)
    match fuel, hfuel with
    | f + 1, hfuel =>
      have ih := stringToVectorLoop_join (t' :: rest) (by simp) f
        (pre ++ serializeToken t ++ [59]) (acc ++ [t])
        (by simp only [List.length_cons] at hfuel ⊢; omega)
      have hstr : pre ++ joinTokens (t :: t' :: rest)
          = pre ++ serializeToken t ++ 59 :: joinTokens (t' :: rest) := by
        simp [joinTokens]
      have hstr2 : pre ++ joinTokens (t :: t' :: rest)
          = (pre ++ serializeToken t ++ [59]) ++ joinTokens (t' :: rest) := by
        simp [joinTokens]
      have hlen' := hlen
      rw [hstr] at hlen'
      simp only [List.length_append, List.length_cons] at hlen'
      have hfind : strFind (pre ++ joinTokens (t :: t' :: rest)) 59 pre.length
          = pre.length + (serializeToken t).length := by
        rw [hstr]
        exact strFind_some pre (serializeToken t) _ 59 (semicolon_not_mem_serialize t hn)
      have hne : pre.length + (serializeToken t).length ≠ npos := by
        unfold npos; omega
      have hss : subSize (pre.length + (serializeToken t).length) pre.length
          = (serializeToken t).length := by
        rw [subSize_eq_sub (by omega) (by omega)]; omega
      have hsub : substr (pre ++ joinTokens (t :: t' :: rest)) pre.length
          (serializeToken t).length = some (serializeToken t) := by
        rw [hstr]
        simp only [substr, List.length_append, List.length_cons, List.append_assoc,
          List.drop_left]
        rw [if_neg (by omega)]
        simp
      have hadd : addSize (pre.length + (serializeToken t).length) 1
          = (pre ++ serializeToken t ++ [59]).length := by
        rw [addSize_eq_add (by omega)]
        simp
        omega
      simp only [stringToVectorLoop, hfind, hne, ne_eq, not_false_eq_true, if_true, hss, hsub,
        deserialize_serialize t ho hl (by omega), hadd]
      rw [hstr2]
      rw [ih (by rw [← hstr2]; exact hlen)
        (fun u hu => ht u (List.mem_cons_of_mem _ hu))]
      simp

/-- Helper form: splitting the text of a token list gives the list back. -/
theorem stringToVector_vectorToString (ts : List Token)
    (hlen : (vectorToString ts).length < 2 ^ 64)
    (ht : ∀ t ∈ ts, t.next ≠ 59 ∧ t.offset < 2 ^ 64 ∧ t.length < 2 ^ 64) :
    stringToVector (vectorToString ts) = some ts := by
  rw [vectorToString_eq_join] at hlen ⊢
  unfold stringToVector
  by_cases hnil : ts = []
  · subst hnil
    simp [joinTokens, stringToVectorLoop, strFind, indexOfByte]
  · have := stringToVectorLoop_join ts hnil ((joinTokens ts).length + 1) [] []
      (by have := length_le_joinTokens ts; omega) (by simpa using hlen) ht
    simpa using this

/-- C20: for every list `ts` of LZ77 tokens whose `next` bytes are not `';'` (offsets and
lengths being `size_t` values and the text a `std::string`, so all below `2 ^ 64`; `next`
may be `','` or the zero byte), `stringToVector(vectorToString(ts))` returns `ts`; the
empty list gives the empty string, which gives the empty list. -/
theorem tokens_text_roundtrip (ts : List Token)
    (hfield : ∀ t ∈ ts, t.offset < 2 ^ 64 ∧ t.length < 2 ^ 64)
    (hlen : (vectorToString ts).length < 2 ^ 64)
    (hsemi : ∀ t ∈ ts, t.next ≠ 59) :
    stringToVector (vectorToString ts) = some ts ∧
    vectorToString [] = [] ∧ stringToVector [] = some [] := by
  refine ⟨?_, rfl, ?_⟩
  · exact stringToVector_vectorToString ts hlen
      (fun t ht => ⟨hsemi t ht, (hfield t ht).1, (hfield t ht).2⟩)
  · simp [stringToVector, stringToVectorLoop, strFind, indexOfByte]

/-- Witness of `tokens_text_roundtrip` on the tokens `{0, 0, ','}`, `{3, 12, '\0'}`,
`{40000, 7, '5'}`. -/
theorem tokens_text_roundtrip_witness :
    (∀ t ∈ ([⟨0, 0, 44⟩, ⟨3, 12, 0⟩, ⟨40000, 7, 53⟩] : List Token),
      t.offset < 2 ^ 64 ∧ t.length < 2 ^ 64) ∧
    (vectorToString [⟨0, 0, 44⟩, ⟨3, 12, 0⟩, ⟨40000, 7, 53⟩]).length < 2 ^ 64 ∧
    (∀ t ∈ ([⟨0, 0, 44⟩, ⟨3, 12, 0⟩, ⟨40000, 7, 53⟩] : List Token), t.next ≠ 59) ∧
    stringToVector (vectorToString [⟨0, 0, 44⟩, ⟨3, 12, 0⟩, ⟨40000, 7, 53⟩])
      = some [⟨0, 0, 44⟩, ⟨3, 12, 0⟩, ⟨40000, 7, 53⟩] ∧
    vectorToString [] = [] ∧ stringToVector [] = some [] :=
  ⟨by simp, by decide, by decide,
   tokens_text_roundtrip _ (by simp) (by decide) (by decide)⟩

end LZ77.Utils

namespace LZ4

/-- The input "ABCDEFGHIJKLMNOPABCD": sixteen distinct letters, then the first four
again, so that the only match starts exactly 16 bytes before the cursor. -/
theorem lz4_compress_offset16 :
    compress [65, 66, 67, 68, 69, 70, 71, 72, 73, 74, 75, 76, 77, 78, 79, 80, 65, 66, 67, 68]
      = [65, 66, 67, 68, 69, 70, 71, 72, 73, 74, 75, 76, 77, 78, 79, 80, 16, 4] := by
  decide

/-- C10, the code at the failing input: every byte of "ABCDEFGHIJKLMNOPABCD" is at
least 16, the encoder emits the match as the byte pair (16, 4), and the decoder, which
takes only bytes below 16 for an offset, copies both bytes as literals: the round trip
does not give the input back. -/
theorem lz4_roundtrip_fails_offset16 :
    (∀ b ∈ ([65, 66, 67, 68, 69, 70, 71, 72, 73, 74, 75, 76, 77, 78, 79, 80,
        65, 66, 67, 68] : List Byte), 16 ≤ b.val) ∧
    decompress (compress
      [65, 66, 67, 68, 69, 70, 71, 72, 73, 74, 75, 76, 77, 78, 79, 80, 65, 66, 67, 68])
      = [65, 66, 67, 68, 69, 70, 71, 72, 73, 74, 75, 76, 77, 78, 79, 80, 16, 4] ∧
    decompress (compress
      [65, 66, 67, 68, 69, 70, 71, 72, 73, 74, 75, 76, 77, 78, 79, 80, 65, 66, 67, 68])
      ≠ [65, 66, 67, 68, 69, 70, 71, 72, 73, 74, 75, 76, 77, 78, 79, 80, 65, 66, 67, 68] := by
  refine ⟨by decide, ?_, ?_⟩
  · decide
  · decide

/-- What the inner loop of `LZ4::findLongestMatch` keeps true of `k`: at most 255, not
over the cursor, inside the input once positive, and a run of equal bytes. -/
theorem lz4_matchWhile_sound (input : List Byte) (i j : Nat) :
    ∀ (fuel k : Nat), k ≤ 255 → k ≤ i - j → (k = 0 ∨ i + k ≤ input.length) →
      (∀ m, m < k → charAt input (j + m) = charAt input (i + m)) →
      matchWhile input i j fuel k ≤ 255 ∧ matchWhile input i j fuel k ≤ i - j ∧
      (matchWhile input i j fuel k = 0 ∨ i + matchWhile input i j fuel k ≤ input.length) ∧
      ∀ m, m < matchWhile input i j fuel k → charAt input (j + m) = charAt input (i + m) := by
  intro fuel
  induction fuel with
  | zero => intro k h1 h2 h3 h4; exact ⟨h1, h2, h3, h4⟩
  | succ f ih =>
    intro k h1 h2 h3 h4
    unfold matchWhile
    split
    · rename_i hc
      apply ih (k + 1) (by omega) (by omega) (Or.inr (by omega))
      intro m hm
      rcases Nat.lt_succ_iff_lt_or_eq.mp hm with h | h
      · exact h4 m h
      · subst h; exact hc.2.2.2
    · exact ⟨h1, h2, h3, h4⟩

/-- C34: for every input and cursor `i`, `LZ4::findLongestMatch` returns a length `L` of
at most 255; when `L > 0` the reported offset `o` satisfies `1 <= o <= min(i, 16)` and
`L <= o` (the source of the match does not run over the cursor), the match ends inside
the input (`i + L <= |input|`), and `input[i - o + k] == input[i + k]` for all `k < L`. -/
theorem lz4_findLongestMatch_sound (input : List Byte) (i match_offset : Nat) :
    (findLongestMatch input i match_offset).1 ≤ 255 ∧
    (0 < (findLongestMatch input i match_offset).1 →
      1 ≤ (findLongestMatch input i match_offset).2 ∧
      (findLongestMatch input i match_offset).2 ≤ min i 16 ∧
      (findLongestMatch input i match_offset).1 ≤ (findLongestMatch input i match_offset).2 ∧
      i + (findLongestMatch input i match_offset).1 ≤ input.length ∧
      ∀ k, k < (findLongestMatch input i match_offset).1 →
        charAt input (i - (findLongestMatch input i match_offset).2 + k)
          = charAt input (i + k)) := by
  unfold findLongestMatch
  simp only
  apply foldl_best_invariant
    (fun st => st.1 ≤ 255 ∧ (0 < st.1 → 1 ≤ st.2 ∧ st.2 ≤ min i 16 ∧ st.1 ≤ st.2 ∧
      i + st.1 ≤ input.length ∧
      ∀ k, k < st.1 → charAt input (i - st.2 + k) = charAt input (i + k)))
    (fun j => matchWhile input i j 255 0) (fun j => i - j)
  · exact ⟨by omega, fun h => absurd h (Nat.lt_irrefl 0)⟩
  · intro j hj
    rw [List.mem_range'_1] at hj
    obtain ⟨h1, h2, h3, h4⟩ := lz4_matchWhile_sound input i j 255 0 (by omega) (by omega)
      (Or.inl rfl) (fun m hm => absurd hm (Nat.not_lt_zero m))
    refine ⟨h1, fun hpos => ⟨by omega, by omega, h2, by omega, ?_⟩⟩
    intro k hk
    have e : i - (i - j) = j := by omega
    show charAt input (i - (i - j) + k) = charAt input (i + k)
    rw [e]
    exact h4 k hk

end LZ4

namespace LZSS

theorem lzss_matchWhile_sound (input : List Byte) (j cur w : Nat) :
    ∀ (fuel length : Nat), cur + length ≤ input.length →
      (∀ k, k < length → charAt input (j + k) = charAt input (cur + k)) →
      cur + matchWhile input j cur w fuel length ≤ input.length ∧
      ∀ k, k < matchWhile input j cur w fuel length →
        charAt input (j + k) = charAt input (cur + k) := by
  intro fuel
  induction fuel with
  | zero => intro length hl hm; exact ⟨hl, hm⟩
  | succ f ih =>
    intro length hl hm
    unfold matchWhile
    split
    · rename_i hc
      have hm2 : ∀ k, k < length + 1 → charAt input (j + k) = charAt input (cur + k) := by
        intro k hk
        rcases Nat.lt_succ_iff_lt_or_eq.mp hk with h | h
        · exact hm k h
        · subst h; exact hc.2.2
      split
      · exact ⟨by omega, hm2⟩
      · exact ih (length + 1) (by omega) hm2
    · exact ⟨hl, hm⟩

theorem findBestMatch_sound (input : List Byte) (ws cur w bo : Nat)
    (hcur : cur ≤ input.length) :
    SoundMatch input cur (findBestMatch input ws cur w bo).2
      (findBestMatch input ws cur w bo).1 := by
  unfold findBestMatch
  have key : ∀ (l : List Nat) (st : Nat × Nat), (∀ j ∈ l, j < cur) →
      SoundMatch input cur st.2 st.1 →
      SoundMatch input cur
        (l.foldl (fun st j =>
          let length := matchWhile input j cur w (cur - j) 0
          if length > st.1 then (length, cur - j) else st) st).2
        (l.foldl (fun st j =>
          let length := matchWhile input j cur w (cur - j) 0
          if length > st.1 then (length, cur - j) else st) st).1 := by
    intro l
    induction l with
    | nil => intro st _ hb; exact hb
    | cons a t ih =>
      intro st hl hb
      simp only [List.foldl_cons]
      apply ih _ (fun j hj => hl j (List.mem_cons_of_mem _ hj))
      have ha := hl a (List.mem_cons_self _ _)
      have hm := lzss_matchWhile_sound input a cur w (cur - a) 0 (by omega)
        (fun k hk => absurd hk (Nat.not_lt_zero k))
      split
      · right
        refine ⟨by omega, by omega, hm.1, ?_⟩
        intro k hk
        have : cur - (cur - a) + k = a + k := by omega
        rw [this]; exact hm.2 k hk
      · exact hb
  apply key
  · intro j hj
    rw [List.mem_range'_1] at hj
    omega
  · left; rfl

theorem lzss_decompress_compressLoop (input : List Byte) (w : Nat)
    (hlen : input.length < 2 ^ 64) :
    ∀ (fuel i : Nat), input.length ≤ i + fuel → i ≤ input.length →
      (compressLoop input w fuel i).foldl decompressStep (input.take i) = input := by
  intro fuel
  induction fuel with
  | zero =>
    intro i h _
    simp only [compressLoop, List.foldl_nil]
    exact List.take_of_length_le (by omega)
  | succ f ih =>
    intro i h hi'
    unfold compressLoop
    split
    · rename_i hi
      have hs := findBestMatch_sound input (max (subSize i w) 0) i w 0 hi'
      generalize findBestMatch input (max (subSize i w) 0) i w 0 = m at hs
      simp only
      split
      · rename_i h3
        simp only [List.foldl_cons]
        have hle : i + m.1 ≤ input.length := by
          rcases hs with h0 | h0
          · omega
          · exact h0.2.2.1
        have e : decompressStep (input.take i) ⟨false, 0, m.2, m.1⟩ = input.take (i + m.1) := by
          simp only [decompressStep, Bool.false_eq_true, if_false]
          exact copyMatch_sound input i m.2 m.1 hlen hi' hs
        rw [e]
        exact ih _ (by omega) hle
      · simp only [List.foldl_cons]
        have e : decompressStep (input.take i) ⟨true, charAt input i, 0, 0⟩
            = input.take (i + 1) := by
          simp only [decompressStep, if_true]
          exact take_succ_charAt hi
        rw [e]
        exact ih _ (by omega) (by omega)
    · simp only [List.foldl_nil]
      exact List.take_of_length_le (by omega)

/-- C9: for every byte sequence `x` (a `std::string`, so shorter than `2 ^ 64` bytes; zero
bytes allowed), every `windowSize` and every `lookaheadSize`,
`LZSS::decompress(LZSS::compress(x, windowSize, lookaheadSize))` is `x`, with the
`size_t` subtractions taken modulo `2 ^ 64`. -/
theorem lzss_roundtrip (x : List Byte) (windowSize lookaheadSize : Nat)
    (hlen : x.length < 2 ^ 64) :
    decompress (compress x windowSize lookaheadSize) = x := by
  unfold decompress compress
  have := lzss_decompress_compressLoop x windowSize hlen x.length 0 (by omega) (by omega)
  simpa using this

/-- Witness of `lzss_roundtrip` on "ABCABC" followed by a zero byte, window size 3. -/
theorem lzss_roundtrip_witness :
    ([65, 66, 67, 65, 66, 67, 0] : List Byte).length < 2 ^ 64 ∧
    decompress (compress [65, 66, 67, 65, 66, 67, 0] 3 18) = [65, 66, 67, 65, 66, 67, 0] :=
  ⟨by simp, lzss_roundtrip _ 3 18 (by simp)⟩

/-- C24, the code at the failing input "ABCABC" with the default window 4096 (and
lookahead 18): at every cursor `i < 4096` the unsigned `i - windowSize` wraps to a value
above `i`, `std::max` with 0 leaves it there, the search loop does not run, and the six
bytes come out as six literals; no match token of offset 3 and length 3 is emitted at
cursor 3. -/
theorem lzss_short_input_no_match :
    subSize 3 4096 = 2 ^ 64 - 4093 ∧
    findBestMatch [65, 66, 67, 65, 66, 67] (max (subSize 3 4096) 0) 3 4096 0 = (0, 0) ∧
    findBestMatch [65, 66, 67, 65, 66, 67] 0 3 4096 0 = (3, 3) ∧
    compress [65, 66, 67, 65, 66, 67] 4096 18
      = [⟨true, 65, 0, 0⟩, ⟨true, 66, 0, 0⟩, ⟨true, 67, 0, 0⟩,
         ⟨true, 65, 0, 0⟩, ⟨true, 66, 0, 0⟩, ⟨true, 67, 0, 0⟩] := by
  refine ⟨by decide, by decide, by decide, by decide⟩

/-- The inner loop stops at a length that does not run over the cursor and, because of
its `break`, does not exceed the window size (or 1 when the window size is 0). -/
theorem lzss_matchWhile_bound (input : List Byte) (j cur w : Nat) :
    ∀ (fuel length : Nat), length ≤ cur - j → (length = 0 ∨ length < w) →
      matchWhile input j cur w fuel length ≤ cur - j ∧
      matchWhile input j cur w fuel length ≤ max w 1 := by
  intro fuel
  induction fuel with
  | zero =>
    intro length h1 h2
    exact ⟨h1, by simp only [matchWhile]; omega⟩
  | succ f ih =>
    intro length h1 h2
    unfold matchWhile
    split
    · rename_i hc
      split
      · exact ⟨by omega, by omega⟩
      · exact ih (length + 1) (by omega) (by omega)
    · exact ⟨h1, by omega⟩

theorem findBestMatch_bound (input : List Byte) (ws cur w bo : Nat) :
    (findBestMatch input ws cur w bo).1 ≤ max w 1 ∧
    (findBestMatch input ws cur w bo).1 ≤ (findBestMatch input ws cur w bo).2 := by
  unfold findBestMatch
  exact foldl_best_invariant (fun st => st.1 ≤ max w 1 ∧ st.1 ≤ st.2)
    (fun j => matchWhile input j cur w (cur - j) 0) (fun j => cur - j) _ (0, 0)
    ⟨by omega, Nat.le_refl _⟩
    (fun j _ => by
      have := lzss_matchWhile_bound input j cur w (cur - j) 0 (Nat.zero_le _) (Or.inl rfl)
      exact ⟨this.2, this.1⟩)

theorem lzss_compressLoop_match_bound (input : List Byte) (w : Nat) :
    ∀ (fuel i : Nat), ∀ t ∈ compressLoop input w fuel i, t.isLiteral = false →
      3 ≤ t.length ∧ t.length ≤ w ∧ t.length ≤ t.offset := by
  intro fuel
  induction fuel with
  | zero => intro i t ht; simp [compressLoop] at ht
  | succ f ih =>
    intro i t ht hlit
    unfold compressLoop at ht
    split at ht
    · have hb := findBestMatch_bound input (max (subSize i w) 0) i w 0
      simp only at ht
      generalize findBestMatch input (max (subSize i w) 0) i w 0 = m at ht hb
      split at ht
      · rename_i h3
        rcases List.mem_cons.mp ht with e | ht
        · subst e
          exact ⟨h3, by simp only; omega, hb.2⟩
        · exact ih _ t ht hlit
      · rcases List.mem_cons.mp ht with e | ht
        · subst e
          simp at hlit
        · exact ih _ t ht hlit
    · simp at ht

/-- C36: `LZSS::compress` does not depend on its `lookaheadSize` parameter: for every
input, every window size and any two lookahead values the token lists are equal. The
length of a match token is limited by the window size and by the non-overlap condition
(it is at most the offset), not by the lookahead: "ABCABC" with window size 3 and
lookahead 1 gets a match token of length 3. -/
theorem lzss_lookahead_unused (input : List Byte) (windowSize l1 l2 : Nat) :
    compress input windowSize l1 = compress input windowSize l2 ∧
    (∀ t ∈ compress input windowSize l1, t.isLiteral = false →
      3 ≤ t.length ∧ t.length ≤ windowSize ∧ t.length ≤ t.offset) ∧
    compress [65, 66, 67, 65, 66, 67] 3 1
      = [⟨true, 65, 0, 0⟩, ⟨true, 66, 0, 0⟩, ⟨true, 67, 0, 0⟩, ⟨false, 0, 3, 3⟩] := by
  refine ⟨rfl, ?_, by decide⟩
  intro t ht hlit
  exact lzss_compressLoop_match_bound input windowSize _ _ t ht hlit

end LZSS

namespace LZ5

theorem lz5_matchWhile_sound (input : List Byte) (pos i maxOffset : Nat) :
    ∀ (fuel length : Nat), pos + length ≤ input.length →
      (∀ k, k < length → charAt input (i + k) = charAt input (pos + k)) →
      pos + matchWhile input pos i maxOffset fuel length ≤ input.length ∧
      ∀ k, k < matchWhile input pos i maxOffset fuel length →
        charAt input (i + k) = charAt input (pos + k) := by
  intro fuel
  induction fuel with
  | zero => intro length hl hm; exact ⟨hl, hm⟩
  | succ f ih =>
    intro length hl hm
    unfold matchWhile
    split
    · rename_i hc
      apply ih (length + 1) (by omega)
      intro k hk
      rcases Nat.lt_succ_iff_lt_or_eq.mp hk with h | h
      · exact hm k h
      · subst h; exact hc.2.2
    · exact ⟨hl, hm⟩

theorem lz5_candidate_sound (input : List Byte) (pos i maxOffset : Nat)
    (hpos : pos ≤ input.length) (hi : i < pos) :
    SoundMatch input pos (pos - i) (matchWhile input pos i maxOffset (input.length - pos) 0) := by
  have hm := lz5_matchWhile_sound input pos i maxOffset (input.length - pos) 0 (by omega)
    (fun k hk => absurd hk (Nat.not_lt_zero k))
  right
  refine ⟨by omega, by omega, hm.1, ?_⟩
  intro k hk
  have : pos - (pos - i) + k = i + k := by omega
  rw [this]; exact hm.2 k hk

theorem lz5_findLongestMatch_sound (input : List Byte) (pos maxOffset : Nat)
    (hpos : pos ≤ input.length) :
    SoundMatch input pos (findLongestMatch input pos maxOffset 0).2
      (findLongestMatch input pos maxOffset 0).1 := by
  unfold findLongestMatch
  exact foldl_best_invariant (fun st => SoundMatch input pos st.2 st.1)
    (fun i => matchWhile input pos i maxOffset (input.length - pos) 0) (fun i => pos - i)
    _ (0, 0) (Or.inl rfl)
    (fun j hj => lz5_candidate_sound input pos j maxOffset hpos
      (by rw [List.mem_range'_1] at hj; omega))

theorem soundMatch_le {input : List Byte} {i off len : Nat} (hi : i ≤ input.length)
    (hs : SoundMatch input i off len) : i + len ≤ input.length := by
  rcases hs with h | h
  · omega
  · exact h.2.2.1

theorem lz5_decompress_compressLoop (input : List Byte) (maxOffset : Nat)
    (hlen : input.length < 2 ^ 64) (hnz : ∀ b ∈ input, b ≠ 0) :
    ∀ (fuel pos : Nat), input.length ≤ pos + fuel →
      (compressLoop input maxOffset fuel pos).foldl decompressStep (input.take pos)
        = input := by
  intro fuel
  induction fuel with
  | zero =>
    intro pos h
    simp only [compressLoop, List.foldl_nil]
    exact List.take_of_length_le (by omega)
  | succ f ih =>
    intro pos h
    unfold compressLoop
    split
    · rename_i hpos
      have hs := lz5_findLongestMatch_sound input pos maxOffset (by omega)
      have hle := soundMatch_le (by omega) hs
      generalize findLongestMatch input pos maxOffset 0 = m at hs hle
      simp only
      split
      · simp only [List.foldl_cons, decompressStep]
        rw [copy_literal_sound input pos m.2 m.1 hlen (by omega) hs hle hnz]
        exact ih _ (by omega)
      · simp only [List.foldl_cons, decompressStep]
        have := copy_literal_sound input pos 0 0 hlen (by omega) (Or.inl rfl) (by omega) hnz
        simp only [Nat.add_zero] at this
        rw [this]
        exact ih _ (by omega)
    · simp only [List.foldl_nil]
      exact List.take_of_length_le (by omega)

/-- C11: for every input `x` (a `std::string`, so shorter than `2 ^ 64` bytes) without a
zero byte and every `maxOffset`, `LZ5::decompress(LZ5::compress(x, maxOffset))` is `x`;
the trailing literal of a match that reaches the end of the input is read at `x.size()`,
where `operator[]` gives the zero byte. -/
theorem lz5_roundtrip (x : List Byte) (maxOffset : Nat) (hlen : x.length < 2 ^ 64)
    (hnz : ∀ b ∈ x, b ≠ 0) : decompress (compress x maxOffset) = x := by
  unfold decompress compress
  have := lz5_decompress_compressLoop x maxOffset hlen hnz x.length 0 (by omega)
  simpa using this

/-- Witness of `lz5_roundtrip` on "ABCDABCDABCD" with `maxOffset` 8: the last token is a
match that reaches the end of the input. -/
theorem lz5_roundtrip_witness :
    ([65, 66, 67, 68, 65, 66, 67, 68, 65, 66, 67, 68] : List Byte).length < 2 ^ 64 ∧
    (∀ b ∈ ([65, 66, 67, 68, 65, 66, 67, 68, 65, 66, 67, 68] : List Byte), b ≠ 0) ∧
    decompress (compress [65, 66, 67, 68, 65, 66, 67, 68, 65, 66, 67, 68] 8)
      = [65, 66, 67, 68, 65, 66, 67, 68, 65, 66, 67, 68] :=
  ⟨by simp, by decide, lz5_roundtrip _ 8 (by simp) (by decide)⟩

end LZ5

namespace LZO

theorem lzo_matchWhile_sound (input : List Byte) (i j : Nat) :
    ∀ (fuel length : Nat), i + length ≤ input.length →
      (∀ k, k < length → charAt input (j + k) = charAt input (i + k)) →
      i + matchWhile input i j fuel length ≤ input.length ∧
      ∀ k, k < matchWhile input i j fuel length →
        charAt input (j + k) = charAt input (i + k) := by
  intro fuel
  induction fuel with
  | zero => intro length hl hm; exact ⟨hl, hm⟩
  | succ f ih =>
    intro length hl hm
    unfold matchWhile
    split
    · rename_i hc
      apply ih (length + 1) (by omega)
      intro k hk
      rcases Nat.lt_succ_iff_lt_or_eq.mp hk with h | h
      · exact hm k h
      · subst h; exact hc.2.2
    · exact ⟨hl, hm⟩

theorem lzo_searchWindow_sound (input : List Byte) (i searchStart : Nat)
    (hi : i ≤ input.length) :
    SoundMatch input i (searchWindow input i searchStart).2
      (searchWindow input i searchStart).1 := by
  unfold searchWindow
  refine foldl_best_invariant (fun st => SoundMatch input i st.2 st.1)
    (fun j => matchWhile input i j (i - j) 0) (fun j => i - j) _ (0, 0) (Or.inl rfl) ?_
  intro j hj
  rw [List.mem_range'_1] at hj
  have hji : j < i := by omega
  have hm := lzo_matchWhile_sound input i j (i - j) 0 (by omega)
    (fun k hk => absurd hk (Nat.not_lt_zero k))
  show SoundMatch input i (i - j) (matchWhile input i j (i - j) 0)
  right
  refine ⟨by omega, by omega, hm.1, ?_⟩
  intro k hk
  have : i - (i - j) + k = j + k := by omega
  rw [this]; exact hm.2 k hk

theorem lzo_step_sound (input : List Byte) (i off len : Nat)
    (hlen : input.length < 2 ^ 64) (hi : i < input.length)
    (hs : SoundMatch input i off len) (hnz : ∀ b ∈ input, b ≠ 0) :
    decompressStep (input.take i)
      ⟨off, len, if i + len < input.length then charAt input (i + len) else 0⟩
      = input.take (i + len + 1) := by
  have hle := LZ5.soundMatch_le (by omega) hs
  have hcopy : (if off > 0 ∧ len > 0 then
      copyMatch (input.take i) (subSize (input.take i).length off) len
      else input.take i) = input.take (i + len) := by
    split
    · exact copyMatch_sound input i off len hlen (by omega) hs
    · rename_i hg
      have h0 : len = 0 := by
        rcases hs with h | h
        · exact h
        · by_contra hne
          exact hg ⟨by omega, by omega⟩
      rw [h0]; rfl
  simp only [decompressStep, hcopy]
  by_cases hlt : i + len < input.length
  · rw [if_pos hlt, if_pos (hnz _ (charAt_mem hlt)), take_succ_charAt hlt]
  · rw [if_neg hlt]
    simp only [ne_eq, not_true_eq_false, if_false]
    rw [List.take_of_length_le (by omega), List.take_of_length_le (by omega)]

theorem lzo_decompress_compressLoop (input : List Byte) (w : Nat)
    (hlen : input.length < 2 ^ 64) (hnz : ∀ b ∈ input, b ≠ 0) :
    ∀ (fuel i : Nat), input.length ≤ i + fuel →
      (compressLoop input w fuel i).foldl decompressStep (input.take i) = input := by
  intro fuel
  induction fuel with
  | zero =>
    intro i h
    simp only [compressLoop, List.foldl_nil]
    exact List.take_of_length_le (by omega)
  | succ f ih =>
    intro i h
    unfold compressLoop
    split
    · rename_i hi
      have hs := lzo_searchWindow_sound input i (if i > w then i - w else 0) (by omega)
      simp only [List.foldl_cons]
      generalize searchWindow input i (if i > w then i - w else 0) = m at hs
      rw [lzo_step_sound input i m.2 m.1 hlen hi hs hnz]
      have hnext : i + (if m.1 > 0 then m.1 + 1 else 1) = i + m.1 + 1 := by
        split <;> omega
      rw [hnext]
      exact ih _ (by omega)
    · simp only [List.foldl_nil]
      exact List.take_of_length_le (by omega)

/-- C12: for every input `x` (a `std::string`, so shorter than `2 ^ 64` bytes) without a
zero byte and every window size `w`, `LZO::decompress(LZO::compress(x, w))` is `x`. -/
theorem lzo_roundtrip (x : List Byte) (w : Nat) (hlen : x.length < 2 ^ 64)
    (hnz : ∀ b ∈ x, b ≠ 0) : decompress (compress x w) = x := by
  unfold decompress compress
  have := lzo_decompress_compressLoop x w hlen hnz x.length 0 (by omega)
  simpa using this

/-- Witness of `lzo_roundtrip` on "ABCABCABD" with window size 6. -/
theorem lzo_roundtrip_witness :
    ([65, 66, 67, 65, 66, 67, 65, 66, 68] : List Byte).length < 2 ^ 64 ∧
    (∀ b ∈ ([65, 66, 67, 65, 66, 67, 65, 66, 68] : List Byte), b ≠ 0) ∧
    decompress (compress [65, 66, 67, 65, 66, 67, 65, 66, 68] 6)
      = [65, 66, 67, 65, 66, 67, 65, 66, 68] :=
  ⟨by simp, by decide, lzo_roundtrip _ 6 (by simp) (by decide)⟩

end LZO

namespace LZMA

theorem lzma_matchWhile_eq (input : List Byte) (pos i d : Nat) :
    ∀ (fuel length : Nat),
      matchWhile input pos i d fuel length = LZ5.matchWhile input pos i d fuel length := by
  intro fuel
  induction fuel with
  | zero => intro length; rfl
  | succ f ih =>
    intro length
    simp only [matchWhile, LZ5.matchWhile, ih]

/-- The match `LZMA::findLongestMatch` reports starts before the cursor and is a verified
occurrence of the bytes at the cursor. -/
theorem lzma_findLongestMatch_sound (input : List Byte) (pos d : Nat)
    (hpos : pos ≤ input.length) :
    (findLongestMatch input pos d 0).1 = 0 ∨
      ((findLongestMatch input pos d 0).2 < pos ∧
        SoundMatch input pos (pos - (findLongestMatch input pos d 0).2)
          (findLongestMatch input pos d 0).1) := by
  unfold findLongestMatch
  refine foldl_best_invariant
    (fun st => st.1 = 0 ∨ (st.2 < pos ∧ SoundMatch input pos (pos - st.2) st.1))
    (fun i => matchWhile input pos i d (input.length - pos) 0) (fun i => i) _ (0, 0)
    (Or.inl rfl) ?_
  intro j hj
  rw [List.mem_range'_1] at hj
  have hjp : j < pos := by omega
  show matchWhile input pos j d (input.length - pos) 0 = 0 ∨ (j < pos ∧
    SoundMatch input pos (pos - j) (matchWhile input pos j d (input.length - pos) 0))
  right
  refine ⟨hjp, ?_⟩
  rw [lzma_matchWhile_eq]
  exact LZ5.lz5_candidate_sound input pos j d hpos (by omega)

theorem lzma_decompress_compressLoop (input : List Byte) (d : Nat)
    (hlen : input.length < 2 ^ 64) (hnz : ∀ b ∈ input, b ≠ 0) :
    ∀ (fuel pos : Nat), input.length ≤ pos + fuel →
      (compressLoop input d fuel pos).foldl decompressStep (input.take pos) = input := by
  intro fuel
  induction fuel with
  | zero =>
    intro pos h
    simp only [compressLoop, List.foldl_nil]
    exact List.take_of_length_le (by omega)
  | succ f ih =>
    intro pos h
    unfold compressLoop
    split
    · rename_i hpos
      have hs := lzma_findLongestMatch_sound input pos d (by omega)
      generalize findLongestMatch input pos d 0 = m at hs
      simp only
      split
      · rename_i hpos1
        rcases hs with h0 | ⟨hlt, hsm⟩
        · omega
        · have hle := LZ5.soundMatch_le (by omega) hsm
          have hguard : pos - m.2 > 0 ∧ pos - m.2 ≤ (input.take pos).length := by
            rw [List.length_take, Nat.min_eq_left (by omega)]
            omega
          simp only [List.foldl_cons, decompressStep, hguard, and_self, if_true]
          rw [copy_literal_sound input pos (pos - m.2) m.1 hlen (by omega) hsm hle hnz]
          exact ih _ (by omega)
      · simp only [List.foldl_cons, decompressStep, gt_iff_lt, Nat.lt_irrefl, false_and,
          if_false]
        rw [if_pos (hnz _ (charAt_mem hpos)), take_succ_charAt hpos]
        exact ih _ (by omega)
    · simp only [List.foldl_nil]
      exact List.take_of_length_le (by omega)

/-- C13: for every input `x` (a `std::string`, so shorter than `2 ^ 64` bytes) without a
zero byte and every dictionary size `d`, `LZMA::decompress(LZMA::compress(x, d))` is `x`
(whatever `dictionarySize` the decoder is given); the trailing literal of a match that
reaches the end of the input is read at `x.size()`, where `operator[]` gives the zero
byte. -/
theorem lzma_roundtrip (x : List Byte) (d d' : Nat) (hlen : x.length < 2 ^ 64)
    (hnz : ∀ b ∈ x, b ≠ 0) : decompress (compress x d) d' = x := by
  unfold decompress compress
  have := lzma_decompress_compressLoop x d hlen hnz x.length 0 (by omega)
  simpa using this

/-- Witness of `lzma_roundtrip` on "ABCABCABC" with dictionary size 4, decoded with the
default 4096. -/
theorem lzma_roundtrip_witness :
    ([65, 66, 67, 65, 66, 67, 65, 66, 67] : List Byte).length < 2 ^ 64 ∧
    (∀ b ∈ ([65, 66, 67, 65, 66, 67, 65, 66, 67] : List Byte), b ≠ 0) ∧
    decompress (compress [65, 66, 67, 65, 66, 67, 65, 66, 67] 4) 4096
      = [65, 66, 67, 65, 66, 67, 65, 66, 67] :=
  ⟨by simp, by decide, lzma_roundtrip _ 4 4096 (by simp) (by decide)⟩

end LZMA

namespace LZ5

/-- The `k`-th token of the loop started at cursor `pos` is the one computed at the cursor
`pos + cursorAt _ k`, which lies inside the input. -/
theorem lz5_compressLoop_getElem (input : List Byte) (maxOffset : Nat) :
    ∀ (fuel pos k : Nat) (t : Token),
      (compressLoop input maxOffset fuel pos)[k]? = some t →
      pos + cursorAt ((compressLoop input maxOffset fuel pos).map Token.length) k
        < input.length ∧
      t = (if (findLongestMatch input
                (pos + cursorAt ((compressLoop input maxOffset fuel pos).map Token.length) k)
                maxOffset 0).1 > 3
           then ⟨(findLongestMatch input
                (pos + cursorAt ((compressLoop input maxOffset fuel pos).map Token.length) k)
                maxOffset 0).2,
              (findLongestMatch input
                (pos + cursorAt ((compressLoop input maxOffset fuel pos).map Token.length) k)
                maxOffset 0).1,
              charAt input
                (pos + cursorAt ((compressLoop input maxOffset fuel pos).map Token.length) k +
                  (findLongestMatch input
                    (pos + cursorAt ((compressLoop input maxOffset fuel pos).map Token.length) k)
                    maxOffset 0).1)⟩
           else ⟨0, 0, charAt input
             (pos + cursorAt ((compressLoop input maxOffset fuel pos).map Token.length) k)⟩) := by
  intro fuel
  induction fuel with
  | zero => intro pos k t h; simp [compressLoop] at h
  | succ f ih =>
    intro pos k t h
    unfold compressLoop at h ⊢
    by_cases hi : pos < input.length
    · rw [if_pos hi] at h ⊢
      simp only at h ⊢
      by_cases hm : (findLongestMatch input pos maxOffset 0).1 > 3
      · rw [if_pos hm] at h ⊢
        cases k with
        | zero =>
          simp only [List.getElem?_cons_zero, Option.some.injEq] at h
          simp only [cursorAt_zero, Nat.add_zero]
          rw [if_pos hm]
          exact ⟨hi, h.symm⟩
        | succ k =>
          simp only [List.getElem?_cons_succ] at h
          have := ih _ k t h
          simp only [List.map_cons, cursorAt_succ]
          simp only [← Nat.add_assoc] at this ⊢
          exact this
      · rw [if_neg hm] at h ⊢
        cases k with
        | zero =>
          simp only [List.getElem?_cons_zero, Option.some.injEq] at h
          simp only [cursorAt_zero, Nat.add_zero]
          rw [if_neg hm]
          exact ⟨hi, h.symm⟩
        | succ k =>
          simp only [List.getElem?_cons_succ] at h
          have := ih _ k t h
          simp only [List.map_cons, cursorAt_succ]
          simp only [← Nat.add_assoc, Nat.add_zero] at this ⊢
          exact this
    · rw [if_neg hi] at h
      simp at h

/-- C25, counterexample: in "ABCXABCY" (default `maxOffset` 32768) the longest match found
at cursor 4 has length exactly 3 (offset 4), and the token emitted there is the literal
`{0, 0, 'A'}`: all eight tokens are literals, no match token is emitted. -/
theorem lz5_length_three_is_literal :
    findLongestMatch [65, 66, 67, 88, 65, 66, 67, 89] 4 32768 0 = (3, 4) ∧
    cursorAt ((compress [65, 66, 67, 88, 65, 66, 67, 89] 32768).map Token.length) 4 = 4 ∧
    (compress [65, 66, 67, 88, 65, 66, 67, 89] 32768)[4]? = some ⟨0, 0, 65⟩ ∧
    compress [65, 66, 67, 88, 65, 66, 67, 89] 32768 =
      [⟨0, 0, 65⟩, ⟨0, 0, 66⟩, ⟨0, 0, 67⟩, ⟨0, 0, 88⟩,
       ⟨0, 0, 65⟩, ⟨0, 0, 66⟩, ⟨0, 0, 67⟩, ⟨0, 0, 89⟩] := by
  refine ⟨by decide, by decide, by decide, by decide⟩

/-- C25, amended: `LZ5::compress` uses a minimum match length of 4: the token emitted at a
cursor position (the cursor of the `k`-th token being the number of input bytes the
tokens before it stand for) is a match token (length > 0) exactly when the longest match
found by `LZ5::findLongestMatch` there has length >= 4; it is then
`{matchOffset, matchLength, input[pos + matchLength]}`, and a longest match of length
3 or less is emitted as the literal token `{0, 0, input[pos]}`. -/
theorem lz5_min_match_four (input : List Byte) (maxOffset k : Nat) (t : Token)
    (ht : (compress input maxOffset)[k]? = some t) :
    cursorAt ((compress input maxOffset).map Token.length) k < input.length ∧
    (0 < t.length ↔
      4 ≤ (findLongestMatch input
        (cursorAt ((compress input maxOffset).map Token.length) k) maxOffset 0).1) ∧
    (4 ≤ (findLongestMatch input
        (cursorAt ((compress input maxOffset).map Token.length) k) maxOffset 0).1 →
      t = ⟨(findLongestMatch input
             (cursorAt ((compress input maxOffset).map Token.length) k) maxOffset 0).2,
           (findLongestMatch input
             (cursorAt ((compress input maxOffset).map Token.length) k) maxOffset 0).1,
           charAt input (cursorAt ((compress input maxOffset).map Token.length) k +
             (findLongestMatch input
               (cursorAt ((compress input maxOffset).map Token.length) k) maxOffset 0).1)⟩) ∧
    ((findLongestMatch input
        (cursorAt ((compress input maxOffset).map Token.length) k) maxOffset 0).1 ≤ 3 →
      t = ⟨0, 0, charAt input (cursorAt ((compress input maxOffset).map Token.length) k)⟩) := by
  unfold compress at ht ⊢
  obtain ⟨hlt, het⟩ := lz5_compressLoop_getElem input maxOffset input.length 0 k t ht
  simp only [Nat.zero_add] at hlt het
  generalize cursorAt ((compressLoop input maxOffset input.length 0).map Token.length) k = pos
    at hlt het ⊢
  generalize findLongestMatch input pos maxOffset 0 = m at het ⊢
  by_cases hm : m.1 > 3
  · rw [if_pos hm] at het
    subst het
    exact ⟨hlt, ⟨fun _ => hm, fun _ => by show 0 < m.1; omega⟩, fun _ => rfl,
      fun h => by omega⟩
  · rw [if_neg hm] at het
    subst het
    refine ⟨hlt, ⟨fun h => absurd h (Nat.lt_irrefl 0), fun h => by omega⟩,
      fun h => by omega, fun _ => rfl⟩

/-- Witness of `lz5_min_match_four` on "ABCDXABCDY": the longest match at cursor 5 has
length 4, and the sixth token is the match token `{5, 4, 'Y'}`. -/
theorem lz5_min_match_four_witness :
    (compress [65, 66, 67, 68, 88, 65, 66, 67, 68, 89] 32768)[5]? = some ⟨5, 4, 89⟩ ∧
    ((0 : Nat) < 4 ↔
      4 ≤ (findLongestMatch [65, 66, 67, 68, 88, 65, 66, 67, 68, 89]
        (cursorAt ((compress [65, 66, 67, 68, 88, 65, 66, 67, 68, 89] 32768).map
          Token.length) 5) 32768 0).1) :=
  ⟨by decide,
    (lz5_min_match_four [65, 66, 67, 68, 88, 65, 66, 67, 68, 89] 32768 5 ⟨5, 4, 89⟩
      (by decide)).2.1⟩

end LZ5

namespace LZMA

/-- The `k`-th token of the loop started at cursor `pos` is the one computed at the cursor
`pos + cursorAt _ k`, which lies inside the input. -/
theorem lzma_compressLoop_getElem (input : List Byte) (d : Nat) :
    ∀ (fuel pos k : Nat) (t : Token),
      (compressLoop input d fuel pos)[k]? = some t →
      pos + cursorAt ((compressLoop input d fuel pos).map Token.length) k < input.length ∧
      t = (if (findLongestMatch input
                (pos + cursorAt ((compressLoop input d fuel pos).map Token.length) k) d 0).1 > 0
           then ⟨pos + cursorAt ((compressLoop input d fuel pos).map Token.length) k -
                (findLongestMatch input
                  (pos + cursorAt ((compressLoop input d fuel pos).map Token.length) k) d 0).2,
              (findLongestMatch input
                (pos + cursorAt ((compressLoop input d fuel pos).map Token.length) k) d 0).1,
              charAt input
                (pos + cursorAt ((compressLoop input d fuel pos).map Token.length) k +
                  (findLongestMatch input
                    (pos + cursorAt ((compressLoop input d fuel pos).map Token.length) k)
                    d 0).1)⟩
           else ⟨0, 0, charAt input
             (pos + cursorAt ((compressLoop input d fuel pos).map Token.length) k)⟩) := by
  intro fuel
  induction fuel with
  | zero => intro pos k t h; simp [compressLoop] at h
  | succ f ih =>
    intro pos k t h
    unfold compressLoop at h ⊢
    by_cases hi : pos < input.length
    · rw [if_pos hi] at h ⊢
      simp only at h ⊢
      by_cases hm : (findLongestMatch input pos d 0).1 > 0
      · rw [if_pos hm] at h ⊢
        cases k with
        | zero =>
          simp only [List.getElem?_cons_zero, Option.some.injEq] at h
          simp only [cursorAt_zero, Nat.add_zero]
          rw [if_pos hm]
          exact ⟨hi, h.symm⟩
        | succ k =>
          simp only [List.getElem?_cons_succ] at h
          have := ih _ k t h
          simp only [List.map_cons, cursorAt_succ]
          simp only [← Nat.add_assoc] at this ⊢
          exact this
      · rw [if_neg hm] at h ⊢
        cases k with
        | zero =>
          simp only [List.getElem?_cons_zero, Option.some.injEq] at h
          simp only [cursorAt_zero, Nat.add_zero]
          rw [if_neg hm]
          exact ⟨hi, h.symm⟩
        | succ k =>
          simp only [List.getElem?_cons_succ] at h
          have := ih _ k t h
          simp only [List.map_cons, cursorAt_succ]
          simp only [← Nat.add_assoc, Nat.add_zero] at this ⊢
          exact this
    · rw [if_neg hi] at h
      simp at h

/-- C26, counterexample: in "ABAC" (default dictionary size 4096) the longest match found
at cursor 2 has length 1 (at position 0), and the token emitted there is the match token
`{2, 1, 'C'}`, not the literal `{0, 0, 'A'}`. -/
theorem lzma_length_one_is_match :
    findLongestMatch [65, 66, 65, 67] 2 4096 0 = (1, 0) ∧
    cursorAt ((compress [65, 66, 65, 67] 4096).map Token.length) 2 = 2 ∧
    (compress [65, 66, 65, 67] 4096)[2]? = some ⟨2, 1, 67⟩ ∧
    compress [65, 66, 65, 67] 4096 = [⟨0, 0, 65⟩, ⟨0, 0, 66⟩, ⟨2, 1, 67⟩] := by
  refine ⟨by decide, by decide, by decide, by decide⟩

/-- C26, amended: `LZMA::compress` uses a minimum match length of 1: the token emitted at
a cursor position (the cursor of the `k`-th token being the number of input bytes the
tokens before it stand for) is a match token (length > 0) exactly when the longest match
found by `LZMA::findLongestMatch` there has length >= 1; it is then
`{pos - matchPos, matchLength, input[pos + matchLength]}`, and the literal token
`{0, 0, input[pos]}` is emitted when the longest match has length 0. -/
theorem lzma_min_match_one (input : List Byte) (d k : Nat) (t : Token)
    (ht : (compress input d)[k]? = some t) :
    cursorAt ((compress input d).map Token.length) k < input.length ∧
    (0 < t.length ↔
      1 ≤ (findLongestMatch input (cursorAt ((compress input d).map Token.length) k) d 0).1) ∧
    (1 ≤ (findLongestMatch input (cursorAt ((compress input d).map Token.length) k) d 0).1 →
      t = ⟨cursorAt ((compress input d).map Token.length) k -
             (findLongestMatch input (cursorAt ((compress input d).map Token.length) k) d 0).2,
           (findLongestMatch input (cursorAt ((compress input d).map Token.length) k) d 0).1,
           charAt input (cursorAt ((compress input d).map Token.length) k +
             (findLongestMatch input
               (cursorAt ((compress input d).map Token.length) k) d 0).1)⟩) ∧
    ((findLongestMatch input (cursorAt ((compress input d).map Token.length) k) d 0).1 = 0 →
      t = ⟨0, 0, charAt input (cursorAt ((compress input d).map Token.length) k)⟩) := by
  unfold compress at ht ⊢
  obtain ⟨hlt, het⟩ := lzma_compressLoop_getElem input d input.length 0 k t ht
  simp only [Nat.zero_add] at hlt het
  generalize cursorAt ((compressLoop input d input.length 0).map Token.length) k = pos
    at hlt het ⊢
  generalize findLongestMatch input pos d 0 = m at het ⊢
  by_cases hm : m.1 > 0
  · rw [if_pos hm] at het
    subst het
    exact ⟨hlt, ⟨fun _ => hm, fun _ => hm⟩, fun _ => rfl, fun h => by omega⟩
  · rw [if_neg hm] at het
    subst het
    refine ⟨hlt, ⟨fun h => absurd h (Nat.lt_irrefl 0), fun h => by omega⟩,
      fun h => by omega, fun _ => rfl⟩

/-- Witness of `lzma_min_match_one` on "ABAC": the longest match at cursor 2 has length 1,
and the third token is the match token `{2, 1, 'C'}`. -/
theorem lzma_min_match_one_witness :
    (compress [65, 66, 65, 67] 4096)[2]? = some ⟨2, 1, 67⟩ ∧
    ((0 : Nat) < 1 ↔
      1 ≤ (findLongestMatch [65, 66, 65, 67]
        (cursorAt ((compress [65, 66, 65, 67] 4096).map Token.length) 2) 4096 0).1) :=
  ⟨by decide, (lzma_min_match_one [65, 66, 65, 67] 4096 2 ⟨2, 1, 67⟩ (by decide)).2.1⟩

end LZMA

namespace LZMA

/-- A copy whose first read is below the size of the output never reads outside: the
`i`-th read is at `start + i`, below the size `output.length + i` the output has then. -/
theorem copyChecked_some (output : List Byte) (start : Nat) (h : start < output.length) :
    ∀ (length : Nat), ∃ o, copyChecked output start length = some o ∧
      o.length = output.length + length := by
  intro length
  induction length with
  | zero => exact ⟨output, rfl, rfl⟩
  | succ n ih =>
    obtain ⟨o, ho, hl⟩ := ih
    unfold copyChecked at ho ⊢
    rw [List.range_succ, List.foldl_append, ho]
    simp only [List.foldl_cons, List.foldl_nil]
    rw [if_pos (by omega)]
    exact ⟨_, rfl, by simp only [List.length_append, List.length_singleton, hl]; omega⟩

/-- While the output fits a `std::string`, the checked copy is the copy of the decoder. -/
theorem copyChecked_eq_copyMatch (output : List Byte) (start : Nat)
    (h : start < output.length) :
    ∀ (length : Nat), output.length + length ≤ 2 ^ 64 →
      copyChecked output start length = some (copyMatch output start length) := by
  intro length
  induction length with
  | zero => intro _; rfl
  | succ n ih =>
    intro hb
    have hn := ih (by omega)
    have hl := copyMatch_length output start n
    unfold copyChecked copyMatch at hn ⊢
    unfold copyMatch at hl
    rw [List.range_succ, List.foldl_append, List.foldl_append, hn]
    simp only [List.foldl_cons, List.foldl_nil]
    rw [if_pos (by omega), addSize_eq_add (by omega)]

theorem decompressStep_length (output : List Byte) (token : Token) :
    output.length ≤ (decompressStep output token).length := by
  unfold decompressStep
  simp only
  split <;> split <;>
    (try simp only [List.length_append, List.length_singleton, copyMatch_length]) <;> omega

theorem decompressChecked_snoc (tokens : List Token) (t : Token) (d : Nat) :
    decompressChecked (tokens ++ [t]) d = decompressStepChecked (decompressChecked tokens d) t := by
  simp [decompressChecked, List.foldl_append]

theorem decompress_snoc (tokens : List Token) (t : Token) (d : Nat) :
    decompress (tokens ++ [t]) d = decompressStep (decompress tokens d) t := by
  simp [decompress, List.foldl_append]

/-- A token whose position is 0 or exceeds the size of the output copies nothing. -/
theorem decompressStepChecked_skip (output : List Byte) (token : Token)
    (h : token.position = 0 ∨ output.length < token.position) :
    decompressStepChecked (some output) token
      = some (if token.next ≠ 0 then output ++ [token.next] else output) := by
  unfold decompressStepChecked
  simp only
  rw [if_neg (by omega)]
  rfl

/-- A token whose position is between 1 and the size of the output copies `length` bytes,
every one read below the size the output has at that moment. -/
theorem decompressStepChecked_copy (output : List Byte) (token : Token)
    (h : 0 < token.position ∧ token.position ≤ output.length) :
    ∃ o, copyChecked output (output.length - token.position) token.length = some o ∧
      o.length = output.length + token.length ∧
      decompressStepChecked (some output) token
        = some (if token.next ≠ 0 then o ++ [token.next] else o) := by
  obtain ⟨o, ho, hl⟩ := copyChecked_some output (output.length - token.position) (by omega)
    token.length
  refine ⟨o, ho, hl, ?_⟩
  unfold decompressStepChecked
  simp only
  rw [if_pos h, ho]
  rfl

theorem decompressStepChecked_some (output : List Byte) (token : Token) :
    ∃ o, decompressStepChecked (some output) token = some o := by
  by_cases h : 0 < token.position ∧ token.position ≤ output.length
  · obtain ⟨o, _, _, hs⟩ := decompressStepChecked_copy output token h
    exact ⟨_, hs⟩
  · exact ⟨_, decompressStepChecked_skip output token (by omega)⟩

theorem decompressChecked_some (tokens : List Token) :
    ∀ (acc : List Byte), ∃ o, tokens.foldl decompressStepChecked (some acc) = some o := by
  induction tokens with
  | nil => intro acc; exact ⟨acc, rfl⟩
  | cons t rest ih =>
    intro acc
    obtain ⟨o, ho⟩ := decompressStepChecked_some acc t
    rw [List.foldl_cons, ho]
    exact ih o

theorem decompressStepChecked_eq (output : List Byte) (token : Token)
    (hb : (decompressStep output token).length < 2 ^ 64) :
    decompressStepChecked (some output) token = some (decompressStep output token) := by
  have hmono := decompressStep_length output token
  by_cases h : 0 < token.position ∧ token.position ≤ output.length
  · have hlen : output.length + token.length ≤ (decompressStep output token).length := by
      unfold decompressStep
      simp only
      rw [if_pos h]
      split <;>
        simp only [List.length_append, List.length_singleton, copyMatch_length] <;> omega
    have hc := copyChecked_eq_copyMatch output (output.length - token.position) (by omega)
      token.length (by omega)
    unfold decompressStepChecked decompressStep
    simp only
    rw [if_pos h, if_pos h, hc, subSize_eq_sub (by omega) h.2]
    rfl
  · rw [decompressStepChecked_skip output token (by omega)]
    unfold decompressStep
    simp only
    rw [if_neg h]

theorem decompressChecked_eq (d : Nat) :
    ∀ (tokens : List Token), (decompress tokens d).length < 2 ^ 64 →
      decompressChecked tokens d = some (decompress tokens d) := by
  intro tokens
  induction tokens using List.reverseRecOn with
  | nil => intro _; rfl
  | append_singleton ts t ih =>
    intro hb
    rw [decompress_snoc] at hb
    have hmono := decompressStep_length (decompress ts d) t
    rw [decompressChecked_snoc, decompress_snoc, ih (by omega)]
    exact decompressStepChecked_eq _ t hb

/-- C35: for every token list whatsoever (arbitrary `position`, `length` and `next`
fields), `LZMA::decompress` never reads outside the output produced so far: the decoder
with every read of the copy loop checked returns a result. A token whose position is 0
or exceeds the current output length copies nothing and contributes only its non-zero
`next` byte; for every other token each of the `length` copied bytes is read at an index
strictly below the current output length. While the output fits a `std::string`, the
checked decoder returns what `LZMA::decompress` returns. -/
theorem lzma_decompress_in_bounds (tokens : List Token) (d : Nat) :
    (∃ out, decompressChecked tokens d = some out) ∧
    (∀ (output : List Byte) (token : Token),
      (token.position = 0 ∨ output.length < token.position) →
      decompressStepChecked (some output) token
          = some (if token.next ≠ 0 then output ++ [token.next] else output) ∧
        decompressStep output token
          = (if token.next ≠ 0 then output ++ [token.next] else output)) ∧
    (∀ (output : List Byte) (token : Token),
      0 < token.position ∧ token.position ≤ output.length →
      ∃ o, copyChecked output (output.length - token.position) token.length = some o ∧
        o.length = output.length + token.length ∧
        decompressStepChecked (some output) token
          = some (if token.next ≠ 0 then o ++ [token.next] else o)) ∧
    ((decompress tokens d).length < 2 ^ 64 →
      decompressChecked tokens d = some (decompress tokens d)) := by
  refine ⟨decompressChecked_some tokens [], ?_, decompressStepChecked_copy,
    decompressChecked_eq d tokens⟩
  intro output token h
  refine ⟨decompressStepChecked_skip output token h, ?_⟩
  have hn : ¬ (token.position > 0 ∧ token.position ≤ output.length) := by omega
  unfold decompressStep
  simp only
  rw [if_neg hn]

end LZMA

/-- A string of `'0'` and `'1'` characters is the image of a list of bits. -/
theorem exists_bits_of_chars (l : List Byte) (h : ∀ c ∈ l, c = zeroChar ∨ c = oneChar) :
    ∃ bs : List Bool, l = bs.map bitChar := by
  induction l with
  | nil => exact ⟨[], rfl⟩
  | cons a t ih =>
    obtain ⟨bs, hbs⟩ := ih (fun c hc => h c (List.mem_cons_of_mem _ hc))
    rcases h a (List.mem_cons_self _ _) with ha | ha
    · exact ⟨false :: bs, by simp [bitChar, ha, hbs]⟩
    · exact ⟨true :: bs, by simp [bitChar, ha, hbs]⟩

theorem unpack_foldl_append (l : List Byte) (acc : List Byte) :
    l.foldl (fun bitString byte => bitString ++ byteToBits byte) acc
      = acc ++ l.foldl (fun bitString byte => bitString ++ byteToBits byte) [] := by
  induction l generalizing acc with
  | nil => simp
  | cons a t ih =>
    simp only [List.foldl_cons, List.nil_append]
    rw [ih (acc ++ byteToBits a), ih (byteToBits a), List.append_assoc]

theorem byteToBits_length (b : Byte) : (byteToBits b).length = 8 := by
  simp [byteToBits]

namespace Huffman.Methods

theorem huffman_packStep_data (l : List Byte) (data : List Byte) (c : Byte) (n : Nat) :
    l.foldl packStep (data, c, n)
      = (data ++ (l.foldl packStep ([], c, n)).1, (l.foldl packStep ([], c, n)).2) := by
  induction l generalizing data c n with
  | nil => simp
  | cons a t ih =>
    simp only [List.foldl_cons]
    by_cases h8 : n + 1 = 8
    · have e1 : packStep (data, c, n) a = (data ++ [(packStep ([], c, n) a).1.getD 0 0], 0, 0) := by
        simp [packStep, h8]
      have e2 : packStep ([], c, n) a = ([(packStep ([], c, n) a).1.getD 0 0], 0, 0) := by
        simp [packStep, h8]
      rw [e1, e2, ih (data ++ _), ih [_]]
      simp
    · have e1 : packStep (data, c, n) a = (data, (packStep ([], c, n) a).2) := by
        simp [packStep, h8]
      have e2 : packStep ([], c, n) a = ([], (packStep ([], c, n) a).2) := by
        simp [packStep, h8]
      rw [e1, e2]
      exact ih data _ _

/-- Eight bit characters fill exactly one byte, whose eight bits are those characters. -/
theorem huffman_pack_chunk : ∀ b0 b1 b2 b3 b4 b5 b6 b7 : Bool,
    (([b0, b1, b2, b3, b4, b5, b6, b7].map bitChar).foldl packStep ([], 0, 0)).2 = (0, 0) ∧
    (([b0, b1, b2, b3, b4, b5, b6, b7].map bitChar).foldl packStep ([], 0, 0)).1.length = 1 ∧
    byteToBits ((([b0, b1, b2, b3, b4, b5, b6, b7].map bitChar).foldl packStep
        ([], 0, 0)).1.getD 0 0)
      = [b0, b1, b2, b3, b4, b5, b6, b7].map bitChar := by
  decide

theorem huffman_pack_cons8 (b0 b1 b2 b3 b4 b5 b6 b7 : Bool) (rest : List Byte) :
    ∃ B : Byte, byteToBits B = [b0, b1, b2, b3, b4, b5, b6, b7].map bitChar ∧
      (PackBitsToBytes ([b0, b1, b2, b3, b4, b5, b6, b7].map bitChar ++ rest)).1
        = B :: (PackBitsToBytes rest).1 := by
  obtain ⟨h1, h2, h3⟩ := huffman_pack_chunk b0 b1 b2 b3 b4 b5 b6 b7
  generalize hst : ([b0, b1, b2, b3, b4, b5, b6, b7].map bitChar).foldl packStep ([], 0, 0)
    = st at h1 h2 h3
  obtain ⟨d, r⟩ := st
  simp only at h1 h2 h3
  subst h1
  match d, h2 with
  | [B], _ =>
    refine ⟨B, by simpa using h3, ?_⟩
    simp only [PackBitsToBytes, List.foldl_append, hst]
    rw [huffman_packStep_data rest [B] 0 0]
    simp only
    split <;> simp

theorem unpackAll_cons (B : Byte) (data : List Byte) :
    (B :: data).foldl (fun bitString byte => bitString ++ byteToBits byte) []
      = byteToBits B ++ data.foldl (fun bitString byte => bitString ++ byteToBits byte) [] := by
  simp only [List.foldl_cons, List.nil_append]
  exact unpack_foldl_append data (byteToBits B)

/-- Unpacking the packed form of a list of bit characters gives the list back. -/
theorem huffman_unpack_pack_bits : ∀ bs : List Bool,
    UnpackBytesToBits (PackBitsToBytes (bs.map bitChar)).1 (bs.map bitChar).length
      = bs.map bitChar
  | [] => by decide
  | [b0] => by revert b0; decide
  | [b0, b1] => by revert b0 b1; decide
  | [b0, b1, b2] => by revert b0 b1 b2; decide
  | [b0, b1, b2, b3] => by revert b0 b1 b2 b3; decide
  | [b0, b1, b2, b3, b4] => by revert b0 b1 b2 b3 b4; decide
  | [b0, b1, b2, b3, b4, b5] => by revert b0 b1 b2 b3 b4 b5; decide
  | [b0, b1, b2, b3, b4, b5, b6] => by revert b0 b1 b2 b3 b4 b5 b6; decide
  | b0 :: b1 :: b2 :: b3 :: b4 :: b5 :: b6 :: b7 :: rest => by
    have ih := huffman_unpack_pack_bits rest
    obtain ⟨B, hB, hp⟩ := huffman_pack_cons8 b0 b1 b2 b3 b4 b5 b6 b7 (rest.map bitChar)
    have e : (b0 :: b1 :: b2 :: b3 :: b4 :: b5 :: b6 :: b7 :: rest).map bitChar
        = [b0, b1, b2, b3, b4, b5, b6, b7].map bitChar ++ rest.map bitChar := by simp
    rw [e, hp]
    unfold UnpackBytesToBits at ih ⊢
    rw [unpackAll_cons, hB, List.length_append, List.take_append_eq_append_take]
    have l8 : ([b0, b1, b2, b3, b4, b5, b6, b7].map bitChar).length = 8 := by simp
    rw [List.take_of_length_le (by omega), l8]
    have : 8 + (rest.map bitChar).length - 8 = (rest.map bitChar).length := by omega
    rw [this, ih]

end Huffman.Methods

namespace FSE.Methods

theorem fse_packStep_eq : ∀ (c : Byte) (b : Bool),
    toChar ((c.val <<< 1) ||| (if b then 1 else 0))
      = if b then toChar ((toChar (c.val <<< 1)).val ||| 1) else toChar (c.val <<< 1) := by
  decide

theorem fse_packStep_eq_huffman (st : List Byte × Byte × Nat) (bit : Byte) :
    packStep st bit = Huffman.Methods.packStep st bit := by
  unfold packStep Huffman.Methods.packStep
  have := fse_packStep_eq st.2.1 (decide (bit = oneChar))
  simp only [decide_eq_true_eq] at this
  simp only [this]

theorem fse_pack_eq_huffman (bits : List Byte) :
    PackBitsToBytes bits = Huffman.Methods.PackBitsToBytes bits := by
  unfold PackBitsToBytes Huffman.Methods.PackBitsToBytes
  have : packStep = Huffman.Methods.packStep := by
    funext st bit; exact fse_packStep_eq_huffman st bit
  rw [this]

end FSE.Methods

theorem huffman_unpack_pack (bits : List Byte)
    (h : ∀ c ∈ bits, c = zeroChar ∨ c = oneChar) :
    Huffman.Methods.UnpackBytesToBits (Huffman.Methods.PackBitsToBytes bits).1
      (Huffman.Methods.PackBitsToBytes bits).2 = bits := by
  obtain ⟨bs, rfl⟩ := exists_bits_of_chars bits h
  exact Huffman.Methods.huffman_unpack_pack_bits bs

theorem fse_unpack_pack (bits : List Byte)
    (h : ∀ c ∈ bits, c = zeroChar ∨ c = oneChar) :
    FSE.Methods.UnpackBytesToBits (FSE.Methods.PackBitsToBytes bits).1
      (FSE.Methods.PackBitsToBytes bits).2 = bits := by
  rw [FSE.Methods.fse_pack_eq_huffman]
  exact huffman_unpack_pack bits h

/-- C6: for every string `bits` of `'0'` and `'1'` characters, of any length,
`PackBitsToBytes(bits, bitLength)` stores the length of `bits` in `bitLength`, and
`UnpackBytesToBits` of the packed bytes and that length is `bits`; for the packer of
`Huffman::Methods` and for the one of `FSE::Methods`. -/
theorem pack_unpack_roundtrip (bits : List Byte)
    (h : ∀ c ∈ bits, c = zeroChar ∨ c = oneChar) :
    ((Huffman.Methods.PackBitsToBytes bits).2 = bits.length ∧
      Huffman.Methods.UnpackBytesToBits (Huffman.Methods.PackBitsToBytes bits).1
        (Huffman.Methods.PackBitsToBytes bits).2 = bits) ∧
    ((FSE.Methods.PackBitsToBytes bits).2 = bits.length ∧
      FSE.Methods.UnpackBytesToBits (FSE.Methods.PackBitsToBytes bits).1
        (FSE.Methods.PackBitsToBytes bits).2 = bits) :=
  ⟨⟨rfl, huffman_unpack_pack bits h⟩, ⟨rfl, fse_unpack_pack bits h⟩⟩

/-- Witness of `pack_unpack_roundtrip` on the eleven bits "10110001110". -/
theorem pack_unpack_roundtrip_witness :
    (∀ c ∈ ([49, 48, 49, 49, 48, 48, 48, 49, 49, 49, 48] : List Byte),
      c = zeroChar ∨ c = oneChar) ∧
    ((Huffman.Methods.PackBitsToBytes [49, 48, 49, 49, 48, 48, 48, 49, 49, 49, 48]).2
        = ([49, 48, 49, 49, 48, 48, 48, 49, 49, 49, 48] : List Byte).length ∧
      Huffman.Methods.UnpackBytesToBits
        (Huffman.Methods.PackBitsToBytes [49, 48, 49, 49, 48, 48, 48, 49, 49, 49, 48]).1
        (Huffman.Methods.PackBitsToBytes [49, 48, 49, 49, 48, 48, 48, 49, 49, 49, 48]).2
        = [49, 48, 49, 49, 48, 48, 48, 49, 49, 49, 48]) ∧
    ((FSE.Methods.PackBitsToBytes [49, 48, 49, 49, 48, 48, 48, 49, 49, 49, 48]).2
        = ([49, 48, 49, 49, 48, 48, 48, 49, 49, 49, 48] : List Byte).length ∧
      FSE.Methods.UnpackBytesToBits
        (FSE.Methods.PackBitsToBytes [49, 48, 49, 49, 48, 48, 48, 49, 49, 49, 48]).1
        (FSE.Methods.PackBitsToBytes [49, 48, 49, 49, 48, 48, 48, 49, 49, 49, 48]).2
        = [49, 48, 49, 49, 48, 48, 48, 49, 49, 49, 48]) :=
  ⟨by decide, pack_unpack_roundtrip _ (by decide)⟩

theorem byteToBits_getD : ∀ (B : Byte) (k : Fin 8),
    (byteToBits B).getD k.val 0 = bitChar (B.val.testBit (7 - k.val)) := by
  decide

theorem bitChar_eq_one (b : Bool) : bitChar b = oneChar ↔ b = true := by
  cases b <;> decide

namespace Huffman.Methods

theorem pack_layout_small : ∀ bs : List Bool, bs.length < 8 →
    PackedMsbFirst (bs.map bitChar) (PackBitsToBytes (bs.map bitChar)).1
  | [], _ => by unfold PackedMsbFirst; decide
  | [b0], _ => by revert b0; unfold PackedMsbFirst; decide
  | [b0, b1], _ => by revert b0 b1; unfold PackedMsbFirst; decide
  | [b0, b1, b2], _ => by revert b0 b1 b2; unfold PackedMsbFirst; decide
  | [b0, b1, b2, b3], _ => by revert b0 b1 b2 b3; unfold PackedMsbFirst; decide
  | [b0, b1, b2, b3, b4], _ => by revert b0 b1 b2 b3 b4; unfold PackedMsbFirst; decide
  | [b0, b1, b2, b3, b4, b5], _ => by
    revert b0 b1 b2 b3 b4 b5; unfold PackedMsbFirst; decide
  | [b0, b1, b2, b3, b4, b5, b6], _ => by
    revert b0 b1 b2 b3 b4 b5 b6; unfold PackedMsbFirst; decide
  | _ :: _ :: _ :: _ :: _ :: _ :: _ :: _ :: _, h => by simp at h; omega

/-- A full group of eight characters in front puts one byte in front, which holds the
group most-significant bit first, and shifts the layout of the rest by one byte. -/
theorem pack_layout_cons8 (chunk rest : List Byte) (B : Byte) (bytes : List Byte)
    (hlen : chunk.length = 8)
    (hB : ∀ k : Fin 8, bitChar (B.val.testBit (7 - k.val)) = chunk.getD k.val 0)
    (ih : PackedMsbFirst rest bytes) : PackedMsbFirst (chunk ++ rest) (B :: bytes) := by
  obtain ⟨h1, h2, h3⟩ := ih
  refine ⟨?_, ?_, ?_⟩
  · simp only [List.length_cons, List.length_append, h1, hlen]
    omega
  · intro k hk
    simp only [List.length_append, hlen] at hk
    by_cases hk8 : k < 8
    · have e1 : k / 8 = 0 := by omega
      have e2 : k % 8 = k := by omega
      rw [e1, e2, getD_append_left chunk rest k 0 (by omega)]
      have := hB ⟨k, hk8⟩
      simp only at this
      rw [← this, bitChar_eq_one]
      rfl
    · have e1 : k / 8 = (k - 8) / 8 + 1 := by omega
      have e2 : k % 8 = (k - 8) % 8 := by omega
      rw [e1, e2, List.getD_append_right chunk rest 0 k (by omega), hlen]
      have := h2 (k - 8) (by omega)
      simpa using this
  · intro hmod j hj
    simp only [List.length_append, hlen] at hmod hj
    have hm : rest.length % 8 ≠ 0 := by omega
    have hpos : 0 < bytes.length := by omega
    have e : (B :: bytes).length - 1 = (bytes.length - 1) + 1 := by
      simp only [List.length_cons]; omega
    rw [e]
    have := h3 hm j (by omega)
    simpa using this

theorem pack_layout_bits : ∀ bs : List Bool,
    PackedMsbFirst (bs.map bitChar) (PackBitsToBytes (bs.map bitChar)).1
  | b0 :: b1 :: b2 :: b3 :: b4 :: b5 :: b6 :: b7 :: rest => by
    have ih := pack_layout_bits rest
    obtain ⟨B, hB, hp⟩ := huffman_pack_cons8 b0 b1 b2 b3 b4 b5 b6 b7 (rest.map bitChar)
    have e : (b0 :: b1 :: b2 :: b3 :: b4 :: b5 :: b6 :: b7 :: rest).map bitChar
        = [b0, b1, b2, b3, b4, b5, b6, b7].map bitChar ++ rest.map bitChar := by simp
    rw [e, hp]
    apply pack_layout_cons8 _ _ B _ (by simp) _ ih
    intro k
    rw [← hB]
    exact (byteToBits_getD B k).symm
  | [] => pack_layout_small [] (by simp)
  | [b0] => pack_layout_small _ (by simp)
  | [b0, b1] => pack_layout_small _ (by simp)
  | [b0, b1, b2] => pack_layout_small _ (by simp)
  | [b0, b1, b2, b3] => pack_layout_small _ (by simp)
  | [b0, b1, b2, b3, b4] => pack_layout_small _ (by simp)
  | [b0, b1, b2, b3, b4, b5] => pack_layout_small _ (by simp)
  | [b0, b1, b2, b3, b4, b5, b6] => pack_layout_small _ (by simp)

end Huffman.Methods

/-- C31: for every string `bits` of `'0'`/`'1'` characters of length `n`,
`PackBitsToBytes` (the packer of `Huffman::Methods` and the one of `FSE::Methods`) returns
exactly `ceil(n / 8)` bytes; for every `k < n`, bit `7 - k mod 8` of byte `k / 8` is 1
exactly when `bits[k] == '1'` (most-significant bit first); and when `n` is not a
multiple of 8 the `8 - n mod 8` low-order bits of the last byte are 0. -/
theorem pack_bits_layout (bits : List Byte)
    (h : ∀ c ∈ bits, c = zeroChar ∨ c = oneChar) :
    PackedMsbFirst bits (Huffman.Methods.PackBitsToBytes bits).1 ∧
    PackedMsbFirst bits (FSE.Methods.PackBitsToBytes bits).1 := by
  obtain ⟨bs, rfl⟩ := exists_bits_of_chars bits h
  rw [FSE.Methods.fse_pack_eq_huffman]
  exact ⟨Huffman.Methods.pack_layout_bits bs, Huffman.Methods.pack_layout_bits bs⟩

/-- Witness of `pack_bits_layout` on the eleven bits "10110001110", packed into the two
bytes 0xB1 and 0xC0. -/
theorem pack_bits_layout_witness :
    (∀ c ∈ ([49, 48, 49, 49, 48, 48, 48, 49, 49, 49, 48] : List Byte),
      c = zeroChar ∨ c = oneChar) ∧
    (Huffman.Methods.PackBitsToBytes [49, 48, 49, 49, 48, 48, 48, 49, 49, 49, 48]).1
      = [177, 192] ∧
    PackedMsbFirst [49, 48, 49, 49, 48, 48, 48, 49, 49, 49, 48]
      (FSE.Methods.PackBitsToBytes [49, 48, 49, 49, 48, 48, 48, 49, 49, 49, 48]).1 :=
  ⟨by decide, by decide, (pack_bits_layout _ (by decide)).2⟩
namespace LZ78

theorem lz78_decode_snoc (tokens : List Token) (t : Token) :
    (tokens ++ [t]).foldl decompressStep ([[]], [])
      = decompressStep (tokens.foldl decompressStep ([[]], [])) t := by
  simp [List.foldl_append]

theorem lz78_inv_init : Inv [] ⟨[], [], [], 1⟩ where
  out := rfl
  size := rfl
  zero := rfl
  pos := by decide
  dict := fun s v h => by simp [mapFind] at h
  buf := Or.inl rfl
  pref := fun s v h => by simp [mapFind] at h

/-- The token the encoder emits for a buffer whose longest proper prefix is known decodes
to that buffer. -/
theorem lz78_entry_eq (p : List Byte) (st : CompressState) (h : Inv p st)
    (buffer : List Byte) (c : Byte)
    (hb : buffer = [] ∨ ∃ v, mapFind st.dictionary buffer = some v) :
    (if findPrefixIndex st.dictionary (buffer ++ [c])
          < (st.tokens.foldl decompressStep ([[]], [])).1.length
      then (st.tokens.foldl decompressStep ([[]], [])).1.getD
          (findPrefixIndex st.dictionary (buffer ++ [c])) []
      else []) ++ [c] = buffer ++ [c] := by
  have hd : (buffer ++ [c]).take ((buffer ++ [c]).length - 1) = buffer := by simp
  unfold findPrefixIndex
  rw [hd]
  rcases hb with hb | ⟨v, hv⟩
  · subst hb
    simp only [List.nil_append, List.length_singleton, gt_iff_lt, Nat.lt_irrefl, if_false]
    rw [h.size, if_pos h.pos, h.zero]
    rfl
  · have hlen : (buffer ++ [c]).length > 1 ∨ buffer = [] := by
      cases buffer with
      | nil => right; rfl
      | cons a t => left; simp
    rcases hlen with hlen | hnil
    · rw [if_pos hlen, hv]
      simp only
      obtain ⟨h1, h2⟩ := h.dict buffer v hv
      rw [h.size, if_pos h1, h2]
    · subst hnil
      simp only [List.nil_append, List.length_singleton, gt_iff_lt, Nat.lt_irrefl, if_false]
      rw [h.size, if_pos h.pos, h.zero]
      rfl

theorem lz78_inv_step (p : List Byte) (st : CompressState) (c : Byte) (h : Inv p st) :
    Inv (p ++ [c]) (compressStep st c) := by
  unfold compressStep
  simp only
  split
  · rename_i hnone
    have hentry := lz78_entry_eq p st h st.buffer c h.buf
    have hdec : (st.tokens ++ [(⟨findPrefixIndex st.dictionary (st.buffer ++ [c]), c⟩ : Token)]).foldl
        decompressStep ([[]], [])
        = ((st.tokens.foldl decompressStep ([[]], [])).1 ++ [st.buffer ++ [c]],
           (st.tokens.foldl decompressStep ([[]], [])).2 ++ (st.buffer ++ [c])) := by
      rw [lz78_decode_snoc]
      simp only [decompressStep]
      rw [hentry]
    refine ⟨?_, ?_, ?_, ?_, ?_, ?_, ?_⟩
    · simp only [hdec, List.append_nil]
      rw [← List.append_assoc, h.out]
    · simp only [hdec, List.length_append, List.length_singleton, h.size]
    · simp only [hdec]
      rw [getD_append_left _ _ _ _ (by rw [h.size]; exact h.pos)]
      exact h.zero
    · simp only; omega
    · intro s v hs
      simp only [hdec]
      simp only [mapFind_mapSet] at hs
      split at hs
      · rename_i hsb
        simp only [Option.some.injEq] at hs
        subst hs
        refine ⟨by omega, ?_⟩
        rw [← h.size, getD_append_length, hsb]
      · obtain ⟨h1, h2⟩ := h.dict s v hs
        refine ⟨by omega, ?_⟩
        rw [getD_append_left _ _ _ _ (by rw [h.size]; exact h1)]
        exact h2
    · left; rfl
    · intro s v hs hl
      simp only [mapFind_mapSet] at hs ⊢
      split at hs
      · rename_i hsb
        subst hsb
        have hd : (st.buffer ++ [c]).take ((st.buffer ++ [c]).length - 1) = st.buffer := by simp
        rw [hd]
        have hne : st.buffer ≠ [] := by
          intro e; rw [e] at hl; simp at hl
        rcases h.buf with hb | ⟨u, hu⟩
        · exact absurd hb hne
        · refine ⟨u, ?_⟩
          have : ¬ st.buffer = st.buffer ++ [c] := by
            intro e
            have := congrArg List.length e
            simp at this
          rw [if_neg this]; exact hu
      · obtain ⟨u, hu⟩ := h.pref s v hs hl
        by_cases he : s.take (s.length - 1) = st.buffer ++ [c]
        · exact ⟨st.dictSize, by rw [if_pos he]⟩
        · exact ⟨u, by rw [if_neg he]; exact hu⟩
  · rename_i hsome
    refine ⟨?_, h.size, h.zero, h.pos, h.dict, ?_, h.pref⟩
    · simp only
      rw [← List.append_assoc, h.out]
    · right
      simp only
      cases hm : mapFind st.dictionary (st.buffer ++ [c]) with
      | none => exact absurd hm hsome
      | some v => exact ⟨v, rfl⟩

theorem lz78_inv_foldl (input : List Byte) :
    ∀ (p : List Byte) (st : CompressState), Inv p st →
      Inv (p ++ input) (input.foldl compressStep st) := by
  induction input with
  | nil => intro p st h; simpa using h
  | cons c t ih =>
    intro p st h
    have := ih (p ++ [c]) (compressStep st c) (lz78_inv_step p st c h)
    simpa using this

/-- C4: for every byte sequence `x` (empty, with zero bytes, or ending inside a known
phrase so that the final flush token is emitted), `LZ78::decompress(LZ78::compress(x))`
is `x`. -/
theorem lz78_roundtrip (x : List Byte) : decompress (compress x) = x := by
  have h := lz78_inv_foldl x [] ⟨[], [], [], 1⟩ lz78_inv_init
  simp only [List.nil_append] at h
  unfold compress decompress
  generalize x.foldl compressStep ⟨[], [], [], 1⟩ = st at h
  simp only
  split
  · rename_i hne
    rw [lz78_decode_snoc]
    simp only [decompressStep]
    have hsplit : st.buffer = st.buffer.take (st.buffer.length - 1) ++ [st.buffer.getLastD 0] := by
      cases hb : st.buffer.reverse with
      | nil => simp at hb; exact absurd hb hne
      | cons a t =>
        have : st.buffer = t.reverse ++ [a] := by
          rw [← List.reverse_reverse st.buffer, hb]; simp
        rw [this]; simp
    have hpre : st.buffer.take (st.buffer.length - 1) = [] ∨
        ∃ v, mapFind st.dictionary (st.buffer.take (st.buffer.length - 1)) = some v := by
      rcases h.buf with hb | ⟨v, hv⟩
      · exact absurd hb hne
      · by_cases hl : 1 < st.buffer.length
        · right; exact h.pref _ v hv hl
        · left
          have : st.buffer.length - 1 = 0 := by omega
          rw [this]; rfl
    have hentry := lz78_entry_eq x st h (st.buffer.take (st.buffer.length - 1))
      (st.buffer.getLastD 0) hpre
    rw [← hsplit] at hentry
    rw [hentry]
    exact h.out
  · rename_i he
    have he2 : st.buffer = [] := by
      by_contra hc; exact he hc
    have := h.out
    rw [he2, List.append_nil] at this
    exact this

end LZ78

namespace LZ78

theorem codesInOrder_init : CodesInOrder ⟨[], [], [], 1⟩ where
  size := rfl
  index := fun k t h => by simp at h
  phrase := fun k t h => by simp at h
  code := fun k h => by simp at h
  only := fun s v h => by simp [mapFind] at h

theorem findPrefixIndex_lt (p : List Byte) (st : CompressState) (h : Inv p st)
    (buffer : List Byte) : findPrefixIndex st.dictionary buffer < st.dictSize := by
  unfold findPrefixIndex
  split
  · cases hm : mapFind st.dictionary (buffer.take (buffer.length - 1)) with
    | none => exact h.pos
    | some v => exact (h.dict _ v hm).1
  · exact h.pos

theorem codesInOrder_step (p : List Byte) (st : CompressState) (c : Byte) (h : Inv p st)
    (hc : CodesInOrder st) : CodesInOrder (compressStep st c) := by
  unfold compressStep
  simp only
  split
  · rename_i hnone
    have hentry := lz78_entry_eq p st h st.buffer c h.buf
    have hsize : (phrases st.tokens).length = st.tokens.length + 1 := by
      unfold phrases
      rw [h.size, hc.size]
    have hpi := findPrefixIndex_lt p st h (st.buffer ++ [c])
    have hph : phrases (st.tokens ++
        [(⟨findPrefixIndex st.dictionary (st.buffer ++ [c]), c⟩ : Token)])
        = phrases st.tokens ++ [st.buffer ++ [c]] := by
      unfold phrases
      rw [lz78_decode_snoc]
      simp only [decompressStep]
      rw [hentry]
    have hold : ∀ v, v < st.tokens.length + 1 →
        (phrases st.tokens ++ [st.buffer ++ [c]]).getD v [] = (phrases st.tokens).getD v [] :=
      fun v hv => getD_append_left _ _ _ _ (by omega)
    have hnew : (phrases st.tokens ++ [st.buffer ++ [c]]).getD (st.tokens.length + 1) []
        = st.buffer ++ [c] := by
      rw [← hsize]
      exact getD_append_length _ _ _
    refine ⟨?_, ?_, ?_, ?_, ?_⟩
    · simp only [List.length_append, List.length_singleton, hc.size]
    · intro k t ht
      simp only at ht
      by_cases hk : k < st.tokens.length
      · rw [List.getElem?_append_left hk] at ht
        exact hc.index k t ht
      · have hk2 : k = st.tokens.length := by
          by_contra hne
          rw [List.getElem?_eq_none (by simp; omega)] at ht
          exact Option.noConfusion ht
        subst hk2
        simp only [List.getElem?_concat_length, Option.some.injEq] at ht
        subst ht
        simp only
        have := hc.size
        omega
    · intro k t ht
      simp only at ht ⊢
      rw [hph]
      by_cases hk : k < st.tokens.length
      · rw [List.getElem?_append_left hk] at ht
        have hi := hc.index k t ht
        rw [hold (k + 1) (by omega), hold t.index (by omega)]
        exact hc.phrase k t ht
      · have hk2 : k = st.tokens.length := by
          by_contra hne
          rw [List.getElem?_eq_none (by simp; omega)] at ht
          exact Option.noConfusion ht
        subst hk2
        simp only [List.getElem?_concat_length, Option.some.injEq] at ht
        subst ht
        simp only
        have hlt : findPrefixIndex st.dictionary (st.buffer ++ [c]) < st.tokens.length + 1 := by
          have := hc.size
          omega
        rw [hnew, hold _ hlt]
        have hlt2 : findPrefixIndex st.dictionary (st.buffer ++ [c])
            < (st.tokens.foldl decompressStep ([[]], [])).1.length := by
          rw [h.size]; exact hpi
        rw [if_pos hlt2] at hentry
        exact hentry.symm
    · intro k hk
      simp only [List.length_append, List.length_singleton] at hk
      simp only
      rw [hph, mapFind_mapSet]
      by_cases hk2 : k < st.tokens.length
      · rw [hold (k + 1) (by omega)]
        have hcode := hc.code k hk2
        have hne : (phrases st.tokens).getD (k + 1) [] ≠ st.buffer ++ [c] := by
          intro e
          rw [e, hnone] at hcode
          exact Option.noConfusion hcode
        rw [if_neg hne]
        exact hcode
      · have hk3 : k = st.tokens.length := by omega
        subst hk3
        rw [hnew, if_pos rfl, hc.size]
    · intro s v hs
      simp only at hs ⊢
      rw [hph]
      simp only [mapFind_mapSet] at hs
      simp only [List.length_append, List.length_singleton]
      split at hs
      · rename_i hsb
        simp only [Option.some.injEq] at hs
        have hsz := hc.size
        refine ⟨by omega, by omega, ?_⟩
        rw [← hs, hsz, hnew, hsb]
      · obtain ⟨h1, h2, h3⟩ := hc.only s v hs
        refine ⟨h1, by omega, ?_⟩
        rw [hold v (by omega)]
        exact h3
  · exact ⟨hc.size, hc.index, hc.phrase, hc.code, hc.only⟩

theorem codesInOrder_foldl (input : List Byte) :
    ∀ (p : List Byte) (st : CompressState), Inv p st → CodesInOrder st →
      CodesInOrder (input.foldl compressStep st) := by
  induction input with
  | nil => intro p st _ h; exact h
  | cons c t ih =>
    intro p st h hc
    exact ih (p ++ [c]) (compressStep st c) (lz78_inv_step p st c h)
      (codesInOrder_step p st c h hc)

/-- C33: for every input, the `k`-th token (`k = 1, 2, ...`; here the token at list
position `k - 1`) emitted by `LZ78::compress` has an index below `k`. The tokens are those
of the loop, followed by one flush token when the input ends inside a known phrase. Every
token of the loop defines the dictionary code `k` for the phrase (phrase of its index)
followed by its byte, the phrase of index 0 being empty: the codes are 1, 2, 3, ... in
emission order, the dictionary holds nothing else, and each phrase is one byte longer
than the phrase of an earlier code. -/
theorem lz78_codes_in_order (x : List Byte) :
    (compress x = (loopState x).tokens ∨
      ∃ t, compress x = (loopState x).tokens ++ [t]) ∧
    (∀ k t, (compress x)[k]? = some t → t.index < k + 1) ∧
    (loopState x).dictSize = (loopState x).tokens.length + 1 ∧
    (phrases (loopState x).tokens).getD 0 [] = [] ∧
    (∀ k t, (loopState x).tokens[k]? = some t →
      mapFind (loopState x).dictionary ((phrases (loopState x).tokens).getD (k + 1) [])
        = some (k + 1) ∧
      (phrases (loopState x).tokens).getD (k + 1) []
        = (phrases (loopState x).tokens).getD t.index [] ++ [t.next] ∧
      ((phrases (loopState x).tokens).getD (k + 1) []).length
        = ((phrases (loopState x).tokens).getD t.index []).length + 1) ∧
    (∀ s v, mapFind (loopState x).dictionary s = some v →
      1 ≤ v ∧ v ≤ (loopState x).tokens.length ∧
      s = (phrases (loopState x).tokens).getD v []) := by
  have hinv : Inv x (loopState x) := by
    have := lz78_inv_foldl x [] ⟨[], [], [], 1⟩ lz78_inv_init
    simpa [loopState] using this
  have hc : CodesInOrder (loopState x) :=
    codesInOrder_foldl x [] ⟨[], [], [], 1⟩ lz78_inv_init codesInOrder_init
  have hcomp : compress x =
      if (loopState x).buffer ≠ [] then
        (loopState x).tokens ++
          [⟨findPrefixIndex (loopState x).dictionary (loopState x).buffer,
            (loopState x).buffer.getLastD 0⟩]
      else (loopState x).tokens := rfl
  refine ⟨?_, ?_, hc.size, hinv.zero, ?_, hc.only⟩
  · rw [hcomp]
    split
    · exact Or.inr ⟨_, rfl⟩
    · exact Or.inl rfl
  · intro k t ht
    rw [hcomp] at ht
    split at ht
    · by_cases hk : k < (loopState x).tokens.length
      · rw [List.getElem?_append_left hk] at ht
        exact hc.index k t ht
      · have hk2 : k = (loopState x).tokens.length := by
          by_contra hne
          rw [List.getElem?_eq_none (by simp; omega)] at ht
          exact Option.noConfusion ht
        subst hk2
        simp only [List.getElem?_concat_length, Option.some.injEq] at ht
        subst ht
        simp only
        have h1 := findPrefixIndex_lt x (loopState x) hinv (loopState x).buffer
        have h2 := hc.size
        omega
    · exact hc.index k t ht
  · intro k t ht
    have hk : k < (loopState x).tokens.length := by
      by_contra hge
      rw [List.getElem?_eq_none (by omega)] at ht
      exact Option.noConfusion ht
    have hp := hc.phrase k t ht
    refine ⟨hc.code k hk, hp, ?_⟩
    rw [hp]
    simp

end LZ78

namespace FSE

namespace Methods

theorem ceilLog2_spec (n : Nat) (hn : 1 ≤ n) : n ≤ 2 ^ ceilLog2 n := by
  unfold ceilLog2
  cases hf : (List.range n).find? (fun w => n ≤ 2 ^ w) with
  | none =>
    rw [List.find?_eq_none] at hf
    have h1 := hf (n - 1) (List.mem_range.mpr (by omega))
    have h2 : n - 1 < 2 ^ (n - 1) := Nat.lt_two_pow (n - 1)
    simp only [decide_eq_true_eq] at h1
    omega
  | some w =>
    have := List.find?_some hf
    simpa using this

theorem ceilLog2_pos (n : Nat) (hn : 2 ≤ n) : 1 ≤ ceilLog2 n := by
  have h := ceilLog2_spec n (by omega)
  by_contra hc
  have : ceilLog2 n = 0 := by omega
  rw [this] at h
  simp at h
  omega

theorem binaryCode_length (i width : Nat) : (binaryCode i width).length = width := by
  simp [binaryCode]

theorem binaryCode_chars (i width : Nat) :
    ∀ c ∈ binaryCode i width, c = zeroChar ∨ c = oneChar := by
  intro c hc
  simp only [binaryCode, List.mem_map] at hc
  obtain ⟨bit, _, hb⟩ := hc
  split at hb
  · right; exact hb.symm
  · left; exact hb.symm

theorem binaryCode_inj (i j width : Nat) (hi : i < 2 ^ width) (hj : j < 2 ^ width)
    (h : binaryCode i width = binaryCode j width) : i = j := by
  apply Nat.eq_of_testBit_eq
  intro bit
  by_cases hb : bit < width
  · unfold binaryCode at h
    rw [List.map_inj_left] at h
    have hbit := h bit (List.mem_range.mpr hb)
    have hne : oneChar ≠ zeroChar := by decide
    have hiff : ((i >>> bit) &&& 1 ≠ 0) ↔ ((j >>> bit) &&& 1 ≠ 0) := by
      by_cases h1 : (i >>> bit) &&& 1 ≠ 0 <;> by_cases h2 : (j >>> bit) &&& 1 ≠ 0
      · exact ⟨fun _ => h2, fun _ => h1⟩
      · rw [if_pos h1, if_neg h2] at hbit; exact absurd hbit hne
      · rw [if_neg h1, if_pos h2] at hbit; exact absurd hbit.symm hne
      · exact ⟨fun h => absurd h h1, fun h => absurd h h2⟩
    simp only [Nat.testBit, Nat.land_comm 1]
    rw [Bool.eq_iff_iff]
    simp only [bne_iff_ne]
    exact hiff
  · have hw : 2 ^ width ≤ 2 ^ bit := Nat.pow_le_pow_right (by decide) (by omega)
    rw [Nat.testBit_lt_two_pow (by omega), Nat.testBit_lt_two_pow (by omega)]

theorem countFrequencies_keys (input : List Byte) :
    ∀ c ∈ input, c ∈ (countFrequencies input).map Prod.fst := by
  unfold countFrequencies
  have key : ∀ (l : List Byte) (m : List (Byte × Nat)) (c : Byte),
      (c ∈ l ∨ c ∈ m.map Prod.fst) →
      c ∈ (l.foldl (charMapModify (fun v => addSize v 1) 0) m).map Prod.fst := by
    intro l
    induction l with
    | nil => intro m c h; simpa using h
    | cons a t ih =>
      intro m c h
      simp only [List.foldl_cons]
      apply ih
      rcases h with h | h
      · rcases List.mem_cons.mp h with h | h
        · exact Or.inr (key_mem_charMapModify _ _ _ _ _ (Or.inl h))
        · exact Or.inl h
      · exact Or.inr (key_mem_charMapModify _ _ _ _ _ (Or.inr h))
  intro c hc
  exact key input [] c (Or.inl hc)

/-- Every entry of the table built by `assignCodes` is an entry of the initial table or
carries, under the character of a symbol, the code of that symbol's rank. -/
theorem assignCodes_mem (width : Nat) (syms : List Symbol) :
    ∀ (i0 : Nat) (table : EncodingTable) (p : Byte × EncodedSymbol),
      p ∈ assignCodes width syms i0 table →
      p ∈ table ∨ ∃ j, j < syms.length ∧ p.2.code = binaryCode (i0 + j) width ∧
        (syms.map Symbol.character).getD j 0 = p.1 := by
  induction syms with
  | nil => intro i0 table p h; exact Or.inl h
  | cons s rest ih =>
    intro i0 table p h
    unfold assignCodes at h
    rcases ih (i0 + 1) _ p h with h1 | ⟨j, hj, hc, hk⟩
    · rcases mem_charMapModify _ _ _ _ _ h1 with h2 | ⟨v, h2⟩
      · exact Or.inl h2
      · right
        refine ⟨0, by simp, ?_, ?_⟩
        · rw [h2]; rfl
        · rw [h2]; rfl
    · right
      refine ⟨j + 1, by simp; omega, ?_, ?_⟩
      · rw [hc]; congr 1; omega
      · simpa using hk

theorem assignCodes_find (width : Nat) (syms : List Symbol) :
    ∀ (i0 : Nat) (table : EncodingTable) (c : Byte),
      (c ∈ syms.map Symbol.character ∨ ∃ s, mapFind table c = some s) →
      ∃ s, mapFind (assignCodes width syms i0 table) c = some s := by
  induction syms with
  | nil =>
    intro i0 table c h
    rcases h with h | h
    · simp at h
    · exact h
  | cons s rest ih =>
    intro i0 table c h
    unfold assignCodes
    apply ih
    by_cases hc : c = s.character
    · right
      subst hc
      obtain ⟨v, hv⟩ := mapFind_charMapModify_self
        (fun _ => (⟨s.character, binaryCode i0 width⟩ : EncodedSymbol)) ⟨0, []⟩ table s.character
      exact ⟨_, hv⟩
    · rcases h with h | ⟨s', hs'⟩
      · left
        simp only [List.map_cons, List.mem_cons] at h
        rcases h with h | h
        · exact absurd h hc
        · exact h
      · right
        exact ⟨s', by rw [mapFind_charMapModify_ne _ _ _ _ _ hc]; exact hs'⟩

end Methods

theorem fse_rev_miss (code : List Byte) (l : EncodingTable) :
    ∀ rev0 : List (List Byte × Byte), (∀ q ∈ l, q.2.code ≠ code) →
      mapFind (l.foldl (fun rev p => mapSet rev p.2.code p.1) rev0) code
        = mapFind rev0 code := by
  induction l with
  | nil => intro rev0 _; rfl
  | cons a t ih =>
    intro rev0 h
    simp only [List.foldl_cons]
    rw [ih _ (fun q hq => h q (List.mem_cons_of_mem _ hq)), mapFind_mapSet]
    have := h a (List.mem_cons_self _ _)
    rw [if_neg (fun e => this e.symm)]

theorem fse_rev_hit (code : List Byte) (l : EncodingTable) :
    ∀ rev0 : List (List Byte × Byte), (∃ p ∈ l, p.2.code = code) →
      ∃ p ∈ l, p.2.code = code ∧
        mapFind (l.foldl (fun rev p => mapSet rev p.2.code p.1) rev0) code = some p.1 := by
  induction l with
  | nil => intro rev0 h; obtain ⟨p, hp, _⟩ := h; simp at hp
  | cons a t ih =>
    intro rev0 h
    simp only [List.foldl_cons]
    by_cases ht : ∃ p ∈ t, p.2.code = code
    · obtain ⟨p, hp, hc, hf⟩ := ih (mapSet rev0 a.2.code a.1) ht
      exact ⟨p, List.mem_cons_of_mem _ hp, hc, hf⟩
    · have hall : ∀ q ∈ t, q.2.code ≠ code := fun q hq e => ht ⟨q, hq, e⟩
      obtain ⟨p, hp, hc⟩ := h
      rcases List.mem_cons.mp hp with e | hpt
      · subst e
        refine ⟨p, List.mem_cons_self _ _, hc, ?_⟩
        rw [fse_rev_miss code t _ hall, mapFind_mapSet, if_pos hc.symm]
      · exact absurd hc (hall p hpt)

theorem fse_rev_find (code : List Byte) (ch : Byte) (l : EncodingTable) :
    ∀ rev0 : List (List Byte × Byte),
      mapFind (l.foldl (fun rev p => mapSet rev p.2.code p.1) rev0) code = some ch →
      mapFind rev0 code = some ch ∨ ∃ p ∈ l, p.2.code = code ∧ p.1 = ch := by
  induction l with
  | nil => intro rev0 h; exact Or.inl h
  | cons a t ih =>
    intro rev0 h
    simp only [List.foldl_cons] at h
    rcases ih _ h with h1 | ⟨p, hp, hc, hk⟩
    · rw [mapFind_mapSet] at h1
      split at h1
      · rename_i e
        simp only [Option.some.injEq] at h1
        exact Or.inr ⟨a, List.mem_cons_self _ _, e.symm, h1⟩
      · exact Or.inl h1
    · exact Or.inr ⟨p, List.mem_cons_of_mem _ hp, hc, hk⟩

/-- The greedy decoder, started inside a code word of the fixed width, emits exactly the
symbol of that word when the word ends, and nothing before. -/
theorem fse_decode_word (rev : List (List Byte × Byte)) (W : Nat)
    (hkeys : ∀ code ch, mapFind rev code = some ch → code.length = W)
    (code : List Byte) (c : Byte) (hlen : code.length = W)
    (hfind : mapFind rev code = some c) (out : List Byte) :
    ∀ (suf pre : List Byte), pre ++ suf = code → suf ≠ [] →
      suf.foldl (decodeStep rev) (out, pre) = (out ++ [c], []) := by
  intro suf
  induction suf with
  | nil => intro pre _ h; exact absurd rfl h
  | cons b rest ih =>
    intro pre hsplit _
    simp only [List.foldl_cons]
    by_cases hr : rest = []
    · subst hr
      simp only [List.foldl_nil, decodeStep]
      rw [hsplit, hfind]
    · have hshort : (pre ++ [b]).length < W := by
        have := congrArg List.length hsplit
        simp only [List.length_append, List.length_cons] at this
        have : 0 < rest.length := List.length_pos.mpr hr
        simp only [List.length_append, List.length_singleton]
        omega
      have hnone : mapFind rev (pre ++ [b]) = none := by
        cases hm : mapFind rev (pre ++ [b]) with
        | none => rfl
        | some ch => have := hkeys _ _ hm; omega
      have hstep : decodeStep rev (out, pre) b = (out, pre ++ [b]) := by
        simp only [decodeStep, hnone]
      rw [hstep]
      exact ih (pre ++ [b]) (by rw [List.append_assoc]; exact hsplit) hr

theorem fse_encode_acc (table : EncodingTable) (cs : List Byte) (acc : List Byte) :
    cs.foldl (fun s c => s ++ codeOf table c) acc
      = acc ++ cs.foldl (fun s c => s ++ codeOf table c) [] := by
  induction cs generalizing acc with
  | nil => simp
  | cons a t ih =>
    simp only [List.foldl_cons, List.nil_append]
    rw [ih (acc ++ codeOf table a), ih (codeOf table a), List.append_assoc]

theorem fse_decode_encode (table : EncodingTable) (rev : List (List Byte × Byte)) (W : Nat)
    (hW : 1 ≤ W)
    (hkeys : ∀ code ch, mapFind rev code = some ch → code.length = W)
    (cs : List Byte)
    (hcs : ∀ c ∈ cs, (codeOf table c).length = W ∧ mapFind rev (codeOf table c) = some c) :
    ∀ out : List Byte,
      (cs.foldl (fun s c => s ++ codeOf table c) []).foldl (decodeStep rev) (out, [])
        = (out ++ cs, []) := by
  induction cs with
  | nil => intro out; simp
  | cons a t ih =>
    intro out
    simp only [List.foldl_cons, List.nil_append]
    rw [fse_encode_acc, List.foldl_append]
    obtain ⟨h1, h2⟩ := hcs a (List.mem_cons_self _ _)
    have hne : codeOf table a ≠ [] := by
      intro e; rw [e] at h1; simp at h1; omega
    rw [fse_decode_word rev W hkeys (codeOf table a) a h1 h2 out (codeOf table a) []
      (by simp) hne]
    rw [ih (fun c hc => hcs c (List.mem_cons_of_mem _ hc)) (out ++ [a])]
    simp

theorem two_le_length_of_ne {α : Type} (l : List α) (a b : α) (ha : a ∈ l) (hb : b ∈ l)
    (hne : a ≠ b) : 2 ≤ l.length := by
  match l, ha, hb with
  | [], ha, _ => simp at ha
  | [c], ha, hb =>
    simp only [List.mem_singleton] at ha hb
    exact absurd (ha.trans hb.symm) hne
  | _ :: _ :: _, _, _ => simp

/-- What the decoder needs of the table `buildEncodingTable` returns on an input with two
distinct bytes: a common code width of at least one, codes made of bit characters, no
code shared by two characters, and an entry for every input byte. -/
theorem fse_table_facts (S : Methods.StdSort) (x : List Byte)
    (h : ∃ a ∈ x, ∃ b ∈ x, a ≠ b) :
    ∃ W, 1 ≤ W ∧
      (∀ p ∈ Methods.buildEncodingTable S x, p.2.code.length = W ∧
        ∀ c ∈ p.2.code, c = zeroChar ∨ c = oneChar) ∧
      (∀ p ∈ Methods.buildEncodingTable S x, ∀ q ∈ Methods.buildEncodingTable S x,
        p.2.code = q.2.code → p.1 = q.1) ∧
      (∀ c ∈ x, ∃ s, mapFind (Methods.buildEncodingTable S x) c = some s) := by
  unfold Methods.buildEncodingTable
  simp only
  generalize hsorted : S.sort
    ((Methods.countFrequencies x).map (fun p => (⟨p.1, p.2⟩ : Symbol))) = sorted
  have hperm : sorted.Perm ((Methods.countFrequencies x).map (fun p => (⟨p.1, p.2⟩ : Symbol))) := by
    rw [← hsorted]
    exact S.perm _
  have hchars : ∀ c ∈ x, c ∈ sorted.map Symbol.character := by
    intro c hc
    have h1 := Methods.countFrequencies_keys x c hc
    obtain ⟨p, hp, hpc⟩ := List.mem_map.mp h1
    exact List.mem_map.mpr ⟨⟨p.1, p.2⟩, hperm.mem_iff.mpr (List.mem_map.mpr ⟨p, hp, rfl⟩), hpc⟩
  have hn : 2 ≤ sorted.length := by
    obtain ⟨a, ha, b, hb, hab⟩ := h
    have := two_le_length_of_ne _ a b (hchars a ha) (hchars b hb) hab
    simpa using this
  have hpow := Methods.ceilLog2_spec sorted.length (by omega)
  have hmem : ∀ p ∈ Methods.assignCodes (Methods.ceilLog2 sorted.length) sorted 0 [],
      ∃ j, j < sorted.length ∧
        p.2.code = Methods.binaryCode j (Methods.ceilLog2 sorted.length) ∧
        (sorted.map Symbol.character).getD j 0 = p.1 := by
    intro p hp
    rcases Methods.assignCodes_mem _ sorted 0 [] p hp with h0 | ⟨j, hj, hc, hk⟩
    · simp at h0
    · exact ⟨j, hj, by simpa using hc, hk⟩
  refine ⟨Methods.ceilLog2 sorted.length, Methods.ceilLog2_pos _ hn, ?_, ?_, ?_⟩
  · intro p hp
    obtain ⟨j, _, hc, _⟩ := hmem p hp
    rw [hc]
    exact ⟨Methods.binaryCode_length _ _, Methods.binaryCode_chars _ _⟩
  · intro p hp q hq hpq
    obtain ⟨j, hj, hc, hk⟩ := hmem p hp
    obtain ⟨j', hj', hc', hk'⟩ := hmem q hq
    rw [hc, hc'] at hpq
    have := Methods.binaryCode_inj j j' _ (by omega) (by omega) hpq
    subst this
    rw [← hk, ← hk']
  · intro c hc
    exact Methods.assignCodes_find _ sorted 0 [] c (Or.inl (hchars c hc))

/-- Decoding what `FSE::compress` produces on a table with the properties of
`fse_table_facts` gives the input back. -/
theorem fse_decode_compress (S : Methods.StdSort) (x : List Byte)
    (h : ∃ a ∈ x, ∃ b ∈ x, a ≠ b) :
    decompress (compress S x).byteVec (compress S x).encodingTable (compress S x).bitLength
      = x := by
  obtain ⟨W, hW, hcode, hinj, hfind⟩ := fse_table_facts S x h
  unfold decompress compress
  simp only
  generalize Methods.buildEncodingTable S x = table at hcode hinj hfind
  have hcodeOf : ∀ c ∈ x, ∃ s, (c, s) ∈ table ∧ codeOf table c = s.code := by
    intro c hc
    obtain ⟨s, hs⟩ := hfind c hc
    exact ⟨s, mapFind_mem _ _ _ hs, by simp [codeOf, hs]⟩
  have hbits : ∀ (l : List Byte), (∀ c ∈ l, c ∈ x) →
      ∀ b ∈ l.foldl (fun s c => s ++ codeOf table c) [], b = zeroChar ∨ b = oneChar := by
    intro l
    induction l with
    | nil => intro _ b hb; simp at hb
    | cons a t ih =>
      intro hl b hb
      simp only [List.foldl_cons, List.nil_append] at hb
      rw [fse_encode_acc, List.mem_append] at hb
      rcases hb with hb | hb
      · obtain ⟨s, hs, hcs⟩ := hcodeOf a (hl a (List.mem_cons_self _ _))
        rw [hcs] at hb
        exact (hcode _ hs).2 b hb
      · exact ih (fun c hc => hl c (List.mem_cons_of_mem _ hc)) b hb
  rw [fse_unpack_pack _ (hbits x (fun c hc => hc))]
  have hkeys : ∀ code ch, mapFind (reverseTable table) code = some ch → code.length = W := by
    intro code ch hm
    rcases fse_rev_find code ch table [] hm with h0 | ⟨p, hp, hc, _⟩
    · simp [mapFind] at h0
    · rw [← hc]; exact (hcode p hp).1
  have hcs : ∀ c ∈ x, (codeOf table c).length = W ∧
      mapFind (reverseTable table) (codeOf table c) = some c := by
    intro c hc
    obtain ⟨s, hs, hcs⟩ := hcodeOf c hc
    refine ⟨by rw [hcs]; exact (hcode _ hs).1, ?_⟩
    obtain ⟨p, hp, hpc, hpf⟩ := fse_rev_hit (codeOf table c) table [] ⟨(c, s), hs, hcs.symm⟩
    have : p.1 = c := hinj p hp (c, s) hs (by rw [hpc, hcs])
    exact hpf.trans (congrArg some this)
  rw [fse_decode_encode table (reverseTable table) W hW hkeys x hcs []]
  simp

/-- C5: for every `std::sort` (whatever order it gives symbols of equal frequency) and
every input with at least two distinct byte values, `FSE::decompress` of the three fields
of `FSE::compress(input)` is the input. -/
theorem fse_roundtrip (S : Methods.StdSort) (x : List Byte)
    (h : ∃ a ∈ x, ∃ b ∈ x, a ≠ b) :
    decompress (compress S x).byteVec (compress S x).encodingTable (compress S x).bitLength
      = x :=
  fse_decode_compress S x h

/-- Witness of `fse_roundtrip` on "ABACAB" followed by the byte 200 and "A", with the
sort that keeps symbols of equal frequency in their order. -/
theorem fse_roundtrip_witness :
    (∃ a ∈ ([65, 66, 65, 67, 65, 66, 200, 65] : List Byte),
      ∃ b ∈ ([65, 66, 65, 67, 65, 66, 200, 65] : List Byte), a ≠ b) ∧
    decompress (compress Methods.stableSort [65, 66, 65, 67, 65, 66, 200, 65]).byteVec
      (compress Methods.stableSort [65, 66, 65, 67, 65, 66, 200, 65]).encodingTable
      (compress Methods.stableSort [65, 66, 65, 67, 65, 66, 200, 65]).bitLength
      = [65, 66, 65, 67, 65, 66, 200, 65] :=
  ⟨⟨65, by simp, 66, by simp, by decide⟩,
   fse_roundtrip Methods.stableSort _ ⟨65, by simp, 66, by simp, by decide⟩⟩

theorem fse_countFrequencies_replicate_aux (b : Byte) (n : Nat) (v : Nat) :
    ∃ f, (List.replicate n b).foldl (charMapModify (fun v => addSize v 1) 0) [(b, v)]
      = [(b, f)] := by
  induction n generalizing v with
  | zero => exact ⟨v, rfl⟩
  | succ n ih =>
    simp only [List.replicate_succ, List.foldl_cons, charMapModify, if_true]
    exact ih _

theorem fse_encode_empty_codes (table : EncodingTable) (input : List Byte)
    (h : ∀ c ∈ input, codeOf table c = []) :
    input.foldl (fun s c => s ++ codeOf table c) [] = [] := by
  induction input with
  | nil => rfl
  | cons a t ih =>
    simp only [List.foldl_cons, h a (List.mem_cons_self _ _), List.append_nil]
    exact ih (fun c hc => h c (List.mem_cons_of_mem _ hc))

/-- C16, the code on an input of one repeated byte, for every `std::sort`: the table has
one symbol, the code width `ceil(log2 1)` is 0, the byte gets the empty code, the artifact
holds no bit, and decoding it gives the empty string, not the input. -/
theorem fse_single_symbol (S : Methods.StdSort) (b : Byte) (n : Nat) :
    compress S (List.replicate (n + 1) b) = ⟨[], [(b, ⟨b, []⟩)], 0⟩ ∧
    decompress [] [(b, ⟨b, []⟩)] 0 = [] ∧
    ([] : List Byte) ≠ List.replicate (n + 1) b := by
  have htable : Methods.buildEncodingTable S (List.replicate (n + 1) b)
      = [(b, ⟨b, []⟩)] := by
    obtain ⟨f, hf⟩ := fse_countFrequencies_replicate_aux b n (addSize 0 1)
    have hc : Methods.countFrequencies (List.replicate (n + 1) b) = [(b, f)] := by
      simp only [Methods.countFrequencies, List.replicate_succ, List.foldl_cons, charMapModify]
      exact hf
    have hsort : S.sort [(⟨b, f⟩ : Symbol)] = [⟨b, f⟩] := List.perm_singleton.mp (S.perm _)
    simp only [Methods.buildEncodingTable, hc, List.map_cons, List.map_nil, hsort,
      List.length_singleton]
    have hw : Methods.ceilLog2 1 = 0 := by decide
    simp only [hw, Methods.assignCodes, charMapModify, Methods.binaryCode, List.range_zero,
      List.map_nil]
  refine ⟨?_, ?_, by simp⟩
  · have hbits : (List.replicate (n + 1) b).foldl
        (fun s c => s ++ codeOf [(b, ⟨b, []⟩)] c) [] = [] := by
      apply fse_encode_empty_codes
      intro c hc
      have := List.eq_of_mem_replicate hc
      subst this
      simp [codeOf, mapFind]
    simp only [compress, htable, hbits]
    rfl
  · rfl

end FSE
namespace FSE

namespace Methods

theorem find_range_min (p : Nat → Bool) :
    ∀ (n w : Nat), (List.range n).find? p = some w → ∀ v, v < w → p v = false := by
  intro n
  induction n with
  | zero => intro w h; simp at h
  | succ n ih =>
    intro w h v hv
    rw [List.range_succ, List.find?_append] at h
    cases hf : (List.range n).find? p with
    | some w0 =>
      rw [hf] at h
      simp only [Option.or, Option.some.injEq] at h
      subst h
      exact ih w0 hf v hv
    | none =>
      rw [hf] at h
      simp only [Option.or] at h
      have hw : w = n := by
        have := List.mem_of_find?_eq_some h
        simpa using this
      rw [List.find?_eq_none] at hf
      have := hf v (List.mem_range.mpr (by omega))
      simpa using this

/-- The loop bound `std::ceil(std::log2(n))` is the ceiling of the base-2 logarithm. -/
theorem ceilLog2_eq_clog (n : Nat) : ceilLog2 n = Nat.clog 2 n := by
  by_cases hn : n = 0
  · subst hn
    simp [ceilLog2]
  · apply Nat.le_antisymm
    · by_contra hlt
      have hlt2 : Nat.clog 2 n < ceilLog2 n := by omega
      have hle : n ≤ 2 ^ Nat.clog 2 n := Nat.le_pow_clog (by decide) n
      unfold ceilLog2 at hlt2
      cases hf : (List.range n).find? (fun w => decide (n ≤ 2 ^ w)) with
      | none =>
        rw [hf] at hlt2
        simp at hlt2
      | some w =>
        rw [hf] at hlt2
        simp only [Option.getD_some] at hlt2
        have := find_range_min _ n w hf (Nat.clog 2 n) hlt2
        simp only [decide_eq_false_iff_not] at this
        exact this hle
    · exact (Nat.le_pow_iff_clog_le (by decide)).mp (ceilLog2_spec n (by omega))

theorem assignCodes_sorted (width : Nat) (syms : List Symbol) :
    ∀ (i0 : Nat) (table : EncodingTable), KeysSorted table →
      KeysSorted (assignCodes width syms i0 table) := by
  induction syms with
  | nil => intro i0 table h; exact h
  | cons s rest ih =>
    intro i0 table h
    unfold assignCodes
    exact ih _ _ (keysSorted_charMapModify _ _ table s.character h)

theorem assignCodes_character (width : Nat) (syms : List Symbol) :
    ∀ (i0 : Nat) (table : EncodingTable) (p : Byte × EncodedSymbol),
      p ∈ assignCodes width syms i0 table → p ∈ table ∨ p.2.character = p.1 := by
  induction syms with
  | nil => intro i0 table p h; exact Or.inl h
  | cons s rest ih =>
    intro i0 table p h
    unfold assignCodes at h
    rcases ih (i0 + 1) _ p h with h1 | h1
    · rcases mem_charMapModify _ _ _ _ _ h1 with h2 | ⟨v, h2⟩
      · exact Or.inl h2
      · right
        rw [h2]
    · exact Or.inr h1

/-- The keys of the frequency table are the bytes of the input, each once. -/
theorem countFrequencies_keys_perm (input : List Byte) :
    ((countFrequencies input).map Prod.fst).Perm input.dedup := by
  have hsorted : KeysSorted (countFrequencies input) :=
    keysSorted_foldl _ _ input [] List.Pairwise.nil
  apply (List.perm_ext_iff_of_nodup (keysSorted_nodup _ hsorted) (List.nodup_dedup input)).mpr
  intro c
  rw [List.mem_dedup]
  constructor
  · intro hc
    obtain ⟨v, hv⟩ := mapFind_isSome_of_mem_keys _ c hc
    have := (isSome_mapFind_foldl (fun v => addSize v 1) 0 input [] c).mp
      (by unfold countFrequencies at hv; rw [hv]; rfl)
    simpa [mapFind] using this
  · exact countFrequencies_keys input c

end Methods

/-- C23: for every `std::sort` (whatever order it gives symbols of equal frequency) and
every input, with `n` the number of distinct byte values in it (the length of
`input.dedup`), `FSE::Methods::buildEncodingTable(input)` has exactly those `n` bytes
as keys, each once; the character field of every entry is its key; every code has the
length `ceil(log2 n)` (so the empty code when `n = 1`); and no two symbols share a code.
For the empty input (`n = 0`) the table is empty. -/
theorem fse_table_shape (S : Methods.StdSort) (input : List Byte) :
    (∀ c, c ∈ (Methods.buildEncodingTable S input).map Prod.fst ↔ c ∈ input) ∧
    ((Methods.buildEncodingTable S input).map Prod.fst).Nodup ∧
    (Methods.buildEncodingTable S input).length = input.dedup.length ∧
    (∀ p ∈ Methods.buildEncodingTable S input,
      p.2.character = p.1 ∧ p.2.code.length = Nat.clog 2 input.dedup.length) ∧
    (input.dedup.length = 1 → ∀ p ∈ Methods.buildEncodingTable S input, p.2.code = []) ∧
    (∀ p ∈ Methods.buildEncodingTable S input, ∀ q ∈ Methods.buildEncodingTable S input,
      p.1 ≠ q.1 → p.2.code ≠ q.2.code) := by
  have hkeysperm := Methods.countFrequencies_keys_perm input
  have hsortedTable : KeysSorted (Methods.buildEncodingTable S input) :=
    Methods.assignCodes_sorted _ _ 0 [] List.Pairwise.nil
  have hnodup := keysSorted_nodup _ hsortedTable
  revert hnodup
  unfold Methods.buildEncodingTable
  simp only
  generalize hsorted : S.sort
    ((Methods.countFrequencies input).map (fun p => (⟨p.1, p.2⟩ : Symbol))) = sorted
  intro hnodup
  have hperm : sorted.Perm
      ((Methods.countFrequencies input).map (fun p => (⟨p.1, p.2⟩ : Symbol))) := by
    rw [← hsorted]
    exact S.perm _
  have hcharsperm : (sorted.map Symbol.character).Perm input.dedup := by
    have h1 := hperm.map Symbol.character
    rw [List.map_map] at h1
    exact h1.trans hkeysperm
  have hlen : sorted.length = input.dedup.length := by
    have := hcharsperm.length_eq
    simpa using this
  have hchars : ∀ c, c ∈ sorted.map Symbol.character ↔ c ∈ input := by
    intro c
    rw [hcharsperm.mem_iff, List.mem_dedup]
  have hmem : ∀ p ∈ Methods.assignCodes (Methods.ceilLog2 sorted.length) sorted 0 [],
      ∃ j, j < sorted.length ∧
        p.2.code = Methods.binaryCode j (Methods.ceilLog2 sorted.length) ∧
        (sorted.map Symbol.character).getD j 0 = p.1 := by
    intro p hp
    rcases Methods.assignCodes_mem _ sorted 0 [] p hp with h0 | ⟨j, hj, hc, hk⟩
    · simp at h0
    · exact ⟨j, hj, by simpa using hc, hk⟩
  have hkeys : ∀ c, c ∈ (Methods.assignCodes (Methods.ceilLog2 sorted.length) sorted 0
      []).map Prod.fst ↔ c ∈ input := by
    intro c
    constructor
    · intro hc
      obtain ⟨p, hp, hpc⟩ := List.mem_map.mp hc
      obtain ⟨j, hj, _, hk⟩ := hmem p hp
      rw [← hpc, ← hk, ← hchars]
      rw [List.getD_eq_getElem?_getD, List.getElem?_eq_getElem (by simpa using hj)]
      exact List.getElem_mem _
    · intro hc
      obtain ⟨s, hs⟩ := Methods.assignCodes_find (Methods.ceilLog2 sorted.length) sorted 0 [] c
        (Or.inl ((hchars c).mpr hc))
      exact List.mem_map.mpr ⟨_, mapFind_mem _ _ _ hs, rfl⟩
  have hwidth : ∀ p ∈ Methods.assignCodes (Methods.ceilLog2 sorted.length) sorted 0 [],
      p.2.code.length = Nat.clog 2 input.dedup.length := by
    intro p hp
    obtain ⟨j, _, hc, _⟩ := hmem p hp
    rw [hc, Methods.binaryCode_length, Methods.ceilLog2_eq_clog, hlen]
  refine ⟨hkeys, hnodup, ?_, ?_, ?_, ?_⟩
  · have hp : ((Methods.assignCodes (Methods.ceilLog2 sorted.length) sorted 0 []).map
        Prod.fst).Perm input.dedup := by
      apply (List.perm_ext_iff_of_nodup hnodup (List.nodup_dedup input)).mpr
      intro c
      rw [hkeys c, List.mem_dedup]
    have := hp.length_eq
    simpa using this
  · intro p hp
    refine ⟨?_, hwidth p hp⟩
    rcases Methods.assignCodes_character _ sorted 0 [] p hp with h0 | h1
    · simp at h0
    · exact h1
  · intro h1 p hp
    have := hwidth p hp
    rw [h1] at this
    simp only [Nat.clog_one_right] at this
    exact List.length_eq_zero.mp this
  · intro p hp q hq hpq hcode
    obtain ⟨j, hj, hc, hk⟩ := hmem p hp
    obtain ⟨j', hj', hc', hk'⟩ := hmem q hq
    have hpow := Methods.ceilLog2_spec sorted.length (by omega)
    rw [hc, hc'] at hcode
    have := Methods.binaryCode_inj j j' _ (by omega) (by omega) hcode
    subst this
    exact hpq (hk.symm.trans hk')

/-- Witness of `fse_table_shape` on "ABB" with the sort that keeps symbols of equal
frequency in their order: the table has as many entries as the input has distinct
bytes. -/
theorem fse_table_shape_witness :
    (Methods.buildEncodingTable Methods.stableSort [65, 66, 66]).length
      = ([65, 66, 66] : List Byte).dedup.length :=
  (fse_table_shape Methods.stableSort [65, 66, 66]).2.2.1

end FSE
namespace FSE

namespace Methods

/-- While no counter wraps, the frequency table counts the occurrences of each byte. -/
theorem fse_countFrequencies_value (text : List Byte) :
    ∀ (m : List (Byte × Nat)), KeysSorted m → ∀ b : Byte,
      (mapFind m b).getD 0 + text.count b < 2 ^ 64 →
      (mapFind (text.foldl (charMapModify (fun v => addSize v 1) 0) m) b).getD 0 =
        (mapFind m b).getD 0 + text.count b := by
  induction text with
  | nil => intro m _ b _; simp
  | cons a t ih =>
    intro m hm b hb
    rw [List.foldl_cons]
    by_cases hba : b = a
    · subst hba
      rw [List.count_cons_self] at hb ⊢
      have hstep : (mapFind (charMapModify (fun v => addSize v 1) 0 m b) b).getD 0
          = (mapFind m b).getD 0 + 1 := by
        rw [mapFind_charMapModify_sorted _ _ m b hm]
        simp only [Option.getD_some]
        exact addSize_eq_add (by omega)
      rw [ih _ (keysSorted_charMapModify _ _ m b hm) b (by rw [hstep]; omega), hstep]
      omega
    · rw [List.count_cons_of_ne hba] at hb ⊢
      have hstep := mapFind_charMapModify_ne (fun v => addSize v 1) 0 m a b hba
      rw [ih _ (keysSorted_charMapModify _ _ m a hm) b (by rw [hstep]; exact hb), hstep]

/-- Every pair of the frequency table of an input shorter than `2 ^ 64` bytes holds a
byte and the number of its occurrences. -/
theorem fse_countFrequencies_mem (input : List Byte) (hlen : input.length < 2 ^ 64)
    (p : Byte × Nat) (hp : p ∈ countFrequencies input) : p.2 = input.count p.1 := by
  have hsorted : KeysSorted (countFrequencies input) :=
    keysSorted_foldl _ _ input [] List.Pairwise.nil
  have hfind := (mem_iff_mapFind_of_sorted _ hsorted p.1 p.2).mp hp
  have hcount : input.count p.1 ≤ input.length := List.count_le_length _ _
  have hval := fse_countFrequencies_value input [] List.Pairwise.nil p.1
    (by simp only [mapFind, Option.getD_none]; omega)
  unfold countFrequencies at hfind
  rw [hfind] at hval
  simpa [mapFind] using hval

theorem assignCodes_untouched (width : Nat) (syms : List Symbol) :
    ∀ (i0 : Nat) (table : EncodingTable) (c : Byte), c ∉ syms.map Symbol.character →
      mapFind (assignCodes width syms i0 table) c = mapFind table c := by
  induction syms with
  | nil => intro i0 table c _; rfl
  | cons s rest ih =>
    intro i0 table c hc
    simp only [List.map_cons, List.mem_cons, not_or] at hc
    unfold assignCodes
    rw [ih _ _ c hc.2]
    exact mapFind_charMapModify_ne _ _ table s.character c hc.1

/-- With pairwise distinct characters, the symbol at position `j` of the list gets the
code of rank `i0 + j`. -/
theorem assignCodes_exact (width : Nat) (syms : List Symbol) :
    (syms.map Symbol.character).Nodup →
    ∀ (i0 : Nat) (table : EncodingTable) (j : Nat), j < syms.length →
      mapFind (assignCodes width syms i0 table) ((syms.map Symbol.character).getD j 0)
        = some ⟨(syms.map Symbol.character).getD j 0, binaryCode (i0 + j) width⟩ := by
  induction syms with
  | nil => intro _ i0 table j hj; simp at hj
  | cons s rest ih =>
    intro hnd i0 table j hj
    simp only [List.map_cons, List.nodup_cons] at hnd
    unfold assignCodes
    cases j with
    | zero =>
      simp only [List.map_cons, List.getD_cons_zero, Nat.add_zero]
      rw [assignCodes_untouched width rest _ _ s.character hnd.1]
      obtain ⟨v, hv⟩ := mapFind_charMapModify_self
        (fun _ => (⟨s.character, binaryCode i0 width⟩ : EncodedSymbol)) ⟨0, []⟩ table s.character
      exact hv
    | succ j =>
      simp only [List.map_cons, List.getD_cons_succ]
      have := ih hnd.2 (i0 + 1)
        (charMapModify (fun _ => (⟨s.character, binaryCode i0 width⟩ : EncodedSymbol))
          ⟨0, []⟩ table s.character) j (by simpa using hj)
      rw [this]
      congr 3
      omega

/-- The code of rank `r` is the `width`-bit binary representation of `r`, least
significant bit first. -/
theorem binaryCode_bits (r width bit : Nat) (h : bit < width) :
    (binaryCode r width).getD bit 0 = bitChar (r.testBit bit) := by
  unfold binaryCode
  rw [List.getD_eq_getElem?_getD, List.getElem?_map, List.getElem?_range h]
  simp only [Option.map_some', Option.getD_some, bitChar, Nat.testBit, Nat.land_comm 1]
  by_cases hb : (r >>> bit) &&& 1 = 0
  · simp [hb]
  · simp [hb]

end Methods

/-- The symbols in rank order: a list without repetition of the distinct bytes of the
input, in which frequencies do not increase. -/
theorem sortSymbols_facts (S : Methods.StdSort) (input : List Byte)
    (hlen : input.length < 2 ^ 64) :
    ((S.sort ((Methods.countFrequencies input).map
        (fun p => (⟨p.1, p.2⟩ : Symbol)))).map Symbol.character).Perm input.dedup ∧
    (∀ s ∈ S.sort ((Methods.countFrequencies input).map
        (fun p => (⟨p.1, p.2⟩ : Symbol))), s.frequency = input.count s.character) ∧
    (S.sort ((Methods.countFrequencies input).map
        (fun p => (⟨p.1, p.2⟩ : Symbol)))).Pairwise
      (fun a b => a.frequency ≥ b.frequency) := by
  have hperm : (S.sort ((Methods.countFrequencies input).map
      (fun p => (⟨p.1, p.2⟩ : Symbol)))).Perm
      ((Methods.countFrequencies input).map (fun p => (⟨p.1, p.2⟩ : Symbol))) :=
    S.perm _
  refine ⟨?_, ?_, ?_⟩
  · have h1 := hperm.map Symbol.character
    rw [List.map_map] at h1
    exact h1.trans (Methods.countFrequencies_keys_perm input)
  · intro s hs
    obtain ⟨p, hp, hps⟩ := List.mem_map.mp (hperm.mem_iff.mp hs)
    rw [← hps]
    exact Methods.fse_countFrequencies_mem input hlen p hp
  · exact S.sorted _

/-- C32: for every `std::sort` (whatever order it gives symbols of equal frequency) and
every input (shorter than `2 ^ 64` bytes, so that no frequency counter wraps), with `n`
the number of distinct byte values, `buildEncodingTable` assigns the ranks `0 .. n - 1`
bijectively to the distinct symbols (`order` lists each distinct byte once, by rank); the
code of the symbol of rank `r` is the `ceil(log2 n)`-bit binary representation of `r`
written least-significant bit first; and a symbol with strictly greater frequency has a
strictly smaller rank than a symbol with smaller frequency. -/
theorem fse_rank_codes (S : Methods.StdSort) (input : List Byte)
    (hlen : input.length < 2 ^ 64) :
    ∃ order : List Byte,
      order.Perm input.dedup ∧
      (∀ r, r < order.length →
        mapFind (Methods.buildEncodingTable S input) (order.getD r 0)
          = some ⟨order.getD r 0,
              Methods.binaryCode r (Nat.clog 2 input.dedup.length)⟩) ∧
      (∀ r, (Methods.binaryCode r (Nat.clog 2 input.dedup.length)).length
          = Nat.clog 2 input.dedup.length ∧
        ∀ bit, bit < Nat.clog 2 input.dedup.length →
          (Methods.binaryCode r (Nat.clog 2 input.dedup.length)).getD bit 0
            = bitChar (r.testBit bit)) ∧
      (∀ r s, r < order.length → s < order.length →
        input.count (order.getD s 0) < input.count (order.getD r 0) → r < s) := by
  obtain ⟨hcharsperm, hfreq, hpair⟩ := sortSymbols_facts S input hlen
  unfold Methods.buildEncodingTable
  simp only
  generalize S.sort
    ((Methods.countFrequencies input).map (fun p => (⟨p.1, p.2⟩ : Symbol))) = sorted
    at hcharsperm hfreq hpair
  have hlenS : sorted.length = input.dedup.length := by
    have := hcharsperm.length_eq
    simpa using this
  have hnd : (sorted.map Symbol.character).Nodup :=
    hcharsperm.nodup_iff.mpr (List.nodup_dedup input)
  have hget : ∀ r (hr : r < sorted.length),
      (sorted.map Symbol.character).getD r 0 = (sorted.get ⟨r, hr⟩).character := by
    intro r hr
    rw [List.getD_eq_getElem?_getD, List.getElem?_map, List.getElem?_eq_getElem hr]
    rfl
  refine ⟨sorted.map Symbol.character, hcharsperm, ?_, ?_, ?_⟩
  · intro r hr
    have hr2 : r < sorted.length := by simpa using hr
    have := Methods.assignCodes_exact (Methods.ceilLog2 sorted.length) sorted hnd 0 [] r hr2
    rw [Nat.zero_add] at this
    rw [this, Methods.ceilLog2_eq_clog, hlenS]
  · intro r
    exact ⟨Methods.binaryCode_length _ _, fun bit hb => Methods.binaryCode_bits r _ bit hb⟩
  · intro r s hr hs hlt
    have hr2 : r < sorted.length := by simpa using hr
    have hs2 : s < sorted.length := by simpa using hs
    rw [hget r hr2, hget s hs2] at hlt
    rw [← hfreq _ (List.get_mem sorted r hr2), ← hfreq _ (List.get_mem sorted s hs2)] at hlt
    by_contra hge
    rcases Nat.lt_or_eq_of_le (Nat.le_of_not_lt hge) with hsr | hsr
    · have := List.pairwise_iff_get.mp hpair ⟨s, hs2⟩ ⟨r, hr2⟩ hsr
      simp only [ge_iff_le] at this
      omega
    · subst hsr
      exact absurd hlt (Nat.lt_irrefl _)

/-- Witness of `fse_rank_codes` on "ABB", with the sort that keeps symbols of equal
frequency in their order: `B` (twice) has rank 0 and the code "0", `A` (once) has rank 1
and the code "1". -/
theorem fse_rank_codes_witness :
    ([65, 66, 66] : List Byte).length < 2 ^ 64 ∧
    Methods.buildEncodingTable Methods.stableSort [65, 66, 66]
      = [(65, ⟨65, [49]⟩), (66, ⟨66, [48]⟩)] ∧
    ∃ order : List Byte, order.Perm ([65, 66, 66] : List Byte).dedup :=
  ⟨by simp, by decide,
    (fse_rank_codes Methods.stableSort [65, 66, 66] (by simp)).imp (fun _ h => h.1)⟩

end FSE

namespace Huffman

theorem push_length (Q : PriorityQueue) (pq : List HuffmanNode) (x : HuffmanNode) :
    (Q.push pq x).length = pq.length + 1 := by
  simpa using (Q.push_perm pq x).length_eq

theorem pop_some (Q : PriorityQueue) (pq : List HuffmanNode) (h : pq ≠ []) :
    ∃ x c', Q.pop pq = some (x, c') ∧ pq.Perm (x :: c') ∧ c'.length + 1 = pq.length := by
  obtain ⟨x, c', hp, hperm⟩ := Q.pop_perm pq h
  exact ⟨x, c', hp, hperm, by simpa using hperm.length_eq.symm⟩

namespace Methods

/-- The merge loop returns a tree whose leaves are the leaves of the queued trees,
whatever nodes the queue delivers. -/
theorem mergeLoop_leaves (Q : PriorityQueue) : ∀ (fuel : Nat) (pq : List HuffmanNode),
    pq ≠ [] → pq.length ≤ fuel + 1 →
    ∃ root, mergeLoop Q fuel pq = some root ∧
      ∀ d, d ∈ leaves root ↔ ∃ t ∈ pq, d ∈ leaves t := by
  intro fuel
  induction fuel with
  | zero =>
    intro pq hne hlen
    obtain ⟨x, c', hp, hperm, hl⟩ := pop_some Q pq hne
    have h1 : pq.length = 1 := by
      have := List.length_pos.mpr hne
      omega
    have hc : c' = [] := List.length_eq_zero.mp (by omega)
    subst hc
    refine ⟨x, by simp only [mergeLoop, hp, h1, if_true], ?_⟩
    intro d
    constructor
    · intro hd; exact ⟨x, hperm.mem_iff.mpr (List.mem_cons_self _ _), hd⟩
    · rintro ⟨t, ht, hd⟩
      have := hperm.mem_iff.mp ht
      simp only [List.mem_singleton] at this
      rw [← this]; exact hd
  | succ f ih =>
    intro pq hne hlen
    obtain ⟨x, c', hp, hperm, hl⟩ := pop_some Q pq hne
    by_cases h1 : pq.length = 1
    · have hc : c' = [] := List.length_eq_zero.mp (by omega)
      subst hc
      refine ⟨x, by simp only [mergeLoop, hp, h1, if_true], ?_⟩
      intro d
      constructor
      · intro hd; exact ⟨x, hperm.mem_iff.mpr (List.mem_cons_self _ _), hd⟩
      · rintro ⟨t, ht, hd⟩
        have := hperm.mem_iff.mp ht
        simp only [List.mem_singleton] at this
        rw [← this]; exact hd
    · have hc : c' ≠ [] := by
        intro e
        rw [e] at hl
        simp at hl
        omega
      obtain ⟨y, c'', hp2, hperm2, hl2⟩ := pop_some Q c' hc
      have hlen' : (Q.push c'' (.node 0 (wrapInt (x.freq + y.freq)) x y)).length ≤ f + 1 := by
        rw [push_length]
        omega
      have hne' : Q.push c'' (.node 0 (wrapInt (x.freq + y.freq)) x y) ≠ [] := by
        intro e
        have := congrArg List.length e
        rw [push_length] at this
        simp at this
      obtain ⟨root, hr, hleaf⟩ := ih _ hne' hlen'
      refine ⟨root, by simp only [mergeLoop, hp, h1, if_false, hp2]; exact hr, ?_⟩
      intro d
      rw [hleaf d]
      have hmem : ∀ t, t ∈ pq ↔ (t = x ∨ t = y ∨ t ∈ c'') := by
        intro t
        rw [hperm.mem_iff, List.mem_cons, hperm2.mem_iff, List.mem_cons]
      constructor
      · rintro ⟨t, ht, hd⟩
        rcases List.mem_cons.mp ((Q.push_perm _ _).mem_iff.mp ht) with e | ht'
        · subst e
          simp only [leaves, List.mem_append] at hd
          rcases hd with hd | hd
          · exact ⟨x, (hmem x).mpr (Or.inl rfl), hd⟩
          · exact ⟨y, (hmem y).mpr (Or.inr (Or.inl rfl)), hd⟩
        · exact ⟨t, (hmem t).mpr (Or.inr (Or.inr ht')), hd⟩
      · rintro ⟨t, ht, hd⟩
        rcases (hmem t).mp ht with e | e | ht'
        · subst e
          exact ⟨_, (Q.push_perm _ _).mem_iff.mpr (List.mem_cons_self _ _),
            by simp [leaves, hd]⟩
        · subst e
          exact ⟨_, (Q.push_perm _ _).mem_iff.mpr (List.mem_cons_self _ _),
            by simp [leaves, hd]⟩
        · exact ⟨t, (Q.push_perm _ _).mem_iff.mpr (List.mem_cons_of_mem _ ht'), hd⟩

theorem initial_queue_leaves (Q : PriorityQueue) (freqMap : FreqMap) :
    ∀ (pq : List HuffmanNode) (d : Byte),
      (∃ t ∈ freqMap.foldl (fun pq pair => Q.push pq (.leaf pair.1 pair.2)) pq, d ∈ leaves t)
        ↔ (d ∈ freqMap.map Prod.fst ∨ ∃ t ∈ pq, d ∈ leaves t) := by
  induction freqMap with
  | nil => intro pq d; simp
  | cons a rest ih =>
    intro pq d
    simp only [List.foldl_cons]
    rw [ih]
    simp only [List.map_cons, List.mem_cons]
    constructor
    · rintro (h | ⟨t, ht, hd⟩)
      · exact Or.inl (Or.inr h)
      · rcases List.mem_cons.mp ((Q.push_perm _ _).mem_iff.mp ht) with e | ht'
        · subst e
          simp only [leaves, List.mem_singleton] at hd
          exact Or.inl (Or.inl hd)
        · exact Or.inr ⟨t, ht', hd⟩
    · rintro ((h | h) | ⟨t, ht, hd⟩)
      · exact Or.inr ⟨_, (Q.push_perm _ _).mem_iff.mpr (List.mem_cons_self _ _),
          by simp [leaves, h]⟩
      · exact Or.inl h
      · exact Or.inr ⟨t, (Q.push_perm _ _).mem_iff.mpr (List.mem_cons_of_mem _ ht), hd⟩

/-- On a non-empty frequency table `BuildHuffmanTree` returns a tree, and its leaves
hold exactly the keys of the table, whatever nodes the queue delivers. -/
theorem BuildHuffmanTree_leaves (Q : PriorityQueue) (freqMap : FreqMap)
    (hne : freqMap ≠ []) :
    ∃ root, BuildHuffmanTree Q freqMap = some root ∧
      ∀ d, d ∈ leaves root ↔ d ∈ freqMap.map Prod.fst := by
  unfold BuildHuffmanTree
  simp only
  have hq := initial_queue_leaves Q freqMap []
  generalize freqMap.foldl (fun pq pair => Q.push pq (.leaf pair.1 pair.2)) [] = pq at hq
  have hpq : pq ≠ [] := by
    intro e
    subst e
    obtain ⟨a, tl, rest⟩ : ∃ a tl, freqMap = a :: tl := by
      cases freqMap with
      | nil => exact absurd rfl hne
      | cons a rest => exact ⟨a, rest, rfl⟩
    have := (hq a.1).mpr (Or.inl (by rw [rest]; simp))
    simp at this
  obtain ⟨root, hr, hl⟩ := mergeLoop_leaves Q pq.length pq hpq (by omega)
  refine ⟨root, hr, ?_⟩
  intro d
  rw [hl d, hq d]
  simp

/-- After `GenerateCodes` every byte of a leaf has as its code the given prefix followed
by a path of bit characters that ends on a leaf with that byte; other keys are left as
they were. -/
theorem GenerateCodes_spec (t : HuffmanNode) :
    ∀ (code : List Byte) (m : List (Byte × List Byte)) (d : Byte),
      (d ∈ leaves t → ∃ path, followPath t path = some d ∧
        (∀ c ∈ path, c = zeroChar ∨ c = oneChar) ∧
        mapFind (GenerateCodes t code m) d = some (code ++ path)) ∧
      (d ∉ leaves t → mapFind (GenerateCodes t code m) d = mapFind m d) := by
  induction t with
  | leaf data f =>
    intro code m d
    simp only [leaves, List.mem_singleton, GenerateCodes]
    constructor
    · intro hd
      subst hd
      obtain ⟨v, hv⟩ := mapFind_charMapModify_self (fun _ => code) [] m d
      exact ⟨[], rfl, by simp, by simpa using hv⟩
    · intro hd
      exact mapFind_charMapModify_ne _ _ _ _ _ hd
  | node data f l r ihl ihr =>
    intro code m d
    simp only [leaves, List.mem_append, GenerateCodes]
    have hne : oneChar ≠ zeroChar := by decide
    constructor
    · intro hd
      by_cases hr : d ∈ leaves r
      · obtain ⟨path, hp, hb, hf⟩ :=
          (ihr (code ++ [oneChar]) (GenerateCodes l (code ++ [zeroChar]) m) d).1 hr
        refine ⟨oneChar :: path, ?_, ?_, ?_⟩
        · simp only [followPath, hne, if_false]; exact hp
        · intro c hc
          rcases List.mem_cons.mp hc with e | e
          · exact Or.inr e
          · exact hb c e
        · rw [hf]; simp
      · have hl : d ∈ leaves l := by
          rcases hd with h | h
          · exact h
          · exact absurd h hr
        obtain ⟨path, hp, hb, hf⟩ := (ihl (code ++ [zeroChar]) m d).1 hl
        refine ⟨zeroChar :: path, ?_, ?_, ?_⟩
        · simp only [followPath, if_true]; exact hp
        · intro c hc
          rcases List.mem_cons.mp hc with e | e
          · exact Or.inl e
          · exact hb c e
        · rw [(ihr (code ++ [oneChar]) (GenerateCodes l (code ++ [zeroChar]) m) d).2 hr, hf]
          simp
    · intro hd
      have hl : d ∉ leaves l := fun h => hd (Or.inl h)
      have hr : d ∉ leaves r := fun h => hd (Or.inr h)
      rw [(ihr (code ++ [oneChar]) (GenerateCodes l (code ++ [zeroChar]) m) d).2 hr,
        (ihl (code ++ [zeroChar]) m d).2 hl]

end Methods

/-- Walking the decoder along a non-empty path that ends on a leaf emits the byte of
that leaf and returns to the root. -/
theorem huffman_decode_word (root : HuffmanNode) (d : Byte) :
    ∀ (path : List Byte) (cur : HuffmanNode) (result : List Byte),
      path ≠ [] → followPath cur path = some d →
      path.foldl (decodeStep root) (some (result, cur)) = some (result ++ [d], root) := by
  intro path
  induction path with
  | nil => intro cur result h _; exact absurd rfl h
  | cons bit rest ih =>
    intro cur result _ hf
    match cur, hf with
    | .node dn fn l r, hf =>
      simp only [followPath] at hf
      simp only [List.foldl_cons, decodeStep]
      generalize hnext : (if bit = zeroChar then l else r) = next at hf
      have hf' : followPath next rest = some d := by
        rw [← hnext]
        split <;> simp_all
      match next, rest, hf' with
      | .leaf d' f', [], hf' =>
        simp only [followPath, Option.some.injEq] at hf'
        subst hf'
        rfl
      | .node d' f' l' r', b :: rest', hf' =>
        exact ih (.node d' f' l' r') result (by simp) hf'

theorem huffman_encode_acc (codes : List (Byte × List Byte)) (cs : List Byte)
    (acc : List Byte) :
    cs.foldl (fun s c => s ++ codeOf codes c) acc
      = acc ++ cs.foldl (fun s c => s ++ codeOf codes c) [] := by
  induction cs generalizing acc with
  | nil => simp
  | cons a t ih =>
    simp only [List.foldl_cons, List.nil_append]
    rw [ih (acc ++ codeOf codes a), ih (codeOf codes a), List.append_assoc]

theorem huffman_decode_encode (root : HuffmanNode) (codes : List (Byte × List Byte))
    (cs : List Byte)
    (hcs : ∀ c ∈ cs, codeOf codes c ≠ [] ∧ followPath root (codeOf codes c) = some c) :
    ∀ result : List Byte,
      (cs.foldl (fun s c => s ++ codeOf codes c) []).foldl (decodeStep root)
        (some (result, root)) = some (result ++ cs, root) := by
  induction cs with
  | nil => intro result; simp
  | cons a t ih =>
    intro result
    simp only [List.foldl_cons, List.nil_append]
    rw [huffman_encode_acc, List.foldl_append]
    obtain ⟨h1, h2⟩ := hcs a (List.mem_cons_self _ _)
    rw [huffman_decode_word root a _ root result h1 h2,
      ih (fun c hc => hcs c (List.mem_cons_of_mem _ hc)) (result ++ [a])]
    simp

/-- Helper form of the Huffman round trip. -/
theorem huffman_decode_compress (Q : PriorityQueue) (text : List Byte)
    (h : ∃ a ∈ text, ∃ b ∈ text, a ≠ b) :
    ∃ c, compress Q text = some c ∧ c.freqMap = countFrequencies text ∧
      decompress Q c.byteVec c.freqMap c.bitLength = some text := by
  have hkeys : ∀ c ∈ text, c ∈ (countFrequencies text).map Prod.fst := fun c hc =>
    foldl_charMapModify_keys _ _ text [] c (Or.inl hc)
  have hne : countFrequencies text ≠ [] := by
    obtain ⟨a, ha, _⟩ := h
    intro e
    have := hkeys a ha
    rw [e] at this
    simp at this
  obtain ⟨root, hroot, hleaves⟩ := Methods.BuildHuffmanTree_leaves Q _ hne
  have hspec : ∀ c ∈ text, ∃ path, followPath root path = some c ∧
      (∀ b ∈ path, b = zeroChar ∨ b = oneChar) ∧
      codeOf (Methods.GenerateCodes root [] []) c = path := by
    intro c hc
    obtain ⟨path, hp, hb, hf⟩ :=
      (Methods.GenerateCodes_spec root [] [] c).1 ((hleaves c).mpr (hkeys c hc))
    exact ⟨path, hp, hb, by simp [codeOf, hf]⟩
  have hnode : ∀ path, followPath root path ≠ none → path ≠ [] := by
    obtain ⟨a, ha, b, hb, hab⟩ := h
    have hla := (hleaves a).mpr (hkeys a ha)
    have hlb := (hleaves b).mpr (hkeys b hb)
    intro path hp e
    subst e
    match root, hla, hlb, hp with
    | .leaf d f, hla, hlb, _ =>
      simp only [leaves, List.mem_singleton] at hla hlb
      exact hab (hla.trans hlb.symm)
    | .node _ _ _ _, _, _, hp => simp [followPath] at hp
  have hcs : ∀ c ∈ text, codeOf (Methods.GenerateCodes root [] []) c ≠ [] ∧
      followPath root (codeOf (Methods.GenerateCodes root [] []) c) = some c := by
    intro c hc
    obtain ⟨path, hp, _, hcode⟩ := hspec c hc
    rw [hcode]
    exact ⟨hnode path (by rw [hp]; simp), hp⟩
  have hbits : ∀ (l : List Byte), (∀ c ∈ l, c ∈ text) →
      ∀ b ∈ l.foldl (fun s c => s ++ codeOf (Methods.GenerateCodes root [] []) c) [],
        b = zeroChar ∨ b = oneChar := by
    intro l
    induction l with
    | nil => intro _ b hb; simp at hb
    | cons a t ih =>
      intro hl b hb
      simp only [List.foldl_cons, List.nil_append] at hb
      rw [huffman_encode_acc, List.mem_append] at hb
      rcases hb with hb | hb
      · obtain ⟨path, _, hbp, hcode⟩ := hspec a (hl a (List.mem_cons_self _ _))
        rw [hcode] at hb
        exact hbp b hb
      · exact ih (fun c hc => hl c (List.mem_cons_of_mem _ hc)) b hb
  have hcomp : compress Q text = some
      ⟨(Methods.PackBitsToBytes
          (text.foldl (fun s ch => s ++ codeOf (Methods.GenerateCodes root [] []) ch) [])).1,
        countFrequencies text,
        (Methods.PackBitsToBytes
          (text.foldl (fun s ch => s ++ codeOf (Methods.GenerateCodes root [] []) ch) [])).2⟩ := by
    simp only [compress, hroot]
  refine ⟨_, hcomp, rfl, ?_⟩
  simp only [decompress, hroot]
  rw [huffman_unpack_pack _ (hbits text (fun c hc => hc)),
    huffman_decode_encode root _ text hcs []]
  simp

/-- While no `int` counter wraps, the frequency table counts the occurrences of each
byte. -/
theorem countFrequencies_value (text : List Byte) :
    ∀ (m : FreqMap), KeysSorted m → ∀ b : Byte,
      0 ≤ (mapFind m b).getD 0 →
      (mapFind m b).getD 0 + (text.count b : Int) < 2 ^ 31 →
      (mapFind (text.foldl (charMapModify (fun v => wrapInt (v + 1)) 0) m) b).getD 0 =
        (mapFind m b).getD 0 + (text.count b : Int) := by
  induction text with
  | nil => intro m _ b _ _; simp
  | cons a t ih =>
    intro m hm b h0 hb
    rw [List.foldl_cons]
    by_cases hba : b = a
    · subst hba
      rw [List.count_cons_self] at hb ⊢
      push_cast at hb ⊢
      have hstep : (mapFind (charMapModify (fun v => wrapInt (v + 1)) 0 m b) b).getD 0
          = (mapFind m b).getD 0 + 1 := by
        rw [mapFind_charMapModify_sorted _ _ m b hm]
        simp only [Option.getD_some]
        exact wrapInt_eq (by omega) (by omega)
      rw [ih _ (keysSorted_charMapModify _ _ m b hm) b (by rw [hstep]; omega)
        (by rw [hstep]; omega), hstep]
      omega
    · rw [List.count_cons_of_ne hba] at hb ⊢
      have hstep := mapFind_charMapModify_ne (fun v => wrapInt (v + 1)) 0 m a b hba
      rw [ih _ (keysSorted_charMapModify _ _ m a hm) b (by rw [hstep]; exact h0)
        (by rw [hstep]; exact hb), hstep]

theorem countFrequencies_sorted (text : List Byte) : KeysSorted (countFrequencies text) :=
  keysSorted_foldl _ _ text [] List.Pairwise.nil

/-- Every pair of the frequency table of a text shorter than `2 ^ 31` bytes holds a byte
and the number of its occurrences. -/
theorem countFrequencies_mem (text : List Byte) (hlen : text.length < 2 ^ 31)
    (p : Byte × Int) (hp : p ∈ countFrequencies text) : p.2 = (text.count p.1 : Int) := by
  have hfind := (mem_iff_mapFind_of_sorted _ (countFrequencies_sorted text) p.1 p.2).mp hp
  have hcount : text.count p.1 ≤ text.length := List.count_le_length _ _
  have hval := countFrequencies_value text [] List.Pairwise.nil p.1
    (by simp [mapFind]) (by simp only [mapFind, Option.getD_none]; omega)
  unfold countFrequencies at hfind
  rw [hfind] at hval
  simpa [mapFind] using hval

/-- C2: for every queue discipline, and every text with at least two distinct byte values
that is shorter than `2 ^ 31` bytes (so that no `int` frequency overflows),
`Huffman::compress(text)` returns an artifact `c`, whose frequency table holds the
occurrence counts, and `Huffman::decompress(c.byteVec, c.freqMap, c.bitLength)`, which
rebuilds the tree from the carried frequency table and walks `bitLength` bits, returns
the text. -/
theorem huffman_roundtrip (Q : PriorityQueue) (text : List Byte)
    (h : ∃ a ∈ text, ∃ b ∈ text, a ≠ b) (hlen : text.length < 2 ^ 31) :
    ∃ c, compress Q text = some c ∧
      (∀ p ∈ c.freqMap, p.2 = (text.count p.1 : Int)) ∧
      decompress Q c.byteVec c.freqMap c.bitLength = some text := by
  obtain ⟨c, hc, hf, hd⟩ := huffman_decode_compress Q text h
  refine ⟨c, hc, ?_, hd⟩
  intro p hp
  rw [hf] at hp
  exact countFrequencies_mem text hlen p hp

/-- Witness of `huffman_roundtrip` on "AAAAABBBCC", with the queue that delivers nodes of
equal frequency first-in first-out. -/
theorem huffman_roundtrip_witness :
    (∃ a ∈ ([65, 65, 65, 65, 65, 66, 66, 66, 67, 67] : List Byte),
      ∃ b ∈ ([65, 65, 65, 65, 65, 66, 66, 66, 67, 67] : List Byte), a ≠ b) ∧
    ([65, 65, 65, 65, 65, 66, 66, 66, 67, 67] : List Byte).length < 2 ^ 31 ∧
    ∃ c, compress fifoQueue [65, 65, 65, 65, 65, 66, 66, 66, 67, 67] = some c ∧
      (∀ p ∈ c.freqMap,
        p.2 = (([65, 65, 65, 65, 65, 66, 66, 66, 67, 67] : List Byte).count p.1 : Int)) ∧
      decompress fifoQueue c.byteVec c.freqMap c.bitLength
        = some [65, 65, 65, 65, 65, 66, 66, 66, 67, 67] :=
  ⟨⟨65, by simp, 66, by simp, by decide⟩, by simp,
   huffman_roundtrip fifoQueue _ ⟨65, by simp, 66, by simp, by decide⟩ (by simp)⟩

/-- The frequency table of a text made of copies of one byte has one entry, which holds
the number of copies while that is below `2 ^ 31`. -/
theorem countFrequencies_replicate (b : Byte) (n : Nat) :
    ∃ f : Int, countFrequencies (List.replicate (n + 1) b) = [(b, f)] ∧
      ((n : Int) + 1 < 2 ^ 31 → f = (n : Int) + 1) := by
  have key : ∀ (k : Nat) (v : Int), ∃ f : Int,
      (List.replicate k b).foldl (charMapModify (fun v => wrapInt (v + 1)) 0) [(b, v)]
        = [(b, f)] ∧ (0 ≤ v → v + (k : Int) < 2 ^ 31 → f = v + (k : Int)) := by
    intro k
    induction k with
    | zero => intro v; exact ⟨v, by simp, fun _ _ => by simp⟩
    | succ k ih =>
      intro v
      obtain ⟨f, hf, hv⟩ := ih (wrapInt (v + 1))
      refine ⟨f, ?_, ?_⟩
      · simp only [List.replicate_succ, List.foldl_cons, charMapModify, if_true]
        exact hf
      · intro h0 hb
        push_cast at hb
        have hw : wrapInt (v + 1) = v + 1 := wrapInt_eq (by omega) (by omega)
        rw [hw] at hv
        rw [hv (by omega) (by omega)]
        push_cast
        omega
  obtain ⟨f, hf, hv⟩ := key n (wrapInt (0 + 1))
  refine ⟨f, ?_, ?_⟩
  · simp only [countFrequencies, List.replicate_succ, List.foldl_cons, charMapModify]
    exact hf
  · intro hb
    have hw : wrapInt (0 + 1) = 1 := by decide
    rw [hw] at hv
    rw [hv (by omega) (by omega)]
    omega

theorem huffman_encode_empty_codes (codes : List (Byte × List Byte)) (text : List Byte)
    (h : ∀ c ∈ text, codeOf codes c = []) :
    text.foldl (fun s ch => s ++ codeOf codes ch) [] = [] := by
  induction text with
  | nil => rfl
  | cons a t ih =>
    simp only [List.foldl_cons, h a (List.mem_cons_self _ _), List.append_nil]
    exact ih (fun c hc => h c (List.mem_cons_of_mem _ hc))

/-- A table with one entry gives the tree that is the leaf of that entry, whatever the
queue. -/
theorem BuildHuffmanTree_single (Q : PriorityQueue) (b : Byte) (f : Int) :
    Methods.BuildHuffmanTree Q [(b, f)] = some (.leaf b f) := by
  have hpush : Q.push [] (.leaf b f) = [.leaf b f] :=
    List.perm_singleton.mp (Q.push_perm [] (.leaf b f))
  obtain ⟨x, c', hp, hperm, _⟩ := pop_some Q [.leaf b f] (by simp)
  have hx : x = .leaf b f := by
    have := hperm.mem_iff.mpr (List.mem_cons_self x c')
    simpa using this
  simp only [Methods.BuildHuffmanTree, List.foldl_cons, List.foldl_nil, hpush,
    List.length_singleton, Methods.mergeLoop, hp, if_true, hx]

/-- C15, the code on a text of one repeated byte, for every queue discipline: the
frequency table has one entry `(b, f)` (`f` is the number of copies while that is below
`2 ^ 31`), the tree is a single leaf, the byte gets the empty code, the artifact holds no
bit, and decoding it gives the empty string, not the text. -/
theorem huffman_single_symbol (Q : PriorityQueue) (b : Byte) (n : Nat) :
    ∃ f : Int, countFrequencies (List.replicate (n + 1) b) = [(b, f)] ∧
      ((n : Int) + 1 < 2 ^ 31 → f = (n : Int) + 1) ∧
      Methods.BuildHuffmanTree Q (countFrequencies (List.replicate (n + 1) b))
        = some (.leaf b f) ∧
      Methods.GenerateCodes (.leaf b f) [] [] = [(b, [])] ∧
      compress Q (List.replicate (n + 1) b) = some ⟨[], [(b, f)], 0⟩ ∧
      decompress Q [] [(b, f)] 0 = some [] ∧
      (some [] : Option (List Byte)) ≠ some (List.replicate (n + 1) b) := by
  obtain ⟨f, hf, hv⟩ := countFrequencies_replicate b n
  have htree := BuildHuffmanTree_single Q b f
  have hcodes : Methods.GenerateCodes (.leaf b f) [] [] = [(b, [])] := by
    simp [Methods.GenerateCodes, charMapModify]
  refine ⟨f, hf, hv, by rw [hf]; exact htree, hcodes, ?_, ?_, by simp⟩
  · have hbits : (List.replicate (n + 1) b).foldl
        (fun s ch => s ++ codeOf [(b, [])] ch) [] = [] := by
      apply huffman_encode_empty_codes
      intro c hc
      have := List.eq_of_mem_replicate hc
      subst this
      simp [codeOf, mapFind]
    simp only [compress, hf, htree, hcodes, hbits]
    rfl
  · simp only [decompress, htree]
    rfl

/-- C17, the code on the empty input, for every queue discipline: the frequency table is
empty, `BuildHuffmanTree` enters its loop with an empty queue and calls `top()` on it,
which is undefined; neither `Huffman::compress` nor `Huffman::decompress` of the empty
artifact returns. -/
theorem huffman_empty_input (Q : PriorityQueue) :
    countFrequencies [] = [] ∧ Q.pop [] = none ∧ Methods.BuildHuffmanTree Q [] = none ∧
    compress Q [] = none ∧ decompress Q [] [] 0 = none := by
  have htree : Methods.BuildHuffmanTree Q [] = none := by
    simp only [Methods.BuildHuffmanTree, List.foldl_nil, List.length_nil, Methods.mergeLoop,
      Q.pop_nil]
  refine ⟨rfl, Q.pop_nil, htree, ?_, ?_⟩
  · have h0 : countFrequencies [] = [] := rfl
    simp only [compress, h0, htree]
  · simp only [decompress, htree]

/-- On a non-empty text `Huffman::compress` returns, and the frequency table of the result
is the one counted from the text. -/
theorem compress_freqMap (Q : PriorityQueue) (text : List Byte) (hne : text ≠ []) :
    ∃ c, compress Q text = some c ∧ c.freqMap = countFrequencies text := by
  have hfm : countFrequencies text ≠ [] := by
    intro e
    obtain ⟨a, ha⟩ := List.exists_mem_of_ne_nil text hne
    have := (isSome_mapFind_foldl (fun v : Int => wrapInt (v + 1)) 0 text [] a).mpr
      (Or.inl ha)
    unfold countFrequencies at e
    rw [e] at this
    exact Bool.noConfusion this
  obtain ⟨root, hroot, _⟩ := Methods.BuildHuffmanTree_leaves Q (countFrequencies text) hfm
  unfold compress
  simp only [hroot]
  exact ⟨_, rfl, rfl⟩

/-- C21: for every queue discipline and every text shorter than `2 ^ 31` bytes (so that
no `int` counter overflows), the frequency table that `Huffman::compress(text)` fills
(and returns whenever it returns, which it does on every non-empty text) maps each byte
value occurring in the text to its number of occurrences and has no other keys: its pairs
are the `(b, n)` with `b` in the text and `n` the number of occurrences of `b`, no key
occurs twice, and the values sum to the text length; "AAAAABBBCC" gives
`{A:5, B:3, C:2}`. -/
theorem huffman_freqMap_counts (Q : PriorityQueue) (text : List Byte)
    (hlen : text.length < 2 ^ 31) :
    (∀ (b : Byte) (n : Int), (b, n) ∈ countFrequencies text ↔
      (b ∈ text ∧ n = (text.count b : Int))) ∧
    ((countFrequencies text).map Prod.fst).Nodup ∧
    ((countFrequencies text).map Prod.snd).sum = (text.length : Int) ∧
    (∀ c, compress Q text = some c → c.freqMap = countFrequencies text) ∧
    (text ≠ [] → ∃ c, compress Q text = some c ∧ c.freqMap = countFrequencies text) ∧
    (∃ c, compress Q [65, 65, 65, 65, 65, 66, 66, 66, 67, 67] = some c ∧
      c.freqMap = [(65, 5), (66, 3), (67, 2)]) := by
  have hsorted := countFrequencies_sorted text
  have hkeys : ∀ b, b ∈ (countFrequencies text).map Prod.fst ↔ b ∈ text := by
    intro b
    constructor
    · intro hb
      obtain ⟨v, hv⟩ := mapFind_isSome_of_mem_keys _ b hb
      have := (isSome_mapFind_foldl (fun v : Int => wrapInt (v + 1)) 0 text [] b).mp
        (by unfold countFrequencies at hv; rw [hv]; rfl)
      simpa [mapFind] using this
    · intro hb
      exact foldl_charMapModify_keys _ _ text [] b (Or.inl hb)
  refine ⟨?_, keysSorted_nodup _ hsorted, ?_, ?_, compress_freqMap Q text, ?_⟩
  · intro b n
    constructor
    · intro hp
      have hb : b ∈ text := (hkeys b).mp (List.mem_map.mpr ⟨(b, n), hp, rfl⟩)
      exact ⟨hb, countFrequencies_mem text hlen (b, n) hp⟩
    · rintro ⟨hb, hn⟩
      obtain ⟨p, hp, hpb⟩ := List.mem_map.mp ((hkeys b).mpr hb)
      have hval := countFrequencies_mem text hlen p hp
      have e : p = (b, n) := by
        apply Prod.ext
        · exact hpb
        · simp only
          rw [hval, hn, hpb]
      rw [← e]
      exact hp
  · have hperm : ((countFrequencies text).map Prod.fst).Perm text.dedup := by
      apply (List.perm_ext_iff_of_nodup (keysSorted_nodup _ hsorted)
        (List.nodup_dedup text)).mpr
      intro b
      rw [hkeys b, List.mem_dedup]
    have hvals : (countFrequencies text).map Prod.snd
        = ((countFrequencies text).map Prod.fst).map (fun b => (text.count b : Int)) := by
      rw [List.map_map]
      apply List.map_congr_left
      intro p hp
      exact countFrequencies_mem text hlen p hp
    rw [hvals, (hperm.map _).sum_eq]
    have h1 : (text.dedup.map (fun b => (text.count b : Int)))
        = (text.dedup.map (fun b => text.count b)).map (fun (k : Nat) => (k : Int)) := by
      rw [List.map_map]
      rfl
    rw [h1, ← Nat.cast_list_sum, List.sum_map_count_dedup_eq_length]
  · intro c hc
    unfold compress at hc
    simp only at hc
    split at hc
    · exact Option.noConfusion hc
    · simp only [Option.some.injEq] at hc
      rw [← hc]
  · obtain ⟨c, hc, hf⟩ :=
      compress_freqMap Q [65, 65, 65, 65, 65, 66, 66, 66, 67, 67] (by simp)
    exact ⟨c, hc, hf.trans (by decide)⟩

/-- Witness of `huffman_freqMap_counts` on "AAAAABBBCC", with the queue that delivers
nodes of equal frequency first-in first-out. -/
theorem huffman_freqMap_counts_witness :
    ([65, 65, 65, 65, 65, 66, 66, 66, 67, 67] : List Byte).length < 2 ^ 31 ∧
    countFrequencies [65, 65, 65, 65, 65, 66, 66, 66, 67, 67]
      = [(65, 5), (66, 3), (67, 2)] ∧
    ((countFrequencies [65, 65, 65, 65, 65, 66, 66, 66, 67, 67]).map Prod.snd).sum
      = (([65, 65, 65, 65, 65, 66, 66, 66, 67, 67] : List Byte).length : Int) :=
  ⟨by simp, by decide,
    (huffman_freqMap_counts fifoQueue [65, 65, 65, 65, 65, 66, 66, 66, 67, 67]
      (by simp)).2.2.1⟩

/-- A path that ends on a leaf cannot be extended to another path that ends on a leaf. -/
theorem followPath_extend (t : HuffmanNode) :
    ∀ (path ext : List Byte) (d1 d2 : Byte), followPath t path = some d1 →
      followPath t (path ++ ext) = some d2 → ext = [] ∧ d1 = d2 := by
  induction t with
  | leaf data f =>
    intro path ext d1 d2 h1 h2
    cases path with
    | nil =>
      cases ext with
      | nil =>
        simp only [followPath, Option.some.injEq] at h1
        simp only [List.append_nil, followPath, Option.some.injEq] at h2
        exact ⟨rfl, h1.symm.trans h2⟩
      | cons b rest => simp [followPath] at h2
    | cons b rest => simp [followPath] at h1
  | node data f l r ihl ihr =>
    intro path ext d1 d2 h1 h2
    cases path with
    | nil => simp [followPath] at h1
    | cons b rest =>
      simp only [followPath, List.cons_append] at h1 h2
      by_cases hb : b = zeroChar
      · rw [if_pos hb] at h1 h2
        exact ihl rest ext d1 d2 h1 h2
      · rw [if_neg hb] at h1 h2
        exact ihr rest ext d1 d2 h1 h2

theorem GenerateCodes_sorted (t : HuffmanNode) :
    ∀ (code : List Byte) (m : List (Byte × List Byte)), KeysSorted m →
      KeysSorted (Methods.GenerateCodes t code m) := by
  induction t with
  | leaf data f =>
    intro code m hm
    exact keysSorted_charMapModify _ _ m data hm
  | node data f l r ihl ihr =>
    intro code m hm
    unfold Methods.GenerateCodes
    exact ihr _ _ (ihl _ _ hm)

/-- The entries of the code table generated from a tree: an entry pairs the byte of a leaf
with a path that ends on that leaf. -/
theorem GenerateCodes_entries (root : HuffmanNode) (p : Byte × List Byte)
    (hp : p ∈ Methods.GenerateCodes root [] []) :
    p.1 ∈ leaves root ∧ followPath root p.2 = some p.1 := by
  have hsorted := GenerateCodes_sorted root [] [] List.Pairwise.nil
  have hfind := (mem_iff_mapFind_of_sorted _ hsorted p.1 p.2).mp hp
  have hspec := Methods.GenerateCodes_spec root [] [] p.1
  by_cases hl : p.1 ∈ leaves root
  · obtain ⟨path, hpath, _, hcode⟩ := hspec.1 hl
    rw [hfind] at hcode
    simp only [List.nil_append, Option.some.injEq] at hcode
    rw [hcode]
    exact ⟨hl, hpath⟩
  · have := hspec.2 hl
    rw [hfind] at this
    simp [mapFind] at this

theorem leafSum_natAbs_le (t : HuffmanNode) : (leafSum t).natAbs ≤ leafAbs t := by
  induction t with
  | leaf d f => exact Nat.le_refl _
  | node d f l r ihl ihr =>
    simp only [leafSum, leafAbs]
    exact Nat.le_trans (Int.natAbs_add_le _ _) (Nat.add_le_add ihl ihr)

theorem pop_perm_of_some (Q : PriorityQueue) (pq : List HuffmanNode) (x : HuffmanNode)
    (c' : List HuffmanNode) (h : Q.pop pq = some (x, c')) : pq.Perm (x :: c') := by
  have hne : pq ≠ [] := by
    intro e
    rw [e, Q.pop_nil] at h
    exact Option.noConfusion h
  obtain ⟨x0, c0, hp, hperm⟩ := Q.pop_perm pq hne
  rw [h] at hp
  simp only [Option.some.injEq, Prod.mk.injEq] at hp
  rw [hp.1, hp.2]
  exact hperm

/-- While the absolute values of the leaf frequencies add up to less than `2 ^ 31`, no
`int sum = left->freq + right->freq` of the merge loop overflows: the frequency of the
root is the sum of the frequencies of all leaves. -/
theorem mergeLoop_freq (Q : PriorityQueue) : ∀ (fuel : Nat) (pq : List HuffmanNode)
    (root : HuffmanNode), Methods.mergeLoop Q fuel pq = some root →
    (∀ t ∈ pq, t.freq = leafSum t) → (pq.map leafAbs).sum < 2 ^ 31 →
    root.freq = leafSum root ∧ leafSum root = (pq.map leafSum).sum := by
  intro fuel
  induction fuel with
  | zero =>
    intro pq root hm hfreq _
    unfold Methods.mergeLoop at hm
    cases hp : Q.pop pq with
    | none => rw [hp] at hm; exact Option.noConfusion hm
    | some r =>
      obtain ⟨x, c'⟩ := r
      rw [hp] at hm
      simp only at hm
      split at hm
      · rename_i h1
        simp only [Option.some.injEq] at hm
        have hperm := pop_perm_of_some Q pq x c' hp
        have hc : c' = [] := List.length_eq_zero.mp (by
          have := hperm.length_eq
          simp only [List.length_cons] at this
          omega)
        subst hc
        subst hm
        refine ⟨hfreq x (hperm.mem_iff.mpr (List.mem_cons_self _ _)), ?_⟩
        rw [(hperm.map leafSum).sum_eq]
        simp
      · exact Option.noConfusion hm
  | succ f ih =>
    intro pq root hm hfreq hb
    unfold Methods.mergeLoop at hm
    cases hp : Q.pop pq with
    | none => rw [hp] at hm; exact Option.noConfusion hm
    | some r =>
      obtain ⟨x, c'⟩ := r
      rw [hp] at hm
      simp only at hm
      have hperm := pop_perm_of_some Q pq x c' hp
      split at hm
      · rename_i h1
        simp only [Option.some.injEq] at hm
        have hc : c' = [] := List.length_eq_zero.mp (by
          have := hperm.length_eq
          simp only [List.length_cons] at this
          omega)
        subst hc
        subst hm
        refine ⟨hfreq x (hperm.mem_iff.mpr (List.mem_cons_self _ _)), ?_⟩
        rw [(hperm.map leafSum).sum_eq]
        simp
      · cases hp2 : Q.pop c' with
        | none => rw [hp2] at hm; exact Option.noConfusion hm
        | some r2 =>
          obtain ⟨y, c''⟩ := r2
          rw [hp2] at hm
          simp only at hm
          have hperm2 := pop_perm_of_some Q c' y c'' hp2
          have hall : pq.Perm (x :: y :: c'') := hperm.trans (List.Perm.cons x hperm2)
          have hx := hfreq x (hall.mem_iff.mpr (by simp))
          have hy := hfreq y (hall.mem_iff.mpr (by simp))
          have habs : (pq.map leafAbs).sum = leafAbs x + (leafAbs y + (c''.map leafAbs).sum) := by
            rw [(hall.map leafAbs).sum_eq]
            simp
          have hsumI : (pq.map leafSum).sum = leafSum x + (leafSum y + (c''.map leafSum).sum) := by
            rw [(hall.map leafSum).sum_eq]
            simp
          have hxa := leafSum_natAbs_le x
          have hya := leafSum_natAbs_le y
          have hw : wrapInt (x.freq + y.freq) = leafSum x + leafSum y := by
            rw [hx, hy]
            apply wrapInt_eq <;> omega
          have hpush := Q.push_perm c'' (.node 0 (wrapInt (x.freq + y.freq)) x y)
          have hres := ih _ root hm
            (by
              intro t ht
              rcases List.mem_cons.mp (hpush.mem_iff.mp ht) with e | ht'
              · rw [e]
                simp only [HuffmanNode.freq, leafSum]
                exact hw
              · exact hfreq t (hall.mem_iff.mpr (by simp [ht'])))
            (by
              rw [(hpush.map leafAbs).sum_eq]
              simp only [List.map_cons, List.sum_cons, leafAbs]
              omega)
          refine ⟨hres.1, ?_⟩
          rw [hres.2, (hpush.map leafSum).sum_eq, hsumI]
          simp only [List.map_cons, List.sum_cons, leafSum]
          omega

theorem initial_queue_perm (Q : PriorityQueue) (freqMap : FreqMap) :
    ∀ (pq : List HuffmanNode),
      (freqMap.foldl (fun pq pair => Q.push pq (.leaf pair.1 pair.2)) pq).Perm
        (pq ++ freqMap.map (fun pair => HuffmanNode.leaf pair.1 pair.2)) := by
  induction freqMap with
  | nil => intro pq; simp
  | cons a rest ih =>
    intro pq
    simp only [List.foldl_cons, List.map_cons]
    refine (ih _).trans ?_
    refine ((Q.push_perm pq (.leaf a.1 a.2)).append_right _).trans ?_
    simp only [List.cons_append]
    exact List.perm_middle.symm

/-- While the absolute values of the frequencies of a table add up to less than `2 ^ 31`,
the tree `BuildHuffmanTree` returns carries at its root the sum of the frequencies. -/
theorem BuildHuffmanTree_freq (Q : PriorityQueue) (freqMap : FreqMap) (root : HuffmanNode)
    (hroot : Methods.BuildHuffmanTree Q freqMap = some root)
    (hsum : (freqMap.map (fun p => p.2.natAbs)).sum < 2 ^ 31) :
    root.freq = (freqMap.map Prod.snd).sum := by
  unfold Methods.BuildHuffmanTree at hroot
  simp only at hroot
  have hperm := initial_queue_perm Q freqMap []
  simp only [List.nil_append] at hperm
  generalize freqMap.foldl (fun pq pair => Q.push pq (.leaf pair.1 pair.2)) [] = pq
    at hroot hperm
  have h1 : ∀ t ∈ pq, t.freq = leafSum t := by
    intro t ht
    obtain ⟨p, _, hp⟩ := List.mem_map.mp (hperm.mem_iff.mp ht)
    rw [← hp]
    rfl
  have h2 : (pq.map leafAbs).sum = (freqMap.map (fun p => p.2.natAbs)).sum := by
    rw [(hperm.map leafAbs).sum_eq, List.map_map]
    rfl
  have h3 : (pq.map leafSum).sum = (freqMap.map Prod.snd).sum := by
    rw [(hperm.map leafSum).sum_eq, List.map_map]
    rfl
  obtain ⟨hr1, hr2⟩ := mergeLoop_freq Q pq.length pq root hroot h1 (by rw [h2]; exact hsum)
  rw [hr1, hr2, h3]

/-- C22: for every queue discipline and every frequency table with at least two symbols
whose frequencies are small enough for no `int` sum to overflow (their absolute values
add up to less than `2 ^ 31`), `BuildHuffmanTree` returns a tree, whose root carries the
sum of the frequencies, and the code table `GenerateCodes` produces on it has exactly the
symbols of the table as keys (each once), every code is non-empty, and the code of one
symbol is never a prefix of (in particular, never equal to) the code of another symbol. -/
theorem huffman_codes_prefix_free (Q : PriorityQueue) (freqMap : FreqMap)
    (h : ∃ a ∈ freqMap.map Prod.fst, ∃ b ∈ freqMap.map Prod.fst, a ≠ b)
    (hsum : (freqMap.map (fun p => p.2.natAbs)).sum < 2 ^ 31) :
    ∃ root, Methods.BuildHuffmanTree Q freqMap = some root ∧
      root.freq = (freqMap.map Prod.snd).sum ∧
      (∀ d, d ∈ (Methods.GenerateCodes root [] []).map Prod.fst ↔ d ∈ freqMap.map Prod.fst) ∧
      ((Methods.GenerateCodes root [] []).map Prod.fst).Nodup ∧
      (∀ p ∈ Methods.GenerateCodes root [] [], p.2 ≠ []) ∧
      (∀ p ∈ Methods.GenerateCodes root [] [], ∀ q ∈ Methods.GenerateCodes root [] [],
        p.1 ≠ q.1 → ¬ p.2 <+: q.2) := by
  obtain ⟨a, ha, b, hb, hab⟩ := h
  have hne : freqMap ≠ [] := by
    intro e
    rw [e] at ha
    simp at ha
  obtain ⟨root, hroot, hleaves⟩ := Methods.BuildHuffmanTree_leaves Q freqMap hne
  have hsorted := GenerateCodes_sorted root [] [] List.Pairwise.nil
  refine ⟨root, hroot, BuildHuffmanTree_freq Q freqMap root hroot hsum, ?_,
    keysSorted_nodup _ hsorted, ?_, ?_⟩
  · intro d
    rw [← hleaves d]
    constructor
    · intro hd
      obtain ⟨p, hp, hpd⟩ := List.mem_map.mp hd
      rw [← hpd]
      exact (GenerateCodes_entries root p hp).1
    · intro hd
      obtain ⟨path, _, _, hcode⟩ := (Methods.GenerateCodes_spec root [] [] d).1 hd
      exact List.mem_map.mpr ⟨_, mapFind_mem _ _ _ hcode, rfl⟩
  · intro p hp hnil
    have hpath := (GenerateCodes_entries root p hp).2
    rw [hnil] at hpath
    cases root with
    | leaf data f =>
      have h1 := (hleaves a).mpr ha
      have h2 := (hleaves b).mpr hb
      simp only [leaves, List.mem_singleton] at h1 h2
      exact hab (h1.trans h2.symm)
    | node data f l r => simp [followPath] at hpath
  · intro p hp q hq hpq hpre
    obtain ⟨ext, hext⟩ := hpre
    have h1 := (GenerateCodes_entries root p hp).2
    have h2 := (GenerateCodes_entries root q hq).2
    rw [← hext] at h2
    exact hpq (followPath_extend root p.2 ext p.1 q.1 h1 h2).2

/-- Witness of `huffman_codes_prefix_free` on the table `{A:5, B:3, C:2}`, with the queue
that delivers nodes of equal frequency first-in first-out. -/
theorem huffman_codes_prefix_free_witness :
    (∃ a ∈ ([(65, 5), (66, 3), (67, 2)] : FreqMap).map Prod.fst,
      ∃ b ∈ ([(65, 5), (66, 3), (67, 2)] : FreqMap).map Prod.fst, a ≠ b) ∧
    (([(65, 5), (66, 3), (67, 2)] : FreqMap).map (fun p => p.2.natAbs)).sum < 2 ^ 31 ∧
    ∃ root, Methods.BuildHuffmanTree fifoQueue [(65, 5), (66, 3), (67, 2)] = some root ∧
      ∀ p ∈ Methods.GenerateCodes root [] [], ∀ q ∈ Methods.GenerateCodes root [] [],
        p.1 ≠ q.1 → ¬ p.2 <+: q.2 :=
  ⟨⟨65, by simp, 66, by simp, by decide⟩, by decide,
    (huffman_codes_prefix_free fifoQueue [(65, 5), (66, 3), (67, 2)]
      ⟨65, by simp, 66, by simp, by decide⟩ (by decide)).imp
      (fun _ hr => ⟨hr.1, hr.2.2.2.2.2⟩)⟩

end Huffman

namespace LZ77

theorem matchWhile_offset_le (input : List Byte) (i j : Nat) :
    ∀ (fuel length : Nat) (best : Nat × Nat), best.1 ≤ i →
      (matchWhile input i j fuel length best).1 ≤ i := by
  intro fuel
  induction fuel with
  | zero => intro length best hb; exact hb
  | succ f ih =>
    intro length best hb
    unfold matchWhile
    split
    · apply ih
      split
      · simp
      · exact hb
    · exact hb

theorem findLongestMatch_offset_le (input : List Byte) (i searchStart w : Nat) :
    (findLongestMatch input i searchStart w 0).2 ≤ i := by
  unfold findLongestMatch
  simp only
  have key : ∀ (l : List Nat) (best : Nat × Nat), best.1 ≤ i →
      (l.foldl (fun best j => matchWhile input i j (input.length - i) 0 best) best).1 ≤ i := by
    intro l
    induction l with
    | nil => intro best hb; exact hb
    | cons a t ih =>
      intro best hb
      simp only [List.foldl_cons]
      exact ih _ (matchWhile_offset_le input i a _ 0 best hb)
  exact key _ _ (Nat.zero_le _)

/-- Every token of `LZ77::compress` has an offset and a length that are at most the input
length, and its literal is the zero byte or a byte of the input. -/
theorem compressLoop_tokens (input : List Byte) (w : Nat) :
    ∀ (fuel i : Nat), ∀ t ∈ compressLoop input w fuel i,
      t.offset ≤ input.length ∧ t.length ≤ input.length ∧ (t.next = 0 ∨ t.next ∈ input) := by
  intro fuel
  induction fuel with
  | zero => intro i t ht; simp [compressLoop] at ht
  | succ f ih =>
    intro i t ht
    unfold compressLoop at ht
    split at ht
    · rename_i hi
      simp only [List.mem_cons] at ht
      rcases ht with e | ht
      · have h1 := findLongestMatch_offset_le input i (if i < w then 0 else i - w) w
        have h2 := findLongestMatch_le input i (if i < w then 0 else i - w) w 0 (by omega)
        generalize findLongestMatch input i (if i < w then 0 else i - w) w 0 = m at e h1 h2
        subst e
        refine ⟨by simp only; omega, by simp only; omega, ?_⟩
        simp only
        by_cases hlt : i + m.1 < input.length
        · rw [if_pos hlt]
          exact Or.inr (charAt_mem hlt)
        · rw [if_neg hlt]
          exact Or.inl rfl
      · exact ih _ t ht
    · simp at ht

theorem compress_ne_nil (input : List Byte) (w : Nat) (h : input ≠ []) :
    compress input w ≠ [] := by
  unfold compress
  have hpos : 0 < input.length := List.length_pos.mpr h
  obtain ⟨n, hn⟩ : ∃ n, input.length = n + 1 := ⟨input.length - 1, by omega⟩
  rw [hn]
  unfold compressLoop
  rw [if_pos (by omega)]
  simp

namespace Utils

/-- The text of a non-empty token list holds a comma and the digit that starts it. -/
theorem joinTokens_two_bytes (ts : List Token) (h : ts ≠ []) :
    ∃ a ∈ joinTokens ts, ∃ b ∈ joinTokens ts, a ≠ b := by
  match ts, h with
  | t :: rest, _ =>
    have hsub : ∀ c ∈ serializeToken t, c ∈ joinTokens (t :: rest) := by
      intro c hc
      cases rest with
      | nil => simpa [joinTokens] using hc
      | cons t' r => simp [joinTokens, hc]
    have hd := to_string_digits t.offset
    obtain ⟨d, ds, hds⟩ : ∃ d ds, to_string t.offset = d :: ds := by
      cases hts : to_string t.offset with
      | nil => exact absurd hts (to_string_ne_nil _)
      | cons d ds => exact ⟨d, ds, rfl⟩
    have hdm : d ∈ serializeToken t := by simp [serializeToken, hds]
    have hcm : (44 : Byte) ∈ serializeToken t := by simp [serializeToken]
    refine ⟨d, hsub d hdm, 44, hsub 44 hcm, ?_⟩
    intro e
    have := hd d (by rw [hds]; exact List.mem_cons_self _ _)
    rw [e] at this
    revert this; decide

end Utils

/-- The tokens of `LZ77::compress`, printed and parsed again, are unchanged. -/
theorem parse_print_tokens (x : List Byte) (w : Nat) (hlen : x.length < 2 ^ 64)
    (htext : (Utils.vectorToString (compress x w)).length < 2 ^ 64)
    (hsemi : ∀ b ∈ x, b ≠ 59) :
    Utils.stringToVector (Utils.vectorToString (compress x w)) = some (compress x w) := by
  apply Utils.stringToVector_vectorToString _ htext
  intro t ht
  obtain ⟨h1, h2, h3⟩ := compressLoop_tokens x w _ _ t ht
  refine ⟨?_, by omega, by omega⟩
  rcases h3 with h3 | h3
  · rw [h3]; decide
  · exact hsemi _ h3

end LZ77

namespace Deflate

/-- C7: for every queue discipline, every non-empty input `x` without a zero byte and
without a `';'` byte, and every window size `w`, the input being a `std::string` (shorter
than `2 ^ 64`) and the token text being shorter than `2 ^ 31` bytes (so that no `int`
frequency of the Huffman stage overflows), `Deflate::compress(x, w)` returns an artifact
`c` and `Deflate::decompress(c.byteVec, c.freqMap, c.bitLength)` returns `x`. -/
theorem deflate_roundtrip (Q : Huffman.PriorityQueue) (x : List Byte) (w : Nat)
    (hne : x ≠ []) (hlen : x.length < 2 ^ 64)
    (htext : (LZ77.Utils.vectorToString (LZ77.compress x w)).length < 2 ^ 31)
    (hnz : ∀ b ∈ x, b ≠ 0) (hsemi : ∀ b ∈ x, b ≠ 59) :
    ∃ c, compress Q x w = some c ∧
      decompress Q c.byteVec c.freqMap c.bitLength = some x := by
  have htwo : ∃ a ∈ LZ77.Utils.vectorToString (LZ77.compress x w),
      ∃ b ∈ LZ77.Utils.vectorToString (LZ77.compress x w), a ≠ b := by
    rw [LZ77.Utils.vectorToString_eq_join]
    exact LZ77.Utils.joinTokens_two_bytes _ (LZ77.compress_ne_nil x w hne)
  obtain ⟨c, hc, _, hd⟩ := Huffman.huffman_decode_compress Q _ htwo
  refine ⟨c, hc, ?_⟩
  simp only [decompress, hd, LZ77.parse_print_tokens x w hlen (by omega) hsemi]
  have hrt : LZ77.decompress (LZ77.compress x w) = x := by
    have := LZ77.decompress_compressLoop x w hlen hnz x.length 0 (by omega)
    simpa [LZ77.decompress, LZ77.compress] using this
  rw [hrt]

/-- Witness of `deflate_roundtrip` on "AB,AB," with window size 4, with the queue that
delivers nodes of equal frequency first-in first-out. -/
theorem deflate_roundtrip_witness :
    ([65, 66, 44, 65, 66, 44] : List Byte) ≠ [] ∧
    ([65, 66, 44, 65, 66, 44] : List Byte).length < 2 ^ 64 ∧
    (LZ77.Utils.vectorToString (LZ77.compress [65, 66, 44, 65, 66, 44] 4)).length < 2 ^ 31 ∧
    (∀ b ∈ ([65, 66, 44, 65, 66, 44] : List Byte), b ≠ 0) ∧
    (∀ b ∈ ([65, 66, 44, 65, 66, 44] : List Byte), b ≠ 59) ∧
    ∃ c, compress Huffman.fifoQueue [65, 66, 44, 65, 66, 44] 4 = some c ∧
      decompress Huffman.fifoQueue c.byteVec c.freqMap c.bitLength
        = some [65, 66, 44, 65, 66, 44] :=
  ⟨by decide, by simp, by decide, by decide, by decide,
   deflate_roundtrip Huffman.fifoQueue _ 4 (by decide) (by simp) (by decide) (by decide)
     (by decide)⟩

end Deflate

namespace Zstandard

/-- C8: for every `std::sort` (whatever order it gives symbols of equal frequency), every
input `x`, the empty one included, without a zero byte and without a `';'` byte (the
input and the token text being `std::string`s, so shorter than `2 ^ 64`), and every
window size `w`, `Zstandard::decompress` of the three fields of
`Zstandard::compress(x, w)` returns `x`. -/
theorem zstandard_roundtrip (S : FSE.Methods.StdSort) (x : List Byte) (w : Nat)
    (hlen : x.length < 2 ^ 64)
    (htext : (LZ77.Utils.vectorToString (LZ77.compress x w)).length < 2 ^ 64)
    (hnz : ∀ b ∈ x, b ≠ 0) (hsemi : ∀ b ∈ x, b ≠ 59) :
    decompress (compress S x w).byteVec (compress S x w).encodingTable
      (compress S x w).bitLength = some x := by
  by_cases hne : x = []
  · subst hne
    have h0 : LZ77.compress [] w = [] := rfl
    have h1 : LZ77.Utils.vectorToString [] = [] := rfl
    have hs : S.sort [] = [] := List.Perm.eq_nil (S.perm [])
    have htab : FSE.Methods.buildEncodingTable S [] = [] := by
      simp only [FSE.Methods.buildEncodingTable, FSE.Methods.countFrequencies,
        List.foldl_nil, List.map_nil, hs, FSE.Methods.assignCodes]
    simp only [compress, h0, h1, FSE.compress, htab]
    decide
  · have htwo : ∃ a ∈ LZ77.Utils.vectorToString (LZ77.compress x w),
        ∃ b ∈ LZ77.Utils.vectorToString (LZ77.compress x w), a ≠ b := by
      rw [LZ77.Utils.vectorToString_eq_join]
      exact LZ77.Utils.joinTokens_two_bytes _ (LZ77.compress_ne_nil x w hne)
    have hfse := FSE.fse_decode_compress S _ htwo
    simp only [decompress, compress, hfse, LZ77.parse_print_tokens x w hlen htext hsemi]
    have hrt : LZ77.decompress (LZ77.compress x w) = x := by
      have := LZ77.decompress_compressLoop x w hlen hnz x.length 0 (by omega)
      simpa [LZ77.decompress, LZ77.compress] using this
    rw [hrt]

/-- Witness of `zstandard_roundtrip` on "AB,AB," with window size 4, with the sort that
keeps symbols of equal frequency in their order. -/
theorem zstandard_roundtrip_witness :
    ([65, 66, 44, 65, 66, 44] : List Byte).length < 2 ^ 64 ∧
    (LZ77.Utils.vectorToString (LZ77.compress [65, 66, 44, 65, 66, 44] 4)).length < 2 ^ 64 ∧
    (∀ b ∈ ([65, 66, 44, 65, 66, 44] : List Byte), b ≠ 0) ∧
    (∀ b ∈ ([65, 66, 44, 65, 66, 44] : List Byte), b ≠ 59) ∧
    decompress (compress FSE.Methods.stableSort [65, 66, 44, 65, 66, 44] 4).byteVec
      (compress FSE.Methods.stableSort [65, 66, 44, 65, 66, 44] 4).encodingTable
      (compress FSE.Methods.stableSort [65, 66, 44, 65, 66, 44] 4).bitLength
      = some [65, 66, 44, 65, 66, 44] :=
  ⟨by simp, by decide, by decide, by decide,
   zstandard_roundtrip FSE.Methods.stableSort _ 4 (by simp) (by decide) (by decide)
     (by decide)⟩

end Zstandard
namespace LZW

theorem initialDictionary_find_aux (n : Nat) (s : List Byte) (v : Int)
    (h : mapFind ((List.range n).foldl (fun d (i : Nat) => mapSet d [toChar i] (i : Int)) [])
      s = some v) : ∃ i, i < n ∧ s = [toChar i] ∧ v = (i : Int) := by
  induction n with
  | zero => simp [mapFind] at h
  | succ n ih =>
    rw [List.range_succ, List.foldl_append] at h
    simp only [List.foldl_cons, List.foldl_nil, mapFind_mapSet] at h
    split at h
    · rename_i e
      simp only [Option.some.injEq] at h
      exact ⟨n, by omega, e, h.symm⟩
    · obtain ⟨i, hi, h1, h2⟩ := ih h
      exact ⟨i, by omega, h1, h2⟩

theorem initialDictionary_single_aux (n i : Nat) (hi : i < n) :
    ∃ v, mapFind ((List.range n).foldl (fun d (i : Nat) => mapSet d [toChar i] (i : Int)) [])
      [toChar i] = some v := by
  induction n with
  | zero => omega
  | succ n ih =>
    rw [List.range_succ, List.foldl_append]
    simp only [List.foldl_cons, List.foldl_nil, mapFind_mapSet]
    split
    · exact ⟨_, rfl⟩
    · rename_i hne
      have : i < n := by
        rcases Nat.lt_succ_iff_lt_or_eq.mp hi with h | h
        · exact h
        · subst h; exact absurd rfl hne
      exact ih this

theorem initialDecodeDictionary_find_aux (n : Nat) (v : Int) (s : List Byte)
    (h : mapFind ((List.range n).foldl (fun d (i : Nat) => mapSet d (i : Int) [toChar i]) [])
      v = some s) : ∃ i, i < n ∧ v = (i : Int) ∧ s = [toChar i] := by
  induction n with
  | zero => simp [mapFind] at h
  | succ n ih =>
    rw [List.range_succ, List.foldl_append] at h
    simp only [List.foldl_cons, List.foldl_nil, mapFind_mapSet] at h
    split at h
    · rename_i e
      simp only [Option.some.injEq] at h
      exact ⟨n, by omega, e, h.symm⟩
    · obtain ⟨i, hi, h1, h2⟩ := ih h
      exact ⟨i, by omega, h1, h2⟩

theorem initialDecodeDictionary_get_aux (n i : Nat) (hi : i < n) :
    mapFind ((List.range n).foldl (fun d (i : Nat) => mapSet d (i : Int) [toChar i]) [])
      (i : Int) = some [toChar i] := by
  induction n with
  | zero => omega
  | succ n ih =>
    rw [List.range_succ, List.foldl_append]
    simp only [List.foldl_cons, List.foldl_nil, mapFind_mapSet]
    split
    · rename_i e
      have : i = n := by exact_mod_cast e
      rw [this]
    · rename_i hne
      have : i < n := by
        rcases Nat.lt_succ_iff_lt_or_eq.mp hi with h | h
        · exact h
        · subst h; exact absurd rfl hne
      exact ih this

theorem toChar_val (b : Byte) : toChar b.val = b := by
  apply Fin.ext
  simp only [toChar]
  exact Nat.mod_eq_of_lt b.isLt

/-- The encoder's initial dictionary holds every one-byte string. -/
theorem initialDictionary_single (b : Byte) : ∃ v, mapFind initialDictionary [b] = some v := by
  have := initialDictionary_single_aux 256 b.val b.isLt
  rw [toChar_val] at this
  exact this

/-- An entry of the encoder's initial dictionary is a one-byte string under a code below
256 that the decoder's initial dictionary maps back to it. -/
theorem initialDictionary_find (s : List Byte) (v : Int)
    (h : mapFind initialDictionary s = some v) :
    s.length = 1 ∧ v < 256 ∧ mapFind initialDecodeDictionary v = some s := by
  obtain ⟨i, hi, h1, h2⟩ := initialDictionary_find_aux 256 s v h
  subst h1; subst h2
  exact ⟨rfl, by omega, initialDecodeDictionary_get_aux 256 i hi⟩

theorem initialDecodeDictionary_find (v : Int) (s : List Byte)
    (h : mapFind initialDecodeDictionary v = some s) : v < 256 := by
  obtain ⟨i, hi, h1, _⟩ := initialDecodeDictionary_find_aux 256 v s h
  omega

theorem mapIndex_of_find {κ ν : Type} [DecidableEq κ] (m : List (κ × ν)) (key : κ) (d v : ν)
    (h : mapFind m key = some v) : mapIndex m key d = (v, m) := by
  simp only [mapIndex, h]

theorem decompressWith_snoc (D : List (Int × List Byte)) (codes : List Int) (k code : Int)
    (h : codes ≠ []) :
    decompressWith D (codes ++ [k]) code = decompressStep (decompressWith D codes code) k := by
  match codes, h with
  | k0 :: rest, _ =>
    simp only [decompressWith, List.cons_append, List.foldl_append, List.foldl_cons,
      List.foldl_nil]

theorem charAt_append_left (w : List Byte) (c : Byte) (h : w ≠ []) :
    charAt (w ++ [c]) 0 = charAt w 0 := by
  unfold charAt
  exact getD_append_left w [c] 0 0 (List.length_pos.mpr h)

/-- The decoder, one entry behind the encoder, reads the code the encoder emits for the
pending string as that string: from its table, or by the rule for the code that is about
to be assigned. -/
theorem lzw_decode_emit (E : List (List Byte × Int)) (dst : DecompressState)
    (w : List Byte) (v : Int) (hq : dst.current ≠ [])
    (hv : mapFind E w = some v)
    (h1 : ∀ s v, mapFind E s = some v →
      (v < dst.code ∧ mapFind dst.dictionary v = some s) ∨
      (v = dst.code ∧ s = dst.current ++ [charAt w 0]))
    (h2 : ∀ v s, mapFind dst.dictionary v = some s → v < dst.code) :
    decompressStep (.ok dst) v = .ok (advance dst w) := by
  rcases h1 w v hv with ⟨_, hf⟩ | ⟨hc, hs⟩
  · simp only [decompressStep, hf]
  · have hnone : mapFind dst.dictionary v = none := by
      cases hm : mapFind dst.dictionary v with
      | none => rfl
      | some s => have := h2 v s hm; omega
    have hfirst : charAt w 0 = charAt dst.current 0 := by
      have := congrArg (fun l => charAt l 0) hs
      simp only at this
      rw [charAt_append_left _ _ hq] at this
      exact this
    have hentry : dst.current ++ [charAt dst.current 0] = w := by
      rw [← hfirst]; exact hs.symm
    subst hc
    simp only [decompressStep, hnone, if_true, hentry]

theorem lzw_inv_init : Inv [] ⟨[], initialDictionary, [], 256⟩ :=
  ⟨initialDictionary_single, ⟨by simp, by simp⟩, Or.inl ⟨rfl, rfl, rfl, rfl, by simp⟩⟩

theorem lzw_singles_mapSet (E : List (List Byte × Int)) (key : List Byte) (n : Int)
    (h : ∀ b : Byte, ∃ v, mapFind E [b] = some v) :
    ∀ b : Byte, ∃ v, mapFind (mapSet E key n) [b] = some v := by
  intro b
  rw [mapFind_mapSet]
  split
  · exact ⟨n, rfl⟩
  · exact h b

/-- The state the encoder and the decoder reach when a code is emitted in front of the
byte `c`. -/
theorem lzw_inv_emit (p : List Byte) (E : List (List Byte × Int)) (codes : List Int)
    (w : List Byte) (n : Int) (c : Byte) (v : Int) (dst : DecompressState)
    (hsing : ∀ b : Byte, ∃ v, mapFind E [b] = some v)
    (hdec : decompressWith initialDecodeDictionary (codes ++ [v]) 256
      = .ok (advance dst w))
    (hp : dst.result ++ w = p) (hw : w ≠ []) (hn : dst.code + 1 = n)
    (hnb : 256 ≤ n ∧ n ≤ 256 + (p.length : Int) ∧ n < 2 ^ 31)
    (h1 : ∀ s v, mapFind E s = some v →
      (v < dst.code ∧ mapFind dst.dictionary v = some s) ∨
      (v = dst.code ∧ s = dst.current ++ [charAt w 0]))
    (h2 : ∀ v s, mapFind dst.dictionary v = some s → v < dst.code) :
    Inv (p ++ [c]) ⟨codes ++ [v], mapSet E (w ++ [c]) n, [c], n + 1⟩ := by
  have hw1 : wrapInt (dst.code + 1) = dst.code + 1 := wrapInt_eq (by omega) (by omega)
  refine ⟨lzw_singles_mapSet E _ n hsing,
    ⟨by simp only; omega, by simp only [List.length_append, List.length_singleton]; omega⟩,
    Or.inr ⟨advance dst w, hdec, ?_, by simp, hw, ?_,
    lzw_singles_mapSet E _ n hsing c, ?_, ?_⟩⟩
  · simp only [advance]
    rw [hp]
  · simp only [advance, hw1]; omega
  · intro s v' hs
    simp only [advance, hw1]
    rw [mapFind_mapSet] at hs
    split at hs
    · rename_i e
      simp only [Option.some.injEq] at hs
      right
      exact ⟨by omega, by rw [e]; rfl⟩
    · left
      rcases h1 s v' hs with ⟨ha, hb⟩ | ⟨ha, hb⟩
      · refine ⟨by omega, ?_⟩
        rw [mapFind_mapSet, if_neg (by omega)]
        exact hb
      · refine ⟨by omega, ?_⟩
        rw [mapFind_mapSet, if_pos ha, hb]
  · intro v' s hs
    simp only [advance, hw1] at hs ⊢
    rw [mapFind_mapSet] at hs
    split at hs
    · omega
    · have := h2 v' s hs
      omega

theorem lzw_inv_step (p : List Byte) (st : CompressState) (c : Byte) (h : Inv p st)
    (hb : 256 + (p.length : Int) + 1 < 2 ^ 31) :
    Inv (p ++ [c]) (compressStep st c) := by
  obtain ⟨hsing, hbound, hcase⟩ := h
  have hwc : wrapInt (st.code + 1) = st.code + 1 := wrapInt_eq (by omega) (by omega)
  unfold compressStep
  simp only
  split
  · rename_i hsome
    refine ⟨hsing,
      ⟨hbound.1, by simp only [List.length_append, List.length_singleton]; omega⟩, ?_⟩
    rcases hcase with ⟨hr, hd, hc, hcur, hlen⟩ | ⟨dst, hdec, hp, hw, hq, hn, hv, h1, h2⟩
    · left
      refine ⟨hr, hd, hc, by simp only; rw [hcur], ?_⟩
      rw [hd] at hsome
      obtain ⟨v, hv⟩ := Option.isSome_iff_exists.mp hsome
      have := (initialDictionary_find _ v hv).1
      rw [hcur] at this
      exact le_of_eq this
    · right
      refine ⟨dst, hdec, by simp only; rw [← List.append_assoc, hp], by simp, hq, hn,
        Option.isSome_iff_exists.mp hsome, ?_, h2⟩
      intro s v hs
      simp only
      rw [charAt_append_left _ _ hw]
      exact h1 s v hs
  · rename_i hnone
    rcases hcase with ⟨hr, hd, hc, hcur, hlen⟩ | ⟨dst, hdec, hp, hw, hq, hn, hv, h1, h2⟩
    · have hpne : p ≠ [] := by
        intro e
        rw [hcur, e] at hnone
        obtain ⟨v, hv⟩ := hsing c
        simp [hv] at hnone
      obtain ⟨c0, hc0⟩ : ∃ c0, p = [c0] :=
        List.length_eq_one.mp (by have := List.length_pos.mpr hpne; omega)
      obtain ⟨v, hv⟩ := hsing c0
      have hv0 : mapFind initialDictionary [c0] = some v := by rw [← hd]; exact hv
      obtain ⟨_, hv256, hdv⟩ := initialDictionary_find _ v hv0
      rw [hcur, hc0, mapIndex_of_find _ _ 0 v hv]
      simp only [addToDictionary, hwc]
      simp only [hr, hc, List.nil_append]
      refine ⟨lzw_singles_mapSet _ _ _ hsing,
        ⟨by simp, by simp only [List.length_append, List.length_singleton]; omega⟩, Or.inr
        ⟨⟨[c0], initialDecodeDictionary, [c0], 256⟩, ?_, rfl, by simp, by simp, rfl,
          lzw_singles_mapSet _ _ _ hsing c, ?_, ?_⟩⟩
      · simp only [decompressWith, mapIndex_of_find _ _ [] _ hdv, List.foldl_nil]
      · intro s v' hs
        simp only
        rw [mapFind_mapSet] at hs
        split at hs
        · rename_i e
          simp only [Option.some.injEq] at hs
          right
          exact ⟨hs.symm, by rw [e]; rfl⟩
        · left
          rw [hd] at hs
          obtain ⟨_, hlt, hf⟩ := initialDictionary_find _ _ hs
          exact ⟨hlt, hf⟩
      · intro v' s hs
        exact initialDecodeDictionary_find v' s hs
    · obtain ⟨v, hv⟩ := hv
      rw [mapIndex_of_find _ _ 0 v hv]
      simp only [addToDictionary, hwc]
      have hne : st.result ≠ [] := by
        intro e
        rw [e] at hdec
        simp [decompressWith] at hdec
      have hstep := lzw_decode_emit st.dictionary dst st.current v hq hv h1 h2
      have hdec' : decompressWith initialDecodeDictionary (st.result ++ [v]) 256
          = .ok (advance dst st.current) := by
        rw [decompressWith_snoc _ _ _ _ hne, hdec, hstep]
      exact lzw_inv_emit p st.dictionary st.result st.current st.code c v dst hsing hdec'
        hp hw hn ⟨hbound.1, hbound.2, by omega⟩ h1 h2

theorem lzw_inv_foldl (input : List Byte) :
    ∀ (p : List Byte) (st : CompressState), Inv p st →
      256 + ((p ++ input).length : Int) < 2 ^ 31 →
      Inv (p ++ input) (input.foldl compressStep st) := by
  induction input with
  | nil => intro p st h _; simpa using h
  | cons c t ih =>
    intro p st h hb
    simp only [List.length_append, List.length_cons] at hb
    have := ih (p ++ [c]) (compressStep st c)
      (lzw_inv_step p st c h (by push_cast at hb; omega))
      (by simp only [List.length_append, List.length_singleton]; push_cast at hb ⊢; omega)
    simpa using this

/-- C3: for every non-empty byte sequence `x` of fewer than `2 ^ 31 - 256` bytes (so that
the `int` code counter, which starts at 256 and grows by at most one per byte, does not
overflow), `LZW::decompress(LZW::compress(x))` returns `x`; in particular the decoder
does not throw its invalid-input error on the encoder's output. -/
theorem lzw_roundtrip (x : List Byte) (hne : x ≠ [])
    (hx : (x.length : Int) + 256 < 2 ^ 31) :
    decompress (compress x) = .ok x := by
  have h := lzw_inv_foldl x [] ⟨[], initialDictionary, [], 256⟩ lzw_inv_init
    (by simp only [List.nil_append]; omega)
  simp only [List.nil_append] at h
  unfold compress compressWith decompress
  generalize x.foldl compressStep ⟨[], initialDictionary, [], 256⟩ = st at h
  obtain ⟨hsing, _, hcase⟩ := h
  rcases hcase with ⟨hr, hd, hc, hcur, hlen⟩ | ⟨dst, hdec, hp, hw, hq, hn, hv, h1, h2⟩
  · obtain ⟨c0, hc0⟩ : ∃ c0, x = [c0] :=
      List.length_eq_one.mp (by have := List.length_pos.mpr hne; omega)
    obtain ⟨v, hv⟩ := hsing c0
    have hv0 : mapFind initialDictionary [c0] = some v := by rw [← hd]; exact hv
    obtain ⟨_, _, hdv⟩ := initialDictionary_find _ v hv0
    have hcne : st.current ≠ [] := by rw [hcur]; exact hne
    simp only [hcne, ne_eq, not_false_eq_true, if_true]
    rw [hcur, hc0, mapIndex_of_find _ _ 0 v hv, hr]
    simp only [List.nil_append, decompressWith, mapIndex_of_find _ _ [] _ hdv, List.foldl_nil]
  · obtain ⟨v, hv⟩ := hv
    have hne' : st.result ≠ [] := by
      intro e
      rw [e] at hdec
      simp [decompressWith] at hdec
    simp only [hw, ne_eq, not_false_eq_true, if_true]
    rw [mapIndex_of_find _ _ 0 v hv]
    simp only
    rw [decompressWith_snoc _ _ _ _ hne', hdec,
      lzw_decode_emit st.dictionary dst st.current v hq hv h1 h2]
    simp only [advance, hp]

/-- Witness of `lzw_roundtrip` on "AAAAAA", whose codes 65, 256, 257 use the code that
is about to be assigned twice. -/
theorem lzw_roundtrip_witness :
    ([65, 65, 65, 65, 65, 65] : List Byte) ≠ [] ∧
    ((([65, 65, 65, 65, 65, 65] : List Byte).length : Int) + 256 < 2 ^ 31) ∧
    decompress (compress [65, 65, 65, 65, 65, 65]) = .ok [65, 65, 65, 65, 65, 65] :=
  ⟨by simp, by decide, lzw_roundtrip _ (by simp) (by decide)⟩

theorem initialDecodeDictionary_miss (v : Int) (h : 256 ≤ v) :
    mapFind initialDecodeDictionary v = none := by
  cases hm : mapFind initialDecodeDictionary v with
  | none => rfl
  | some s =>
    have := initialDecodeDictionary_find v s hm
    omega

/-- C14, the code at two failing inputs: the first code of a sequence is read through
`dictionary[input[0]]` without any check, so the sequence `{257}`, whose only code is
greater than the next code 256, decodes to the empty string; and the entry that this
read inserts makes the same code acceptable at position 1, so `{257, 257}` decodes to
the empty string as well. No error is raised. -/
theorem lzw_first_code_unchecked :
    decompress [257] = .ok [] ∧ decompress [257, 257] = .ok [] := by
  have hmiss := initialDecodeDictionary_miss 257 (by decide)
  constructor
  · simp only [decompress, decompressWith, mapIndex, hmiss, List.foldl_nil]
  · simp only [decompress, decompressWith, mapIndex, hmiss, List.foldl_cons, List.foldl_nil,
      decompressStep, mapFind_mapSet, if_true, advance, List.append_nil]

/-- C18, the code on the empty input: `LZW::compress` returns no code, and
`LZW::decompress` of the empty code sequence starts by reading `input[0]`, an element the
vector does not have, which is undefined. -/
theorem lzw_empty_input : compress [] = [] ∧ decompress [] = .undefined := by
  constructor
  · simp [compress, compressWith]
  · rfl

theorem compressOptimizedStep_eq (st : CompressState) (c : Byte) :
    compressOptimizedStep st c = compressStep st c := by
  unfold compressOptimizedStep compressStep
  have htake : (st.current ++ [c]).take ((st.current ++ [c]).length - 1) = st.current := by
    rw [List.length_append, List.length_singleton, Nat.add_sub_cancel, List.take_left]
  simp only [htake]
  cases h : mapFind st.dictionary (st.current ++ [c]) with
  | none => simp
  | some v => simp

theorem compressOptimizedWith_eq (result : List Int) (dictionary : List (List Byte × Int))
    (input : List Byte) (code : Int) :
    compressOptimizedWith result dictionary input code =
      compressWith result dictionary input code := by
  have hstep : compressOptimizedStep = compressStep :=
    funext fun st => funext fun c => compressOptimizedStep_eq st c
  unfold compressOptimizedWith compressWith
  rw [hstep]

/-- C29: for every input `x`, `LZW::compressOptimized(x)` is `LZW::compress(x)`: the
variant that derives the emitted code from the buffer minus its last byte produces the
same code sequence as the plain encoder. -/
theorem lzw_compressOptimized_eq (x : List Byte) : compressOptimized x = compress x := by
  unfold compressOptimized compress
  rw [compressOptimizedWith_eq]

/-- The keys of the decoder's initial dictionary are the codes 0 .. 255. -/
theorem initialDecodeDictionary_keys (v : Int) :
    (mapFind initialDecodeDictionary v).isSome ↔ (0 ≤ v ∧ v < 256) := by
  constructor
  · intro h
    obtain ⟨s, hs⟩ := Option.isSome_iff_exists.mp h
    obtain ⟨i, hi, h1, _⟩ := initialDecodeDictionary_find_aux 256 v s hs
    omega
  · intro ⟨h0, h1⟩
    have hget := initialDecodeDictionary_get_aux 256 v.toNat (by omega)
    have e : ((v.toNat : Nat) : Int) = v := Int.toNat_of_nonneg h0
    rw [e] at hget
    unfold initialDecodeDictionary
    rw [hget]
    rfl

theorem foldl_decompressStep_invalid (l : List Int) :
    l.foldl decompressStep .invalidInput = .invalidInput := by
  induction l with
  | nil => rfl
  | cons a t ih => simpa [decompressStep] using ih

/-- The decoder's loop from a state whose dictionary keys are the codes `0 .. code - 1`,
on a code list short enough for the `int` counter not to overflow: it throws exactly when
some code, `j` places further on, is negative or greater than `code + j`, and returns a
state otherwise. -/
theorem foldl_decompressStep_cases (l : List Int) :
    ∀ (st : DecompressState), 0 ≤ st.code → st.code + (l.length : Int) < 2 ^ 31 →
      (∀ v, (mapFind st.dictionary v).isSome ↔ (0 ≤ v ∧ v < st.code)) →
      ((∃ (j : Nat) (c : Int), l[j]? = some c ∧ (c < 0 ∨ st.code + (j : Int) < c)) ∧
        l.foldl decompressStep (.ok st) = .invalidInput) ∨
      ((¬ ∃ (j : Nat) (c : Int), l[j]? = some c ∧ (c < 0 ∨ st.code + (j : Int) < c)) ∧
        ∃ st', l.foldl decompressStep (.ok st) = .ok st') := by
  induction l with
  | nil =>
    intro st _ _ _
    exact Or.inr ⟨by simp, st, rfl⟩
  | cons c t ih =>
    intro st hcode hfit hkeys
    simp only [List.length_cons] at hfit
    push_cast at hfit
    have hw : wrapInt (st.code + 1) = st.code + 1 := wrapInt_eq (by omega) (by omega)
    rw [List.foldl_cons]
    by_cases hbad : c < 0 ∨ st.code < c
    · left
      refine ⟨⟨0, c, by simp, by simpa using hbad⟩, ?_⟩
      have hnone : mapFind st.dictionary c = none := by
        cases hm : mapFind st.dictionary c with
        | none => rfl
        | some e =>
          have := (hkeys c).mp (by rw [hm]; rfl)
          omega
      have hne : c ≠ st.code := by omega
      have hstep : decompressStep (.ok st) c = .invalidInput := by
        simp only [decompressStep, hnone, if_neg hne]
      rw [hstep]
      exact foldl_decompressStep_invalid t
    · have hok : ∃ entry, decompressStep (.ok st) c = .ok (advance st entry) := by
        cases hm : mapFind st.dictionary c with
        | some e => exact ⟨e, by simp only [decompressStep, hm]⟩
        | none =>
          have hnk : ¬ (0 ≤ c ∧ c < st.code) := fun h => by
            have := (hkeys c).mpr h
            rw [hm] at this
            exact Bool.noConfusion this
          have hc : c = st.code := by omega
          exact ⟨st.current ++ [charAt st.current 0],
            by simp only [decompressStep, hm, if_pos hc]⟩
      obtain ⟨entry, hstep⟩ := hok
      rw [hstep]
      have hkeys2 : ∀ v, (mapFind (advance st entry).dictionary v).isSome ↔
          (0 ≤ v ∧ v < (advance st entry).code) := by
        intro v
        simp only [advance, hw, mapFind_mapSet]
        by_cases hv : v = st.code
        · rw [if_pos hv]
          simp only [Option.isSome_some, true_iff]
          omega
        · rw [if_neg hv, hkeys v]
          omega
      have hcode2 : 0 ≤ (advance st entry).code := by
        simp only [advance, hw]; omega
      have hfit2 : (advance st entry).code + (t.length : Int) < 2 ^ 31 := by
        simp only [advance, hw]; omega
      have hshift : (∃ (j : Nat) (c0 : Int), (c :: t)[j]? = some c0 ∧ (c0 < 0 ∨ st.code + (j : Int) < c0)) ↔
          (∃ (j : Nat) (c0 : Int), t[j]? = some c0 ∧ (c0 < 0 ∨ (advance st entry).code + (j : Int) < c0)) := by
        constructor
        · rintro ⟨j, c0, hj, hb⟩
          cases j with
          | zero =>
            simp only [List.getElem?_cons_zero, Option.some.injEq] at hj
            subst hj
            exfalso
            apply hbad
            simpa using hb
          | succ j =>
            simp only [List.getElem?_cons_succ] at hj
            refine ⟨j, c0, hj, ?_⟩
            simp only [advance, hw]
            push_cast at hb
            omega
        · rintro ⟨j, c0, hj, hb⟩
          refine ⟨j + 1, c0, by simpa using hj, ?_⟩
          simp only [advance, hw] at hb
          push_cast
          omega
      rcases ih (advance st entry) hcode2 hfit2 hkeys2 with ⟨h1, h2⟩ | ⟨h1, h2⟩
      · exact Or.inl ⟨hshift.mpr h1, h2⟩
      · exact Or.inr ⟨fun h => h1 (hshift.mp h), h2⟩

/-- C30: on a non-empty code sequence whose first code is in 0 .. 255 and which has
fewer than `2 ^ 31 - 255` codes (so that the `int` counter `code`, which starts at 256
and grows by one per code after the first, does not overflow), `LZW::decompress` throws
its invalid-input error if and only if some code at a position `k >= 1` (0-based) is
negative or greater than `255 + k`, that is, is neither in the table (0 .. 254 + k) nor
the next code to be assigned (255 + k); otherwise it returns a string. The codes after
the first are arbitrary integers, the values of an `int` among them. -/
theorem lzw_decompress_error_iff (k0 : Int) (rest : List Int) (h0 : 0 ≤ k0)
    (h255 : k0 ≤ 255) (hfit : ((k0 :: rest).length : Int) + 255 < 2 ^ 31) :
    (decompress (k0 :: rest) = .invalidInput ↔
      ∃ (k : Nat) (c : Int), 1 ≤ k ∧ (k0 :: rest)[k]? = some c ∧
        (c < 0 ∨ 255 + (k : Int) < c)) ∧
    ((¬ ∃ (k : Nat) (c : Int), 1 ≤ k ∧ (k0 :: rest)[k]? = some c ∧
        (c < 0 ∨ 255 + (k : Int) < c)) →
      ∃ s, decompress (k0 :: rest) = .ok s) := by
  obtain ⟨e, he⟩ := Option.isSome_iff_exists.mp
    ((initialDecodeDictionary_keys k0).mpr ⟨h0, by omega⟩)
  have hshift : (∃ (k : Nat) (c : Int), 1 ≤ k ∧ (k0 :: rest)[k]? = some c ∧
        (c < 0 ∨ 255 + (k : Int) < c)) ↔
      (∃ (j : Nat) (c : Int), rest[j]? = some c ∧ (c < 0 ∨ (256 : Int) + (j : Int) < c)) := by
    constructor
    · rintro ⟨k, c, hk, hget, hb⟩
      cases k with
      | zero => omega
      | succ j =>
        simp only [List.getElem?_cons_succ] at hget
        refine ⟨j, c, hget, ?_⟩
        push_cast at hb
        omega
    · rintro ⟨j, c, hget, hb⟩
      refine ⟨j + 1, c, by omega, by simpa using hget, ?_⟩
      push_cast
      omega
  have hfold := foldl_decompressStep_cases rest ⟨e, initialDecodeDictionary, e, 256⟩
    (by show (0 : Int) ≤ 256; decide)
    (by
      show (256 : Int) + (rest.length : Int) < 2 ^ 31
      simp only [List.length_cons] at hfit
      push_cast at hfit
      omega)
    initialDecodeDictionary_keys
  have hrun : decompressWith initialDecodeDictionary (k0 :: rest) 256 =
      rest.foldl decompressStep (.ok ⟨e, initialDecodeDictionary, e, 256⟩) := by
    simp only [decompressWith, mapIndex_of_find _ _ _ _ he]
  unfold decompress
  rw [hrun, hshift]
  rcases hfold with ⟨h1, h2⟩ | ⟨h1, st', h2⟩
  · rw [h2]
    exact ⟨⟨fun _ => h1, fun _ => rfl⟩, fun h => absurd h1 h⟩
  · rw [h2]
    refine ⟨⟨fun h => ?_, fun h => absurd h h1⟩, fun _ => ⟨st'.result, rfl⟩⟩
    exact Result.noConfusion h

/-- Witness of `lzw_decompress_error_iff` on the codes 65, 256, 258: the code 258 at
position 2 is greater than 255 + 2, and the decoder throws. -/
theorem lzw_decompress_error_iff_witness :
    (0 : Int) ≤ 65 ∧ (65 : Int) ≤ 255 ∧
    ((([65, 256, 258] : List Int).length : Int) + 255 < 2 ^ 31) ∧
    (decompress [65, 256, 258] = .invalidInput ↔
      ∃ (k : Nat) (c : Int), 1 ≤ k ∧ ([65, 256, 258] : List Int)[k]? = some c ∧
        (c < 0 ∨ 255 + (k : Int) < c)) :=
  ⟨by decide, by decide, by decide,
   (lzw_decompress_error_iff 65 [256, 258] (by decide) (by decide) (by decide)).1⟩

end LZW

end Compra
